import Mathlib

/-!
Verification development for the conversational job-search backend
(`ai/role_resolver.py`, `ai/extraction.py`, `jobs/job_cards.py`,
`jobs/adzuna.py`, `core/chat_orchestrator.py`, `core/state_machine.py`,
`api/chat.py`).

The Python code is shallowly embedded: strings are `String`/`List Char`
with the ASCII semantics of `str.lower`, `re.sub`, `\b` word boundaries
and whitespace splitting; machine-level details (telemetry, sessions,
HTTP) are out of scope, and the two external collaborators (the
text-completion service and the listing provider) are passed in as
explicit parameters, matching the failure semantics of the source.
-/

/-! ### Character classes (ASCII semantics of the Python regexes) -/

def lowerChar (c : Char) : Char :=
  if 65 ≤ c.toNat ∧ c.toNat ≤ 90 then Char.ofNat (c.toNat + 32) else c

def lowerL (l : List Char) : List Char := l.map lowerChar

def lowerS (s : String) : String := String.mk (lowerL s.toList)

/-- `[a-z0-9]`: the characters kept by `_clean_text` / `_tokens` after lowering. -/
def isAlnumC (c : Char) : Bool :=
  (97 ≤ c.toNat && c.toNat ≤ 122) || (48 ≤ c.toNat && c.toNat ≤ 57)

/-- Python `\s` (ASCII range). -/
def isWsC (c : Char) : Bool :=
  c = ' ' || c.toNat = 9 || c.toNat = 10 || c.toNat = 11 || c.toNat = 12 || c.toNat = 13

/-- Python `\w` (ASCII range), used for the `\b` word boundaries. -/
def isWordC (c : Char) : Bool :=
  (97 ≤ c.toNat && c.toNat ≤ 122) || (65 ≤ c.toNat && c.toNat ≤ 90) ||
    (48 ≤ c.toNat && c.toNat ≤ 57) || c.toNat = 95

/-- Substring test (`needle in hay` on Python strings). -/
def containsSub (needle hay : String) : Bool :=
  decide (needle.toList <:+: hay.toList)

/-! ### Maximal runs of characters satisfying `p`

`re.sub(r"[^a-z0-9\s]+", " ", s).split()` splits a lowered string into the
maximal runs of `[a-z0-9]` characters; `s.split()` splits into maximal runs
of non-whitespace.  Both are instances of `runsP`. -/

def runsAux (p : Char → Bool) (acc : List Char) : List Char → List (List Char)
  | [] => if acc = [] then [] else [acc.reverse]
  | c :: cs =>
    if p c then runsAux p (c :: acc) cs
    else if acc = [] then runsAux p [] cs
    else acc.reverse :: runsAux p [] cs

def runsP (p : Char → Bool) (l : List Char) : List (List Char) :=
  runsAux p [] l

theorem runsAux_acc (p : Char → Bool) :
    ∀ (l acc : List Char), acc ≠ [] →
      runsAux p acc l = (acc.reverse ++ l.takeWhile p) :: runsAux p [] (l.dropWhile p)
  | [], acc, h => by simp [runsAux, h]
  | c :: cs, acc, h => by
    by_cases hc : p c = true
    · have h1 : runsAux p acc (c :: cs) = runsAux p (c :: acc) cs := by
        simp [runsAux, hc]
      rw [h1, runsAux_acc p cs (c :: acc) (by simp)]
      simp [hc, List.takeWhile_cons, List.dropWhile_cons]
    · have hcf : p c = false := Bool.eq_false_iff.mpr hc
      simp [runsAux, hcf, h, List.takeWhile_cons, List.dropWhile_cons]

theorem runsP_nil (p : Char → Bool) : runsP p [] = [] := rfl

theorem runsP_cons (p : Char → Bool) (c : Char) (cs : List Char) :
    runsP p (c :: cs) =
      if p c then (c :: cs.takeWhile p) :: runsP p (cs.dropWhile p)
      else runsP p cs := by
  unfold runsP
  by_cases hc : p c = true
  · rw [if_pos hc]
    have h1 : runsAux p [] (c :: cs) = runsAux p [c] cs := by
      simp [runsAux, hc]
    rw [h1, runsAux_acc p cs [c] (by simp)]
    simp
  · have hcf : p c = false := Bool.eq_false_iff.mpr hc
    rw [if_neg hc]
    simp [runsAux, hcf]

/-- Every run is nonempty and consists of characters satisfying `p`. -/
theorem runsP_sound (p : Char → Bool) :
    ∀ l t, t ∈ runsP p l → t ≠ [] ∧ ∀ c ∈ t, p c = true
  | [], t, ht => by simp [runsP_nil] at ht
  | c :: cs, t, ht => by
    rw [runsP_cons] at ht
    by_cases hc : p c = true
    · rw [if_pos hc] at ht
      rcases List.mem_cons.mp ht with rfl | h
      · refine ⟨by simp, ?_⟩
        intro x hx
        rcases List.mem_cons.mp hx with rfl | hx
        · exact hc
        · exact List.mem_takeWhile_imp hx
      · exact runsP_sound p (cs.dropWhile p) t h
    · rw [if_neg hc] at ht
      exact runsP_sound p cs t ht
termination_by l => l.length
decreasing_by
  · exact Nat.lt_succ_of_le (List.Sublist.length_le (List.dropWhile_sublist p))
  · exact Nat.lt_succ_self _

/-- Every run occurs in the source list. -/
theorem runsP_infix (p : Char → Bool) :
    ∀ l t, t ∈ runsP p l → t <:+: l
  | [], t, ht => by simp [runsP_nil] at ht
  | c :: cs, t, ht => by
    rw [runsP_cons] at ht
    by_cases hc : p c = true
    · rw [if_pos hc] at ht
      rcases List.mem_cons.mp ht with rfl | h
      · refine ⟨[], cs.dropWhile p, ?_⟩
        simp
      · have h2 := runsP_infix p (cs.dropWhile p) t h
        have h3 : (cs.dropWhile p) <:+: (c :: cs) := by
          refine ⟨c :: cs.takeWhile p, [], ?_⟩
          simp
        exact h2.trans h3
    · rw [if_neg hc] at ht
      have h2 := runsP_infix p cs t ht
      exact h2.trans (List.suffix_cons c cs).isInfix
termination_by l => l.length
decreasing_by
  · exact Nat.lt_succ_of_le (List.Sublist.length_le (List.dropWhile_sublist p))
  · exact Nat.lt_succ_self _

/-- Case analysis for an infix of a concatenation: it lies in the left part,
in the right part, or crosses the border. -/
theorem infix_append_cases {α : Type} {m a b : List α} (h : m <:+: a ++ b) :
    m <:+: a ∨ m <:+: b ∨
      ∃ x y, m = x ++ y ∧ x ≠ [] ∧ y ≠ [] ∧ x <:+ a ∧ y <+: b := by
  induction a with
  | nil => exact Or.inr (Or.inl (by simpa using h))
  | cons c a' ih =>
    rcases List.infix_cons_iff.mp h with hpre | hinf
    · by_cases hlen : m.length ≤ (c :: a').length
      · exact Or.inl
          (List.prefix_of_prefix_length_le hpre (List.prefix_append (c :: a') b) hlen).isInfix
      · push_neg at hlen
        rcases List.prefix_of_prefix_length_le (List.prefix_append (c :: a') b) hpre
          (Nat.le_of_lt hlen) with ⟨y, hy⟩
        refine Or.inr (Or.inr ⟨c :: a', y, hy.symm, by simp, ?_, List.suffix_rfl, ?_⟩)
        · intro h0
          subst h0
          have h5 := congrArg List.length hy
          simp only [List.length_append, List.length_nil, List.length_cons] at h5 hlen
          omega
        · have h4 : (c :: a') ++ y <+: (c :: a') ++ b := hy ▸ hpre
          exact (List.prefix_append_right_inj (c :: a')).mp h4
    · rcases ih hinf with h1 | h2 | ⟨x, y, hxy, hx, hyne, hsuf, hpre2⟩
      · exact Or.inl (h1.trans (List.suffix_cons c a').isInfix)
      · exact Or.inr (Or.inl h2)
      · exact Or.inr (Or.inr ⟨x, y, hxy, hx, hyne, hsuf.trans (List.suffix_cons c a'), hpre2⟩)

/-- A prefix all of whose characters satisfy `p` is a prefix of `takeWhile p`. -/
theorem prefix_takeWhileP {p : Char → Bool} :
    ∀ {m l : List Char}, m <+: l → (∀ c ∈ m, p c = true) → m <+: l.takeWhile p
  | [], _, _, _ => List.nil_prefix
  | c :: m', l, hp, hall => by
    rcases hp with ⟨t, ht⟩
    subst ht
    rw [List.cons_append, List.takeWhile_cons]
    have hc : p c = true := hall c (by simp)
    rw [if_pos hc]
    have h2 : m' <+: (m' ++ t).takeWhile p :=
      @prefix_takeWhileP p m' (m' ++ t) ⟨t, rfl⟩
        (fun x hx => hall x (by simp [hx]))
    exact (List.prefix_cons_inj c).mpr h2

/-- The head of `dropWhile p` does not satisfy `p`. -/
theorem head_dropWhileP (p : Char → Bool) (l : List Char) (c : Char) (rest : List Char)
    (h : l.dropWhile p = c :: rest) : p c = false := by
  have h2 := List.head?_dropWhile_not p l
  rw [h] at h2
  simpa using h2

/-- Any nonempty all-`p` infix of `l` is contained in one of the runs of `l`. -/
theorem runsP_capture (p : Char → Bool) :
    ∀ l m, m ≠ [] → (∀ c ∈ m, p c = true) → m <:+: l →
      ∃ r ∈ runsP p l, m <:+: r
  | [], m, hne, _, hinf => absurd (List.eq_nil_of_infix_nil hinf) hne
  | c :: cs, m, hne, hall, hinf => by
    rw [runsP_cons]
    by_cases hc : p c = true
    · rw [if_pos hc]
      rcases List.infix_cons_iff.mp hinf with hpre | hinf'
      · rcases m with _ | ⟨d, m'⟩
        · exact absurd rfl hne
        · rcases hpre with ⟨t, ht⟩
          have hd : d = c := (List.cons.injEq d (m' ++ t) c cs).mp ht |>.1
          subst hd
          have hm' : m' <+: cs := ⟨t, ((List.cons.injEq d (m' ++ t) d cs).mp ht).2⟩
          have h2 : m' <+: cs.takeWhile p :=
            prefix_takeWhileP hm' (fun x hx => hall x (by simp [hx]))
          exact ⟨d :: cs.takeWhile p, by simp,
            (((List.prefix_cons_inj d).mpr h2)).isInfix⟩
      · have hsplit : cs = cs.takeWhile p ++ cs.dropWhile p :=
          (List.takeWhile_append_dropWhile p cs).symm
        rw [hsplit] at hinf'
        rcases infix_append_cases hinf' with h1 | h2 | ⟨x, y, hxy, _, hyne, _, hypre⟩
        · exact ⟨c :: cs.takeWhile p, by simp,
            h1.trans (List.suffix_cons c (cs.takeWhile p)).isInfix⟩
        · rcases runsP_capture p (cs.dropWhile p) m hne hall h2 with ⟨r, hr, hmr⟩
          exact ⟨r, by simp [hr], hmr⟩
        · rcases y with _ | ⟨yc, yrest⟩
          · exact absurd rfl hyne
          · rcases hypre with ⟨t, ht⟩
            have h1 : p yc = false := head_dropWhileP p cs yc (yrest ++ t) ht.symm
            have h2 : p yc = true := hall yc (by simp [hxy])
            rw [h1] at h2
            exact absurd h2 (by simp)
    · rw [if_neg hc]
      rcases List.infix_cons_iff.mp hinf with hpre | hinf'
      · rcases m with _ | ⟨d, m'⟩
        · exact absurd rfl hne
        · rcases hpre with ⟨t, ht⟩
          have hd : d = c := ((List.cons.injEq d (m' ++ t) c cs).mp ht).1
          subst hd
          exact absurd (hall d (by simp)) (by simp [hc])
      · exact runsP_capture p cs m hne hall hinf'
termination_by l => l.length
decreasing_by
  · exact Nat.lt_succ_of_le (List.Sublist.length_le (List.dropWhile_sublist p))
  · exact Nat.lt_succ_self _

/-! ### `jobs/job_cards.py` — tokenization and relevance scoring -/

/-- `_tokens`: lowercase, strip punctuation, keep tokens of length ≥ 3 (a set). -/
def jobTokens (s : String) : List String :=
  (((runsP isAlnumC (lowerL s.toList)).filter (fun t => 3 ≤ t.length)).map
    (fun t => String.mk t)).dedup

def ppcExpansion : List String :=
  ["ppc", "paid", "search", "adwords", "google", "ads", "sem", "performance", "acquisition"]

def ROLE_KEYWORD_EXPANSIONS : List (String × List String) :=
  [("ppc", ppcExpansion), ("google ads", ppcExpansion),
   ("paid search", ppcExpansion), ("adwords", ppcExpansion)]

/-- `_expanded_role_tokens` (a set, represented as a deduplicated list). -/
def expandedRoleTokens (role_canon : String) : List String :=
  (jobTokens role_canon ++
    ROLE_KEYWORD_EXPANSIONS.foldl
      (fun (acc : List String) (kv : String × List String) =>
        if containsSub kv.1 (lowerS role_canon) then acc ++ kv.2 else acc)
      []).dedup

def STRICT_MARKERS : List String := ["ppc", "google ads", "paid search", "adwords", "sem"]

def strictMatchRequired (role_canon : String) : Bool :=
  STRICT_MARKERS.any (fun k => containsSub k (lowerS role_canon))

def strictMatchHit (text : String) : Bool :=
  STRICT_MARKERS.any (fun k => containsSub k (lowerS text))

/-- Python `a or b` for strings (`""` is falsy). -/
def pyOr (a b : String) : String := if a = "" then b else a

/-- A normalized job listing (the dict shape produced by `fetch_jobs`;
absent/None fields are represented by `""`, matching the `or ""` reads). -/
structure Job where
  title : String := ""
  company : String := ""
  location : String := ""
  redirect_url : String := ""
  description : String := ""
  snippet : String := ""
  id : Option String := none
deriving DecidableEq

structure ScoreMeta where
  score : Int
  reasons : List String
  missing : List String
  action : String
deriving DecidableEq

/-- `len(role_toks & text_toks)` in `score_job`. -/
def tokenOverlap (role_canon title snippet : String) : Nat :=
  ((expandedRoleTokens role_canon).filter
    (fun t => t ∈ jobTokens (title ++ " " ++ snippet))).length

/-- The score before the final clamp: base 50, role-overlap bonus,
specialist penalty, location bonus, company bonus (`score_job` lines 92-121). -/
def scoreRaw (job : Job) (role_canon location : String) : Int :=
  let snippet := pyOr job.description job.snippet
  let overlap := tokenOverlap role_canon job.title snippet
  (50 : Int)
    + (if overlap ≥ 3 then 25 else if overlap = 2 then 18 else if overlap = 1 then 8 else -12)
    + (if strictMatchRequired role_canon ∧
          ¬ strictMatchHit (job.title ++ " " ++ snippet) then -25 else 0)
    + (if location ≠ "" ∧ containsSub (lowerS location) (lowerS job.location) then 15 else 0)
    + (if job.company ≠ "" then 2 else 0)

/-- `score_job`. -/
def score_job (job : Job) (role_canon location : String) : ScoreMeta :=
  let snippet := pyOr job.description job.snippet
  let overlap := tokenOverlap role_canon job.title snippet
  let reasons :=
    (if overlap ≥ 3 then ["Strong match to your role keywords."]
     else if overlap = 2 then ["Good match to your role keywords."]
     else if overlap = 1 then ["Partial match to your role keywords."]
     else []) ++
    (if location ≠ "" ∧ containsSub (lowerS location) (lowerS job.location) then
      ["Location matches your preference."] else [])
  let missing :=
    (if overlap ≥ 3 ∨ overlap = 2 ∨ overlap = 1 then []
     else ["Doesn’t strongly match your role keywords."]) ++
    (if strictMatchRequired role_canon ∧
        ¬ strictMatchHit (job.title ++ " " ++ snippet) then
      ["Looks more like a related role than a direct match."] else [])
  let score := max 0 (min 100 (scoreRaw job role_canon location))
  { score := score
    reasons := reasons.take 2
    missing := missing.take 2
    action := if score ≥ 70 then "Apply" else if score ≥ 55 then "Consider" else "Skip" }

theorem scoreRaw_bounds (job : Job) (role_canon location : String) :
    13 ≤ scoreRaw job role_canon location ∧ scoreRaw job role_canon location ≤ 92 := by
  simp only [scoreRaw]
  split_ifs <;> norm_num

theorem score_job_score_eq (job : Job) (role_canon location : String) :
    (score_job job role_canon location).score =
      max 0 (min 100 (scoreRaw job role_canon location)) := rfl

/-- C2: for every job and role/location input, the score is within `[0, 100]`
and the action is exactly Apply / Consider / Skip according to the
`≥ 70` / `≥ 55` / `< 55` thresholds. -/
theorem score_job_bounds_and_action (job : Job) (role_canon location : String) :
    (0 ≤ (score_job job role_canon location).score ∧
      (score_job job role_canon location).score ≤ 100) ∧
    ((score_job job role_canon location).action = "Apply" ↔
      70 ≤ (score_job job role_canon location).score) ∧
    ((score_job job role_canon location).action = "Consider" ↔
      (55 ≤ (score_job job role_canon location).score ∧
        (score_job job role_canon location).score < 70)) ∧
    ((score_job job role_canon location).action = "Skip" ↔
      (score_job job role_canon location).score < 55) := by
  have hsc := score_job_score_eq job role_canon location
  have hact : (score_job job role_canon location).action =
      (if (score_job job role_canon location).score ≥ 70 then "Apply"
       else if (score_job job role_canon location).score ≥ 55 then "Consider"
       else "Skip") := rfl
  constructor
  · constructor
    · rw [hsc]; exact le_max_left 0 _
    · rw [hsc]
      exact max_le (by norm_num) (le_trans (min_le_left _ _) (by norm_num))
  · rw [hact]
    split_ifs with h1 h2 <;>
      refine ⟨⟨fun ha => ?_, fun ha => ?_⟩, ⟨fun ha => ?_, fun ha => ?_⟩,
        ⟨fun ha => ?_, fun ha => ?_⟩⟩ <;>
      first
        | omega
        | (exact absurd ha (by decide))
        | rfl

/-- C9: the role bonus (≤ 25), location bonus (≤ 15) and company bonus (≤ 2)
on top of the base 50 cap the raw score at 92, so scores 93–100 are
unreachable and the upper clamp at 100 never activates
(`score = max 0 raw`). -/
theorem score_job_le_92 (job : Job) (role_canon location : String) :
    (score_job job role_canon location).score ≤ 92 ∧
    scoreRaw job role_canon location ≤ 92 ∧
    (score_job job role_canon location).score =
      max 0 (scoreRaw job role_canon location) := by
  have hb := scoreRaw_bounds job role_canon location
  have hsc := score_job_score_eq job role_canon location
  refine ⟨?_, hb.2, ?_⟩
  · rw [hsc]
    exact max_le (by norm_num) (le_trans (min_le_right _ _) hb.2)
  · rw [hsc, min_eq_right (le_trans hb.2 (by norm_num))]

/-! ### Token-membership lemmas used for the strict-match analysis -/

theorem containsSub_eq_true {a b : String} :
    containsSub a b = true ↔ a.toList <:+: b.toList := by
  simp [containsSub]

theorem lowerS_toList (s : String) : (lowerS s).toList = lowerL s.toList := rfl

theorem mem_jobTokens {s t : String} (h : t ∈ jobTokens s) :
    t.toList <:+: lowerL s.toList ∧ (∀ c ∈ t.toList, isAlnumC c = true) ∧ t.toList ≠ [] := by
  simp only [jobTokens, List.mem_dedup, List.mem_map, List.mem_filter,
    decide_eq_true_eq] at h
  rcases h with ⟨r, ⟨hr, _⟩, rfl⟩
  have hs := runsP_sound isAlnumC (lowerL s.toList) r hr
  have hi := runsP_infix isAlnumC (lowerL s.toList) r hr
  exact ⟨hi, hs.2, hs.1⟩

theorem mem_jobTokens_of_run {s : String} {r : List Char}
    (hr : r ∈ runsP isAlnumC (lowerL s.toList)) (hlen : 3 ≤ r.length) :
    String.mk r ∈ jobTokens s := by
  simp only [jobTokens, List.mem_dedup, List.mem_map, List.mem_filter,
    decide_eq_true_eq]
  exact ⟨r, ⟨hr, hlen⟩, rfl⟩

theorem base_subset_expanded {rc t : String} (h : t ∈ jobTokens rc) :
    t ∈ expandedRoleTokens rc := by
  simp only [expandedRoleTokens, List.mem_dedup, List.mem_append]
  exact Or.inl h

theorem ppc_mem_expanded {rc : String}
    (h : ∃ k ∈ ["ppc", "google ads", "paid search", "adwords"],
      containsSub k (lowerS rc) = true) :
    "ppc" ∈ expandedRoleTokens rc := by
  simp only [expandedRoleTokens, List.mem_dedup, List.mem_append]
  refine Or.inr ?_
  rcases h with ⟨k, hk, hcon⟩
  simp only [List.mem_cons, List.not_mem_nil, or_false] at hk
  simp only [ROLE_KEYWORD_EXPANSIONS, List.foldl]
  rcases hk with rfl | rfl | rfl | rfl <;>
    split_ifs <;> simp_all [ppcExpansion]

/-- If the fully-expanded role tokens all appear among the scored text's
tokens, then a strict-match requirement on the role forces a strict-match
hit on the text. -/
theorem strict_hit_of_full_match (rc text : String)
    (hful : ∀ t ∈ expandedRoleTokens rc, t ∈ jobTokens text)
    (hreq : strictMatchRequired rc = true) :
    strictMatchHit text = true := by
  have hit_of : ∀ m : String, m ∈ STRICT_MARKERS →
      m.toList <:+: lowerL text.toList → strictMatchHit text = true := by
    intro m hm hinf
    simp only [strictMatchHit, List.any_eq_true]
    exact ⟨m, hm, by rw [containsSub_eq_true, lowerS_toList]; exact hinf⟩
  simp only [strictMatchRequired, List.any_eq_true] at hreq
  rcases hreq with ⟨k, hk, hcon⟩
  simp only [STRICT_MARKERS, List.mem_cons, List.not_mem_nil, or_false] at hk
  have viaPpc : "ppc" ∈ expandedRoleTokens rc → strictMatchHit text = true := by
    intro hppc
    have htok := hful _ hppc
    have hmem := mem_jobTokens htok
    exact hit_of "ppc" (by simp [STRICT_MARKERS]) hmem.1
  rcases hk with rfl | rfl | rfl | rfl | rfl
  · exact viaPpc (ppc_mem_expanded ⟨"ppc", by simp, hcon⟩)
  · exact viaPpc (ppc_mem_expanded ⟨"google ads", by simp, hcon⟩)
  · exact viaPpc (ppc_mem_expanded ⟨"paid search", by simp, hcon⟩)
  · exact viaPpc (ppc_mem_expanded ⟨"adwords", by simp, hcon⟩)
  · -- "sem" occurs inside the role text, hence inside one of its tokens,
    -- which the fully-matching text also contains.
    have hinf : ("sem" : String).toList <:+: lowerL rc.toList := by
      rw [← lowerS_toList, ← containsSub_eq_true]
      exact hcon
    rcases runsP_capture isAlnumC (lowerL rc.toList) ("sem" : String).toList
      (by decide) (by decide) hinf with ⟨r, hr, hsub⟩
    have hlen : 3 ≤ r.length :=
      le_trans (by decide : 3 ≤ ("sem" : String).toList.length) hsub.length_le
    have htok := hful _ (base_subset_expanded (mem_jobTokens_of_run hr hlen))
    have hmem := mem_jobTokens htok
    exact hit_of "sem" (by simp [STRICT_MARKERS]) (hsub.trans hmem.1)

theorem tokenOverlap_full {rc title snip : String}
    (hful : ∀ t ∈ expandedRoleTokens rc, t ∈ jobTokens (title ++ " " ++ snip)) :
    tokenOverlap rc title snip = (expandedRoleTokens rc).length := by
  unfold tokenOverlap
  rw [List.filter_eq_self.mpr]
  intro a ha
  simpa using hful a ha

theorem tokenOverlap_none {rc title snip : String}
    (hnon : ∀ t ∈ expandedRoleTokens rc, t ∉ jobTokens (title ++ " " ++ snip)) :
    tokenOverlap rc title snip = 0 := by
  unfold tokenOverlap
  rw [List.length_eq_zero, List.filter_eq_nil_iff]
  intro a ha
  simpa using hnon a ha

theorem clamp_lt_clamp {x y : Int} (hx1 : 58 ≤ x) (hx2 : x ≤ 92) (hy : y ≤ 55) :
    max 0 (min 100 y) < max 0 (min 100 x) := by
  rw [min_eq_right (by omega : x ≤ 100), max_eq_right (by omega : (0:Int) ≤ x)]
  have h1 : min 100 y ≤ 55 := le_trans (min_le_right _ _) hy
  have h2 : max 0 (min 100 y) ≤ 55 := max_le (by omega) h1
  omega

/-- C6 counterexample: with `role_canon = ""` the expanded role-token set is
empty, so one title vacuously "fully matches" all of it while the other
shares no tokens with it, yet for two jobs identical except the title the
two scores are equal — not strictly greater. -/
theorem c6_counterexample :
    (∀ t ∈ expandedRoleTokens "", t ∈ jobTokens ("engineer" ++ " " ++ pyOr "" "")) ∧
    (∀ t ∈ expandedRoleTokens "", t ∉ jobTokens ("plumber" ++ " " ++ pyOr "" "")) ∧
    ¬ ((score_job { title := "plumber" } "" "").score <
        (score_job { title := "engineer" } "" "").score) := by
  decide

/-- C6 (amended): if additionally the role's expanded token set is nonempty,
and "fully matching" / "sharing no tokens" are read on the text the scorer
actually tokenizes (title plus description/snippet), then for two jobs
identical except the title the fully-matching job scores strictly greater. -/
theorem score_job_full_match_strictly_greater (j j2 : Job) (rc loc : String)
    (hne : expandedRoleTokens rc ≠ [])
    (hcomp : j2.company = j.company) (hloc : j2.location = j.location)
    (hdesc : j2.description = j.description) (hsnip : j2.snippet = j.snippet)
    (hurl : j2.redirect_url = j.redirect_url) (hid : j2.id = j.id)
    (hful : ∀ t ∈ expandedRoleTokens rc,
      t ∈ jobTokens (j.title ++ " " ++ pyOr j.description j.snippet))
    (hnon : ∀ t ∈ expandedRoleTokens rc,
      t ∉ jobTokens (j2.title ++ " " ++ pyOr j2.description j2.snippet)) :
    (score_job j2 rc loc).score < (score_job j rc loc).score := by
  have hov1 := tokenOverlap_full hful
  have hov2 := tokenOverlap_none hnon
  have hlen1 : 1 ≤ (expandedRoleTokens rc).length :=
    List.length_pos.mpr hne
  have hhit : strictMatchRequired rc = true →
      strictMatchHit (j.title ++ " " ++ pyOr j.description j.snippet) = true :=
    fun hr => strict_hit_of_full_match rc _ hful hr
  have hstrict : (if strictMatchRequired rc ∧
      ¬ strictMatchHit (j.title ++ " " ++ pyOr j.description j.snippet) then
        (-25 : Int) else 0) = 0 :=
    if_neg (fun hcon => hcon.2 (hhit hcon.1))
  rw [score_job_score_eq, score_job_score_eq]
  apply clamp_lt_clamp
  · -- 58 ≤ raw score of the fully matching job
    simp only [scoreRaw]
    rw [hov1, hstrict]
    split_ifs <;> first | omega | (exfalso; assumption)
  · -- raw score of the fully matching job is at most 92
    exact (scoreRaw_bounds j rc loc).2
  · -- raw score of the non-matching job is at most 55
    simp only [scoreRaw]
    rw [hov2]
    split_ifs <;> first | omega | (exfalso; assumption)

theorem score_job_full_match_witness :
    (score_job { title := "plumber" } "waiter" "").score <
      (score_job { title := "waiter needed" } "waiter" "").score :=
  score_job_full_match_strictly_greater { title := "waiter needed" }
    { title := "plumber" } "waiter" "" (by decide) rfl rfl rfl rfl rfl rfl
    (by decide) (by decide)

/-! ### Cards, decks, and the swipe API (`to_job_cards`, `api/chat.py`) -/

structure Card where
  id : Option String := none
  title : String := ""
  company : String := ""
  location : String := ""
  redirect_url : String := ""
  score : Int := 0
  reasons : List String := []
  missing : List String := []
  action : String := ""
deriving DecidableEq

/-- One card payload of `to_job_cards` (dict union of job fields and
`score_job` metadata). -/
def mkCard (j : Job) (role_canon location : String) : Card :=
  let meta := score_job j role_canon location
  { id := j.id, title := j.title, company := j.company, location := j.location,
    redirect_url := j.redirect_url, score := meta.score, reasons := meta.reasons,
    missing := meta.missing, action := meta.action }

/-- `to_job_cards`: build card payloads, then
`cards.sort(key=lambda x: x.get("score", 0), reverse=True)` — Python's sort
is stable, so it is embedded as the (unique) stable sort by descending
score.  (`income_type` is accepted and ignored by the Python scorer, so it
is omitted here.) -/
def to_job_cards (jobs : List Job) (role_canon location : String) : List Card :=
  (jobs.map (fun j => mkCard j role_canon location)).mergeSort
    (fun a b => decide (b.score ≤ a.score))

theorem cardLe_trans : ∀ a b c : Card,
    decide (b.score ≤ a.score) = true → decide (c.score ≤ b.score) = true →
    decide (c.score ≤ a.score) = true := by
  intro a b c h1 h2
  simp only [decide_eq_true_eq] at *
  omega

theorem cardLe_total : ∀ a b : Card,
    (decide (b.score ≤ a.score) || decide (a.score ≤ b.score)) = true := by
  intro a b
  rcases Int.le_total b.score a.score with h | h <;> simp [h]

/-- C8: `to_job_cards` returns the cards sorted in descending score order,
and ties keep provider order: for every score value, filtering the sorted
output yields exactly the filtered unsorted card list (stable sort). -/
theorem to_job_cards_sorted_stable (jobs : List Job) (role_canon location : String) :
    (to_job_cards jobs role_canon location).Pairwise
      (fun a b => b.score ≤ a.score) ∧
    ∀ c : Int,
      (to_job_cards jobs role_canon location).filter (fun x => x.score = c) =
        (jobs.map (fun j => mkCard j role_canon location)).filter
          (fun x => x.score = c) := by
  constructor
  · have h := List.sorted_mergeSort cardLe_trans cardLe_total
      (jobs.map (fun j => mkCard j role_canon location))
    exact h.imp (fun hab => by simpa using hab)
  · intro c
    set inp := jobs.map (fun j => mkCard j role_canon location) with hinp
    set A := inp.filter (fun x => x.score = c) with hA
    have hAmem : ∀ x ∈ A, x.score = c := by
      intro x hx
      have := List.of_mem_filter hx
      simpa using this
    have hApw : A.Pairwise (fun a b => decide (b.score ≤ a.score) = true) :=
      List.pairwise_of_forall_mem_list (by
        intro a ha b hb
        simp [hAmem a ha, hAmem b hb])
    have hAsub : List.Sublist A (to_job_cards jobs role_canon location) :=
      List.sublist_mergeSort cardLe_trans cardLe_total hApw (List.filter_sublist inp)
    have hAfix : A.filter (fun x => x.score = c) = A :=
      List.filter_eq_self.mpr (by intro a ha; simpa using hAmem a ha)
    have hsub2 : List.Sublist A
        (List.filter (fun x => decide (x.score = c)) (to_job_cards jobs role_canon location)) := by
      have h9 := hAsub.filter (fun x => decide (x.score = c))
      rwa [hAfix] at h9
    have hperm : List.Perm
        (List.filter (fun x => decide (x.score = c)) (to_job_cards jobs role_canon location)) A := by
      have hp : List.Perm (to_job_cards jobs role_canon location) inp :=
        List.mergeSort_perm inp _
      exact hp.filter _
    exact (hsub2.eq_of_length hperm.length_eq.symm).symm

/-! ### Dedup and id assignment in the orchestrator (`_job_id`, lines 621-625) -/

def dedupKey (j : Job) : String × String × String := (j.title, j.company, j.location)

/-- Insertion-ordered key set (Python dicts preserve first-insertion order). -/
def firstKeys (ks : List (String × String × String)) : List (String × String × String) :=
  ks.foldl (fun acc k => if k ∈ acc then acc else acc ++ [k]) []

/-- The last job carrying a given key (later dict writes win). -/
def lastWith (jobs : List Job) (k : String × String × String) : Option Job :=
  (jobs.filter (fun j => dedupKey j = k)).getLast?

/-- `uniq = {(title, company, location): j for j in jobs}; list(uniq.values())`. -/
def dedupJobs (jobs : List Job) : List Job :=
  (firstKeys (jobs.map dedupKey)).filterMap (lastWith jobs)

/-- `_job_id`: the `|`-joined content string fed to the hash. -/
def jobIdRaw (j : Job) : String :=
  j.title ++ "|" ++ j.company ++ "|" ++ j.location ++ "|" ++ j.redirect_url

/-- `_job_id` with the SHA-1 hexdigest abstracted as a parameter `h`. -/
def jobId (h : String → String) (j : Job) : String := h (jobIdRaw j)

/-- `for j in jobs: j["id"] = _job_id(j)`. -/
def assignIds (h : String → String) (jobs : List Job) : List Job :=
  jobs.map (fun j => { j with id := some (jobId h j) })

theorem foldl_dedup_nodup :
    ∀ (ks acc : List (String × String × String)), acc.Nodup →
      (ks.foldl (fun acc k => if k ∈ acc then acc else acc ++ [k]) acc).Nodup
  | [], _, h => h
  | k :: ks, acc, h => by
    simp only [List.foldl_cons]
    by_cases hk : k ∈ acc
    · rw [if_pos hk]
      exact foldl_dedup_nodup ks acc h
    · rw [if_neg hk]
      refine foldl_dedup_nodup ks (acc ++ [k]) ?_
      simp [List.nodup_append, h, hk]

theorem firstKeys_nodup (ks : List (String × String × String)) : (firstKeys ks).Nodup := by
  unfold firstKeys
  exact foldl_dedup_nodup ks [] List.nodup_nil

theorem lastWith_key {jobs : List Job} {k : String × String × String} {j : Job}
    (h : lastWith jobs k = some j) : dedupKey j = k ∧ j ∈ jobs := by
  have hm := List.mem_of_getLast?_eq_some h
  have := List.mem_filter.mp hm
  exact ⟨by simpa using this.2, this.1⟩

theorem sep_append_inj {sep : Char} :
    ∀ {u₁ u₂ v₁ v₂ : List Char}, sep ∉ u₁ → sep ∉ u₂ →
      u₁ ++ sep :: v₁ = u₂ ++ sep :: v₂ → u₁ = u₂ ∧ v₁ = v₂
  | [], [], v₁, v₂, _, _, h => by
    simp only [List.nil_append, List.cons.injEq] at h
    exact ⟨rfl, h.2⟩
  | [], x :: u₂, v₁, v₂, _, h₂, h => by
    simp only [List.nil_append, List.cons_append, List.cons.injEq] at h
    exact absurd (h.1 ▸ List.mem_cons_self x u₂) h₂
  | x :: u₁, [], v₁, v₂, h₁, _, h => by
    simp only [List.nil_append, List.cons_append, List.cons.injEq] at h
    exact absurd (h.1.symm ▸ List.mem_cons_self x u₁) h₁
  | x :: u₁, y :: u₂, v₁, v₂, h₁, h₂, h => by
    simp only [List.cons_append, List.cons.injEq] at h
    have ih := @sep_append_inj sep u₁ u₂ v₁ v₂
      (fun hm => h₁ (List.mem_cons_of_mem x hm))
      (fun hm => h₂ (List.mem_cons_of_mem y hm)) h.2
    exact ⟨by rw [h.1, ih.1], ih.2⟩

theorem jobIdRaw_inj {j₁ j₂ : Job}
    (h₁ : '|' ∉ j₁.title.toList ∧ '|' ∉ j₁.company.toList ∧ '|' ∉ j₁.location.toList)
    (h₂ : '|' ∉ j₂.title.toList ∧ '|' ∉ j₂.company.toList ∧ '|' ∉ j₂.location.toList)
    (heq : jobIdRaw j₁ = jobIdRaw j₂) : dedupKey j₁ = dedupKey j₂ := by
  have hl : j₁.title.toList ++ '|' :: (j₁.company.toList ++ '|' ::
      (j₁.location.toList ++ '|' :: j₁.redirect_url.toList)) =
      j₂.title.toList ++ '|' :: (j₂.company.toList ++ '|' ::
      (j₂.location.toList ++ '|' :: j₂.redirect_url.toList)) := by
    have := congrArg String.data heq
    simpa [jobIdRaw, String.data_append, List.append_assoc] using this
  have s1 := sep_append_inj h₁.1 h₂.1 hl
  have s2 := sep_append_inj h₁.2.1 h₂.2.1 s1.2
  have s3 := sep_append_inj h₁.2.2 h₂.2.2 s2.2
  have et : j₁.title = j₂.title := String.ext s1.1
  have ec : j₁.company = j₂.company := String.ext s2.1
  have el : j₁.location = j₂.location := String.ext s3.1
  simp [dedupKey, et, ec, el]

/-- C7 counterexample: two raw listings with distinct `(title, company,
location)` triples both survive deduplication, yet their `|`-joined id
inputs coincide (`"a|b" | "c"` vs `"a" | "b|c"`), so even an injective hash
(here the identity) assigns both the same id. -/
theorem c7_counterexample :
    Function.Injective (fun s : String => s) ∧
    dedupKey ({ title := "a|b", company := "c" } : Job) ≠
      dedupKey ({ title := "a", company := "b|c" } : Job) ∧
    (assignIds (fun s => s)
      (dedupJobs [{ title := "a|b", company := "c" }, { title := "a", company := "b|c" }])).map
        (fun j => j.id) = [some "a|b|c||", some "a|b|c||"] := by
  refine ⟨fun a b h => h, by decide, by decide⟩

/-- C7 (amended): if the hash is injective on distinct inputs AND the
title/company/location fields contain no `|` separator (so distinct triples
produce distinct id inputs), then after deduplication no two jobs share an
id.  Without the separator condition, `|`-injection makes distinct triples
collide, as the counterexample shows. -/
theorem dedup_assign_ids_distinct (h : String → String) (jobs : List Job)
    (hinj : Function.Injective h)
    (hbar : ∀ j ∈ jobs,
      '|' ∉ j.title.toList ∧ '|' ∉ j.company.toList ∧ '|' ∉ j.location.toList) :
    (assignIds h (dedupJobs jobs)).Pairwise (fun x y => x.id ≠ y.id) := by
  have hkeys : (dedupJobs jobs).Pairwise
      (fun a b => dedupKey a ≠ dedupKey b ∧ a ∈ jobs ∧ b ∈ jobs) := by
    unfold dedupJobs
    refine List.Pairwise.filterMap (lastWith jobs) ?_ (firstKeys_nodup _)
    intro k k' hne j hj j' hj'
    have e1 := lastWith_key (Option.mem_def.mp hj)
    have e2 := lastWith_key (Option.mem_def.mp hj')
    exact ⟨fun hc => hne (by rw [← e1.1, ← e2.1, hc]), e1.2, e2.2⟩
  have hids : (dedupJobs jobs).Pairwise
      (fun a b => some (jobId h a) ≠ some (jobId h b)) := by
    refine hkeys.imp ?_
    rintro a b ⟨hne, ha, hb⟩ hc
    have hraw : jobIdRaw a = jobIdRaw b := hinj (by simpa [jobId] using hc)
    exact hne (jobIdRaw_inj (hbar a ha) (hbar b hb) hraw)
  unfold assignIds
  exact List.Pairwise.map _ (fun a b hab => hab) hids

theorem dedup_assign_ids_distinct_witness :
    (assignIds (fun s => s)
      (dedupJobs [({ title := "cook", company := "x" } : Job),
        { title := "cook", company := "x" },
        { title := "cook", company := "y" }])).Pairwise
      (fun x y => x.id ≠ y.id) :=
  dedup_assign_ids_distinct (fun s => s) _ (fun a b hh => hh) (by decide)

/-! ### Conversation state (`memory/models.py` `default_state` plus the
clarity/note fields the orchestrator adds), decks, and responses -/

structure Deck where
  deck_id : String
  job_ids : List String
  liked : List String
  passed : List String
  complete : Bool
deriving DecidableEq

structure ConvState where
  phase : String := "discovery"
  role_raw : Option String := none
  role_keywords : Option String := none
  role_display : Option String := none
  role_canon : Option String := none
  role_query : Option String := none
  resolved_role : Option String := none
  location : Option String := none
  income_type : Option String := none
  salary : Option String := none
  last_small_talk : Option String := none
  jobs_shown : Bool := false
  asked_income_type : Bool := false
  asked_questions : List String := []
  readiness : Bool := false
  current_deck : Option Deck := none
  cached_jobs : List Card := []
  clarity_level : Option String := none
  clarity_interest : Option String := none
  clarity_constraints : Option String := none
  clarity_suggestions : List String := []
  note : Option String := none
deriving DecidableEq

def defaultState : ConvState := {}

structure ActionItem where
  type : String
  yesLabel : Option String := none
  noLabel : Option String := none
  yesValue : Option String := none
  noValue : Option String := none
  label : Option String := none
  deckId : Option String := none
deriving DecidableEq

structure LinkItem where
  label : String
  url : String
deriving DecidableEq

/-- The outward response shape (`make_response` / `_chat_response`); the
free-form `debug` map carries no product logic and is not modelled. -/
structure Resp where
  assistantText : String
  mode : String := "chat"
  actions : List ActionItem := []
  jobs : List Card := []
  links : List LinkItem := []
deriving DecidableEq

def yesNoActions (yesValue noValue yesLabel noLabel : String) : List ActionItem :=
  [{ type := "YES_NO", yesLabel := some yesLabel, noLabel := some noLabel,
     yesValue := some yesValue, noValue := some noValue }]

/-! ### `api/chat.py` `submit_swipes` (lines 177-204) -/

def deckExpiredResp : Resp :=
  { assistantText := "That swipe deck expired. Want me to search again?", mode := "chat" }

/-- `submit_swipes`, as a pure transformer of the per-user conversation
state: a non-matching (or absent) `deckId` returns the expired message and
leaves everything untouched; a matching one records the swipes, marks the
deck complete and moves the phase to `post_swipe`. -/
def submit_swipes (st : ConvState) (deckId : String) (liked passed : List String) :
    ConvState × Resp :=
  match st.current_deck with
  | none => (st, deckExpiredResp)
  | some d =>
    if d.deck_id ≠ deckId then (st, deckExpiredResp)
    else
      ({ st with
          current_deck := some { d with liked := liked, passed := passed, complete := true },
          phase := "post_swipe" },
       { assistantText :=
           "Nice. You liked " ++ toString liked.length ++ " out of " ++
             toString d.job_ids.length ++ ". Want to talk about the ones you liked?",
         mode := "post_swipe",
         actions := yesNoActions "talk_yes" "talk_no" "Yes" "No" })

/-- C10: a `deckId` that does not match the current deck returns the
"deck expired" response and leaves the conversation state entirely
unchanged; only a matching `deckId` records liked/passed, sets the
complete flag, and advances the phase to `post_swipe`. -/
theorem submit_swipes_spec (st : ConvState) (deckId : String)
    (liked passed : List String) :
    ((st.current_deck.map Deck.deck_id ≠ some deckId →
        submit_swipes st deckId liked passed = (st, deckExpiredResp)) ∧
     (∀ d, st.current_deck = some d → d.deck_id = deckId →
        submit_swipes st deckId liked passed =
          ({ st with
              current_deck := some { d with liked := liked, passed := passed, complete := true },
              phase := "post_swipe" },
           { assistantText :=
               "Nice. You liked " ++ toString liked.length ++ " out of " ++
                 toString d.job_ids.length ++ ". Want to talk about the ones you liked?",
             mode := "post_swipe",
             actions := yesNoActions "talk_yes" "talk_no" "Yes" "No" }))) := by
  constructor
  · intro hne
    unfold submit_swipes
    match h : st.current_deck with
    | none => rfl
    | some d =>
      have hd : d.deck_id ≠ deckId := fun he => hne (by rw [h]; simp [he])
      exact if_pos hd
  · intro d hd he
    unfold submit_swipes
    rw [hd]
    simp [he]

theorem submit_swipes_witness :
    (submit_swipes
      { defaultState with
          current_deck := some
            { deck_id := "deck1", job_ids := ["a", "b"], liked := [], passed := [],
              complete := false } }
      "other" ["a"] [] =
        ({ defaultState with
            current_deck := some
              { deck_id := "deck1", job_ids := ["a", "b"], liked := [], passed := [],
                complete := false } }, deckExpiredResp)) ∧
    (submit_swipes
      { defaultState with
          current_deck := some
            { deck_id := "deck1", job_ids := ["a", "b"], liked := [], passed := [],
              complete := false } }
      "deck1" ["a"] ["b"] =
        ({ defaultState with
            current_deck := some
              { deck_id := "deck1", job_ids := ["a", "b"], liked := ["a"], passed := ["b"],
                complete := true },
            phase := "post_swipe" },
         { assistantText := "Nice. You liked 1 out of 2. Want to talk about the ones you liked?",
           mode := "post_swipe",
           actions := yesNoActions "talk_yes" "talk_no" "Yes" "No" })) :=
  ⟨(submit_swipes_spec _ "other" ["a"] []).1 (by decide),
   (submit_swipes_spec _ "deck1" ["a"] ["b"]).2 _ rfl rfl⟩

/-! ### `re.sub(r"\b…\b", " ", s)` and `str.replace` on character lists

`subAux` scans left to right; a pending-skip counter makes the recursion
structural (so the kernel can evaluate it).  `pw` tracks whether the
previous character was a word character (the left `\b`); the right `\b` is
checked by `matchHereB`. -/

def matchHereB (ph s : List Char) : Bool :=
  ph.isPrefixOf s &&
    (match s.drop ph.length with
     | [] => true
     | c :: _ => !isWordC c)

def subAux (ph : List Char) (w : Bool) : Nat → Bool → List Char → List Char
  | _, _, [] => []
  | k+1, pw, _ :: cs => subAux ph w k pw cs
  | 0, pw, c :: cs =>
    if !pw && matchHereB ph (c :: cs) then
      ' ' :: subAux ph w (ph.length - 1) w cs
    else
      c :: subAux ph w 0 (isWordC c) cs

/-- `re.sub(rf"\b{re.escape(ph)}\b", " ", s)` (ASCII `\w`/`\b` semantics). -/
def subBnd (ph : String) (s : List Char) : List Char :=
  subAux ph.toList (isWordC (ph.toList.getLastD ' ')) 0 false s

theorem subAux_skip (ph : List Char) (w : Bool) :
    ∀ (cs : List Char) (k : Nat) (pw : Bool),
      subAux ph w k pw cs = subAux ph w 0 pw (cs.drop k)
  | _, 0, _ => by rw [List.drop_zero]
  | [], k+1, pw => by simp [subAux]
  | c :: cs, k+1, pw => by
    rw [show subAux ph w (k+1) pw (c :: cs) = subAux ph w k pw cs from rfl]
    rw [subAux_skip ph w cs k pw]
    rfl

theorem subAux_nil (ph : List Char) (w : Bool) (pw : Bool) (k : Nat) :
    subAux ph w k pw [] = [] := by
  cases k <;> rfl

theorem subAux_match {ph : List Char} (w : Bool) {c : Char} {cs : List Char} {pw : Bool}
    (hph : ph ≠ []) (hm : (!pw && matchHereB ph (c :: cs)) = true) :
    subAux ph w 0 pw (c :: cs) = ' ' :: subAux ph w 0 w ((c :: cs).drop ph.length) := by
  have h1 : subAux ph w 0 pw (c :: cs) = ' ' :: subAux ph w (ph.length - 1) w cs := by
    simp only [subAux, hm, if_pos]
  rw [h1, subAux_skip ph w cs (ph.length - 1) w]
  have hlen : 1 ≤ ph.length := by
    cases ph
    · exact absurd rfl hph
    · simp
  have h2 : (c :: cs).drop ph.length = cs.drop (ph.length - 1) := by
    rcases Nat.exists_eq_add_of_le hlen with ⟨m, hm2⟩
    rw [hm2]
    simp [Nat.add_comm]
  rw [h2]

theorem subAux_copy {ph : List Char} (w : Bool) {c : Char} {cs : List Char} {pw : Bool}
    (hm : (!pw && matchHereB ph (c :: cs)) = false) :
    subAux ph w 0 pw (c :: cs) = c :: subAux ph w 0 (isWordC c) cs := by
  simp only [subAux, hm]
  rfl

/-- `str.replace(ph, rep)`: left-to-right, non-overlapping, all occurrences. -/
def replAux (ph rep : List Char) : Nat → List Char → List Char
  | _, [] => []
  | k+1, _ :: cs => replAux ph rep k cs
  | 0, c :: cs =>
    if ph.isPrefixOf (c :: cs) then rep ++ replAux ph rep (ph.length - 1) cs
    else c :: replAux ph rep 0 cs

def replaceAllL (ph rep s : List Char) : List Char := replAux ph rep 0 s

theorem replAux_skip (ph rep : List Char) :
    ∀ (cs : List Char) (k : Nat), replAux ph rep k cs = replAux ph rep 0 (cs.drop k)
  | _, 0 => by rw [List.drop_zero]
  | [], k+1 => by simp [replAux]
  | c :: cs, k+1 => by
    rw [show replAux ph rep (k+1) (c :: cs) = replAux ph rep k cs from rfl]
    rw [replAux_skip ph rep cs k]
    rfl

theorem replAux_nil (ph rep : List Char) (k : Nat) : replAux ph rep k [] = [] := by
  cases k <;> rfl

theorem replAux_match {ph : List Char} (rep : List Char) {c : Char} {cs : List Char}
    (hph : ph ≠ []) (hm : ph.isPrefixOf (c :: cs) = true) :
    replAux ph rep 0 (c :: cs) = rep ++ replAux ph rep 0 ((c :: cs).drop ph.length) := by
  have h1 : replAux ph rep 0 (c :: cs) = rep ++ replAux ph rep (ph.length - 1) cs := by
    simp only [replAux, hm, if_pos]
  rw [h1, replAux_skip ph rep cs (ph.length - 1)]
  have hlen : 1 ≤ ph.length := by
    cases ph
    · exact absurd rfl hph
    · simp
  have h2 : (c :: cs).drop ph.length = cs.drop (ph.length - 1) := by
    rcases Nat.exists_eq_add_of_le hlen with ⟨m, hm2⟩
    rw [hm2]
    simp [Nat.add_comm]
  rw [h2]

theorem replAux_copy {ph : List Char} (rep : List Char) {c : Char} {cs : List Char}
    (hm : ph.isPrefixOf (c :: cs) = false) :
    replAux ph rep 0 (c :: cs) = c :: replAux ph rep 0 cs := by
  simp only [replAux, hm]
  rfl

/-! ### `ai/role_resolver.py` — canonicalization pipeline -/

/-- The apostrophe character (U+0027), used in word lists such as `i'm`. -/
def apos : Char := Char.ofNat 39

def fillerIm : String := String.mk ['i', apos, 'm']

def FILLER_WORDS : List String :=
  ["job", "jobs", "role", "position", "work", "working",
   "in", "at", "for", "a", "an", "the", "as",
   "looking", "searching", "find", "me", "please",
   "i", "im", fillerIm, "am", "want", "need"]

def TIME_WORDS : List String :=
  ["evening", "night", "overnight",
   "weekend", "weekends", "weekday", "weekdays",
   "seasonal", "temporary", "temp",
   "casual", "permanent",
   "contract", "agency", "bank",
   "shift", "shifts",
   "zero", "hour", "hours",
   "part", "full", "time"]

def TIME_PHRASES : List String :=
  ["part time", "part-time",
   "full time", "full-time",
   "zero hours", "zero-hour", "zero-hours"]

/-- `sorted(BAD_ROLE_KEYWORDS, key=len, reverse=True)`; same-length
single-word removals commute, so one stable order is fixed. -/
def BAD_ROLE_KEYWORDS_SORTED : List String :=
  ["employment", "position", "career", "a job", "jobs", "work", "role", "job"]

def ROLE_NORMALIZE_MAP : List (String × String) :=
  [("waitress", "waiter"), ("waiting staff", "waiter")]

/-- Tokens of `_clean_text` (maximal `[a-z0-9]` runs of the lowered text). -/
def cleanToks (s : List Char) : List (List Char) := runsP isAlnumC (lowerL s)

def joinToks (ts : List (List Char)) : List Char := List.intercalate [' '] ts

/-- `_clean_text`: lower, replace `[^a-z0-9\s]+` by a space, collapse `\s+`
to single spaces, strip — i.e. the single-space join of the alnum runs. -/
def cleanTextL (s : List Char) : List Char := joinToks (cleanToks s)

def clean_text (s : String) : String := String.mk (cleanTextL s.toList)

/-- `_tokenize`. -/
def tokenizeStr (s : String) : List String := (cleanToks s.toList).map String.mk

/-- `strip_fillers` (role_resolver): tokenize, drop filler words, rejoin. -/
def strip_fillers (s : String) : String :=
  String.mk (joinToks ((cleanToks s.toList).filter (fun t => String.mk t ∉ FILLER_WORDS)))

/-- `s.split()` — maximal runs of non-whitespace characters. -/
def wsSplit (s : List Char) : List (List Char) := runsP (fun c => !isWsC c) s

/-- `re.sub(r"\s+", " ", s).strip()`. -/
def collapseWs (s : List Char) : List Char := joinToks (wsSplit s)

/-- `strip_time_modifiers`: clean, remove schedule phrases and generic
job words (`\b`-bounded), then drop schedule/contract tokens. -/
def strip_time_modifiers (s : String) : String :=
  if wsSplit s.toList = [] then ""
  else
    let s1 := cleanTextL s.toList
    let s2 := TIME_PHRASES.foldl (fun acc ph => subBnd ph acc) s1
    let s3 := BAD_ROLE_KEYWORDS_SORTED.foldl (fun acc wd => subBnd wd acc) s2
    let toks := (wsSplit s3).filter (fun t => String.mk t ∉ TIME_WORDS)
    String.mk (collapseWs (joinToks toks))

def containsSubL (needle hay : List Char) : Bool := decide (needle <:+: hay)

/-- `_apply_role_normalization`: lowercase, substring-replace the map
entries, collapse whitespace. -/
def apply_role_normalization (s : String) : String :=
  if s = "" then ""
  else
    let low := ROLE_NORMALIZE_MAP.foldl
      (fun (acc : List Char) (kv : String × String) =>
        if containsSubL kv.1.toList acc then replaceAllL kv.1.toList kv.2.toList acc
        else acc)
      (lowerL s.toList)
    String.mk (collapseWs low)

/-- `canonicalize_role`: the one pipeline used by extraction and dataset
matching (the trailing `.strip()` is a no-op on `_clean_text` output). -/
def canonicalize_role (text : String) : String :=
  clean_text (apply_role_normalization (strip_time_modifiers (strip_fillers text)))

/-- `resolve_role_from_dataset`, with the load-once titles dataset passed in
as `titles` (already canonicalized and sorted, `_load_titles_canonical`);
the repository snapshot carries no `data/job_titles_dataset.json`, in which
case the list is empty and resolution always returns `None`. -/
def resolve_role_from_dataset (titles : List String) (role_raw : String) : Option String :=
  if titles = [] then none
  else
    let query := canonicalize_role role_raw
    if query = "" then none
    else if query ∈ titles then some query
    else
      let containsQuery := titles.filter (fun t => containsSub query t)
      if containsQuery ≠ [] then
        (containsQuery.mergeSort (fun a b => decide (a.length ≤ b.length))).head?
      else
        let containedByQuery := titles.filter (fun t => containsSub t query)
        if containedByQuery ≠ [] then
          (containedByQuery.mergeSort (fun a b => decide (b.length ≤ a.length))).head?
        else
          let qTokens := (tokenizeStr query).dedup
          if qTokens = [] then none
          else
            let best := titles.foldl
              (fun (b : Option String × Nat × Nat) t =>
                let tTokens := (tokenizeStr t).dedup
                if tTokens = [] then b
                else
                  let score := (qTokens.filter (fun q => q ∈ tTokens)).length
                  if score > b.2.1 ∨ (score = b.2.1 ∧ score > 0 ∧ t.length < b.2.2) then
                    (some t, score, t.length)
                  else b)
              (none, 0, 1000000000)
            if 1 ≤ best.2.1 then best.1
            else
              titles.find? (fun t =>
                qTokens.any (fun qt =>
                  3 ≤ qt.length &&
                    (tokenizeStr t).any (fun tok => qt.toList.isPrefixOf tok.toList)))

/-- `build_search_keywords`: canonicalize, then widen a few known-broad
hospitality roles with fixed space-separated synonyms. -/
def build_search_keywords (canonical_role_or_title : String) : String :=
  let s := canonicalize_role canonical_role_or_title
  if s = "waiter" then "waiter waitress waiting staff server front of house"
  else if s = "bartender" then "bartender bar staff bar attendant"
  else if s = "barista" then "barista coffee"
  else if s = "chef" then "chef cook kitchen"
  else s

/-! ### `ai/extraction.py` — helpers -/

/-- `re.sub(rf"\b{re.escape(ph)}\b", "", s)`: like `subAux` but with an
empty replacement (used by extraction's `_strip_fillers`). -/
def subAuxE (ph : List Char) (w : Bool) : Nat → Bool → List Char → List Char
  | _, _, [] => []
  | k+1, pw, _ :: cs => subAuxE ph w k pw cs
  | 0, pw, c :: cs =>
    if !pw && matchHereB ph (c :: cs) then
      subAuxE ph w (ph.length - 1) w cs
    else
      c :: subAuxE ph w 0 (isWordC c) cs

def subBndE (ph : String) (s : List Char) : List Char :=
  subAuxE ph.toList (isWordC (ph.toList.getLastD ' ')) 0 false s

def trimL (l : List Char) : List Char :=
  ((l.dropWhile isWsC).reverse.dropWhile isWsC).reverse

/-- Python `str.strip()`. -/
def pyStrip (s : String) : String := String.mk (trimL s.toList)

def truthyO (o : Option String) : Bool :=
  match o with
  | none => false
  | some s => s ≠ ""

def strOf (o : Option String) : String :=
  match o with
  | none => ""
  | some s => s

def isAlphaC (c : Char) : Bool :=
  (97 ≤ c.toNat && c.toNat ≤ 122) || (65 ≤ c.toNat && c.toNat ≤ 90)

def upperChar (c : Char) : Char :=
  if 97 ≤ c.toNat ∧ c.toNat ≤ 122 then Char.ofNat (c.toNat - 32) else c

/-- Python `str.title()` (ASCII): uppercase a letter that follows a
non-letter, lowercase a letter that follows a letter. -/
def titleCase (s : String) : String :=
  String.mk
    ((s.toList.foldl
      (fun (st : Bool × List Char) c =>
        (isAlphaC c, (if isAlphaC c then (if st.1 then lowerChar c else upperChar c) else c) :: st.2))
      (false, [])).2.reverse)

def EXTRACTION_FILLERS : List String :=
  [fillerIm, "im", "i am",
   "looking", "looking for", "looking at",
   "i want", "i need",
   "find me", "search", "show me",
   "a", "an", "the",
   "job", "jobs", "role", "position", "work",
   "please", "thanks"]

/-- Extraction's `_strip_fillers`: lower, remove the filler phrases
(`\b`-bounded, empty replacement), collapse whitespace. -/
def stripFillersE (text : String) : String :=
  String.mk (collapseWs (EXTRACTION_FILLERS.foldl
    (fun acc f => subBndE f acc) (lowerL text.toList)))

def STANDARD_INCOME_TYPES : List (String × List String) :=
  [("full-time", ["full time", "full-time", "permanent"]),
   ("part-time", ["part time", "part-time", "casual", "zero hour", "zero-hours", "zero hours"]),
   ("temporary", ["temporary", "temp", "short-term"]),
   ("freelance", ["freelance", "gig", "self-employed", "contract"]),
   ("internship", ["intern", "internship", "trainee"])]

def normalize_income_type (user_text : String) : Option String :=
  (STANDARD_INCOME_TYPES.find?
    (fun kv => kv.2.any (fun v => containsSub v (lowerS user_text)))).map (fun kv => kv.1)

def ROLE_SYNONYMS : List (String × String) :=
  [("app development", "Software Developer"),
   ("software engineer", "Software Developer"),
   ("web developer", "Software Developer"),
   ("frontend", "Frontend Developer"),
   ("backend", "Backend Developer"),
   ("ux", "UX Designer"),
   ("ui", "UI Designer"),
   ("data analyst", "Data Analyst"),
   ("data scientist", "Data Scientist"),
   ("mobile developer", "Mobile Developer"),
   ("it support", "IT Support Technician"),
   ("support technician", "IT Support Technician"),
   ("waiter", "Waiter"),
   ("waitress", "Waiter"),
   ("waiting staff", "Waiter"),
   ("server", "Waiter"),
   ("bar staff", "Bartender"),
   ("bartender", "Bartender"),
   ("barista", "Barista"),
   ("chef", "Chef"),
   ("cook", "Chef"),
   ("teacher", "Teacher"),
   ("driver", "Driver"),
   ("delivery driver", "Driver"),
   ("marketing", "Marketing Assistant")]

/-! #### `difflib.SequenceMatcher.ratio`, exactly (no junk: inputs are far
below the 200-character autojunk threshold, so the junk-extension loops of
`find_longest_match` provably never fire and are omitted).  Ratios
`2*M/T` are compared as exact rationals. -/

def bPositions (b : List Char) (c : Char) : List Nat :=
  (List.range b.length).filter (fun j => b.getD j ' ' = c)

def j2lookup (j2l : List (Nat × Nat)) (j : Nat) : Nat :=
  match j2l.find? (fun kv => kv.1 = j) with
  | some kv => kv.2
  | none => 0

/-- `find_longest_match` on the region `[alo, ahi) × [blo, bhi)`:
returns `(besti, bestj, bestsize)`. -/
def findLongestMatch (a b : List Char) (alo ahi blo bhi : Nat) : Nat × Nat × Nat :=
  (((List.range' alo (ahi - alo)).foldl
    (fun (st : (Nat × Nat × Nat) × List (Nat × Nat)) i =>
      let newj2l := (bPositions b (a.getD i ' ')).filterMap
        (fun j => if blo ≤ j ∧ j < bhi then
            some (j, (if j = 0 then 0 else j2lookup st.2 (j - 1)) + 1) else none)
      let best := newj2l.foldl
        (fun (bb : Nat × Nat × Nat) jk =>
          if jk.2 > bb.2.2 then (i + 1 - jk.2, jk.1 + 1 - jk.2, jk.2) else bb)
        st.1
      (best, newj2l))
    ((alo, blo, 0), [])).1)

def matchingBlocksSize (a b : List Char) : Nat → Nat × Nat × Nat × Nat → Nat
  | 0, _ => 0
  | fuel+1, (alo, ahi, blo, bhi) =>
    let r := findLongestMatch a b alo ahi blo bhi
    if r.2.2 = 0 then 0
    else r.2.2 + matchingBlocksSize a b fuel (alo, r.1, blo, r.2.1) +
      matchingBlocksSize a b fuel (r.1 + r.2.2, ahi, r.2.1 + r.2.2, bhi)

/-- `2 * M` for `ratio() = 2M / (len(a)+len(b))`. -/
def ratioNum (a b : List Char) : Nat :=
  2 * matchingBlocksSize a b (a.length + b.length + 1) (0, a.length, 0, b.length)

/-- `map_role_synonym`: substring pass over the synonym table in order,
then a fuzzy pass with cutoff 0.72, else `role_text.title()`. -/
def map_role_synonym (role_text : String) : String :=
  if role_text = "" then ""
  else
    let lowered := lowerS role_text
    match ROLE_SYNONYMS.find? (fun kv => containsSub kv.1 lowered) with
    | some kv => kv.2
    | none =>
      let best := ROLE_SYNONYMS.foldl
        (fun (b : Option String × Nat × Nat) kv =>
          let m2 := ratioNum lowered.toList kv.1.toList
          let t := lowered.toList.length + kv.1.toList.length
          if m2 * b.2.2 > b.2.1 * t ∧ 100 * m2 ≥ 72 * t then (some kv.2, m2, t) else b)
        (none, 0, 1)
      match best.1 with
      | some s => s
      | none => titleCase role_text

def UK_CITIES : List String :=
  ["Edinburgh", "Glasgow", "Dundee", "Aberdeen", "St Andrews", "London",
   "Manchester", "Bristol", "Leeds", "Liverpool", "Belfast", "Cardiff"]

/-- `_best_city_match`: `difflib.get_close_matches(loc, UK_CITIES, 1, 0.7)`,
else the title-cased input. -/
def best_city_match (loc : String) : String :=
  let l := titleCase (pyStrip loc)
  if l = "" then ""
  else
    let best := UK_CITIES.foldl
      (fun (b : Option String × Nat × Nat) city =>
        let m2 := ratioNum city.toList l.toList
        let t := city.toList.length + l.toList.length
        if m2 * b.2.2 > b.2.1 * t ∧ 10 * m2 ≥ 7 * t then (some city, m2, t) else b)
      (none, 0, 1)
    match best.1 with
    | some city => city
    | none => l

/-! #### The extraction regexes, as explicit leftmost scanners.
`scanB` walks the string tracking the word-character status of the previous
character; a `\b` holds where that status differs from the current one. -/

def scanBAux {α : Type} (f : List Char → Nat → Option α) (l : List Char) :
    Nat → Bool → List Char → Option α
  | _, _, [] => none
  | i, pw, c :: cs =>
    (if pw ≠ isWordC c then f l i else none) <|> scanBAux f l (i+1) (isWordC c) cs

def scanB {α : Type} (f : List Char → Nat → Option α) (l : List Char) : Option α :=
  scanBAux f l 0 false l

def wsRun (l : List Char) (i : Nat) : Nat := ((l.drop i).takeWhile isWsC).length

def SEP_KWS : List String := ["in", "near", "based in", "based"]

/-- `\s+(?:in|near|based in|based)\s+` starting at `i`; returns the end. -/
def sepEnd (l : List Char) (i : Nat) : Option Nat :=
  let k := wsRun l i
  if k = 0 then none
  else SEP_KWS.findSome? (fun kw =>
    if kw.toList.isPrefixOf (l.drop (i + k)) then
      let k2 := wsRun l (i + k + kw.toList.length)
      if 1 ≤ k2 then some (i + k + kw.toList.length + k2) else none
    else none)

/-- `_STOP = (?:\s+(?:in|near|based in|based)\b|[.,;!?]|$)` at position `j`. -/
def stopAt (l : List Char) (j : Nat) : Bool :=
  (let k := wsRun l j
   (1 ≤ k : Bool) && SEP_KWS.any (fun kw =>
     kw.toList.isPrefixOf (l.drop (j + k)) &&
       (match l.drop (j + k + kw.toList.length) with
        | [] => true
        | c :: _ => !isWordC c)))
  || (match l.drop j with
      | c :: _ => c = '.' || c = ',' || c = ';' || c = '!' || c = '?'
      | [] => false)
  || decide (l.length ≤ j)

/-- Shortest nonempty lazy group `(.+?)` from `j` up to a `_STOP`. -/
def stopLen (l : List Char) (j : Nat) : Option Nat :=
  (List.range (l.length - j)).findSome?
    (fun d => if stopAt l (j + d + 1) then some (d + 1) else none)

/-- `(.+?)\s+(?:in|near|based in|based)\s+(.+?)_STOP` from position `i`. -/
def roleLocBody (l : List Char) (i : Nat) : Option (List Char × List Char) :=
  (List.range (l.length - i)).findSome? (fun d =>
    let g1 := d + 1
    match sepEnd l (i + g1) with
    | none => none
    | some j =>
      match stopLen l j with
      | none => none
      | some g2 => some ((l.drop i).take g1, (l.drop j).take g2))

def P1_KWS : List String :=
  ["as a", "as an", "work as", "job as", "be a", "be an", "looking for", "find"]

/-- First pattern of `_extract_role_loc_regex` (an explicit lead keyword). -/
def p1At (l : List Char) (i : Nat) : Option (List Char × List Char) :=
  P1_KWS.findSome? (fun kw =>
    if kw.toList.isPrefixOf (l.drop i) then
      let k := wsRun l (i + kw.toList.length)
      if 1 ≤ k then roleLocBody l (i + kw.toList.length + k) else none
    else none)

def extract_role_loc_regex (text : String) : String × String :=
  let low := lowerL (trimL text.toList)
  match scanB (fun l i => p1At l i) low with
  | some rl => (pyStrip (String.mk rl.1), pyStrip (String.mk rl.2))
  | none =>
    match scanB (fun l i => roleLocBody l i) low with
    | some rl => (pyStrip (String.mk rl.1), pyStrip (String.mk rl.2))
    | none => ("", "")

/-- The location-only fallback `\b(?:in|near|based in|based)\s+(.+?)_STOP`. -/
def locOnlyAt (l : List Char) (i : Nat) : Option (List Char) :=
  SEP_KWS.findSome? (fun kw =>
    if kw.toList.isPrefixOf (l.drop i) then
      let k := wsRun l (i + kw.toList.length)
      if 1 ≤ k then
        (stopLen l (i + kw.toList.length + k)).map
          (fun g => (l.drop (i + kw.toList.length + k)).take g)
      else none
    else none)

def CLAUSE_CONNECTORS : List String :=
  ["while", "then", "but", "however", "until", "and then", "so that"]

def connectorAt (l : List Char) (i : Nat) : Option Nat :=
  if CLAUSE_CONNECTORS.any (fun a =>
      a.toList.isPrefixOf (l.drop i) &&
        (match l.drop (i + a.toList.length) with
         | [] => true
         | c :: _ => !isWordC c)) then some i else none

/-- `_first_clause`: text up to the first secondary-intent connector
(`re.split` keeps the part before the first match; an empty part falls
back to the whole text). -/
def first_clause (text : String) : String :=
  let t := trimL text.toList
  match scanB (fun l i => connectorAt l i) (lowerL t) with
  | none => String.mk t
  | some i => if i = 0 then String.mk t else String.mk (trimL (t.take i))

/-! #### Salary regex `\b£?\d+(?:,\d{3})*(?:\s*(?:per|/)\s*(?:year|month|week|hour))?` -/

def isDigitC (c : Char) : Bool := 48 ≤ c.toNat && c.toNat ≤ 57

def digitRun (l : List Char) (i : Nat) : Nat := ((l.drop i).takeWhile isDigitC).length

def commaGroups (l : List Char) : Nat → Nat → Nat
  | 0, j => j
  | fuel+1, j =>
    if l.getD j ' ' = ',' ∧ 3 ≤ digitRun l (j+1) then commaGroups l fuel (j + 4) else j

def SAL_UNITS : List String := ["year", "month", "week", "hour"]

def salarySuffix (l : List Char) (j : Nat) : Option Nat :=
  let k := wsRun l j
  let afterPer :=
    if ("per" : String).toList.isPrefixOf (l.drop (j + k)) then some (j + k + 3)
    else if l.getD (j + k) ' ' = '/' then some (j + k + 1)
    else none
  match afterPer with
  | none => none
  | some m =>
    let k2 := wsRun l m
    SAL_UNITS.findSome? (fun u =>
      if u.toList.isPrefixOf (l.drop (m + k2)) then some (m + k2 + u.toList.length)
      else none)

def salaryAt (l : List Char) (i : Nat) : Option (List Char) :=
  let j := if l.getD i ' ' = '£' then i + 1 else i
  let d := digitRun l j
  if d = 0 then none
  else
    let e1 := commaGroups l l.length (j + d)
    let e2 := (salarySuffix l e1).getD e1
    some ((l.drop i).take (e2 - i))

def salarySearch (l : List Char) : Option (List Char) := scanB (fun ll i => salaryAt ll i) l

/-! #### `core/state_machine.py` -/

def is_ready (st : ConvState) : Bool := truthyO st.role_canon && truthyO st.location

/-- `advance_phase`: only updates readiness; the orchestrator owns `phase`. -/
def advance_phase (st : ConvState) : ConvState := { st with readiness := is_ready st }

def next_discovery_question (st : ConvState) : Option String :=
  if ¬ truthyO st.role_canon then some "What role are you interested in?"
  else if ¬ truthyO st.location then some "Which city or location do you prefer?"
  else if ¬ truthyO st.income_type then some "Are you looking for full-time or part-time work?"
  else none

/-! #### `extract_signals` — one pass of the signal extractor.

The model-assisted stage (`extract_dynamic_keywords`) is an external call
whose outcome (or failure, which yields no fields) is passed in as `ai`;
the titles dataset of `resolve_role_from_dataset` is passed as `titles`. -/

structure AiSig where
  role : Option String := none
  location : Option String := none
  income_type : Option String := none
  salary : Option String := none
deriving DecidableEq

def SMALL_TALK_WORDS : List String :=
  ["thanks", "thank you", "ok", "cool", "nice", "helpful", "great"]

def sigSmallTalk (raw low : String) (st : ConvState) : ConvState :=
  if SMALL_TALK_WORDS.any (fun w => containsSub w low) then
    { st with last_small_talk := some raw }
  else st

def sigIncome (low : String) (st : ConvState) : ConvState :=
  match normalize_income_type low with
  | some inc => { st with income_type := some inc }
  | none => st

def sigAiIncome (ai : AiSig) (st : ConvState) : ConvState :=
  match ai.income_type with
  | none => st
  | some ainc =>
    if pyStrip ainc ≠ "" ∧ ¬ truthyO st.income_type then
      let inc := (normalize_income_type ainc).getD (lowerS (pyStrip ainc))
      if STANDARD_INCOME_TYPES.any (fun kv => kv.1 = inc) then
        { st with income_type := some inc }
      else st
    else st

/-- Step 5's role candidate: regex first, then the model-assisted value,
then the filler-stripped fallback (flag records the fallback source). -/
def roleCandidatePair (ai : AiSig) (primary : String) : String × Bool :=
  let role_r := (extract_role_loc_regex primary).1
  if role_r ≠ "" then (role_r, false)
  else
    match ai.role with
    | some ar =>
      if pyStrip ar ≠ "" then (pyStrip ar, false)
      else (stripFillersE primary, true)
    | none => (stripFillersE primary, true)

/-- The candidate after the whole-sentence guard: a fallback candidate of
more than 6 whitespace-separated words is discarded. -/
def roleCandidateFinal (ai : AiSig) (primary : String) : String :=
  let rc := roleCandidatePair ai primary
  if 6 < (wsSplit rc.1.toList).length ∧ rc.2 then "" else rc.1

def sigRole (titles : List String) (ai : AiSig) (primary : String)
    (st : ConvState) : ConvState :=
  let role_candidate := roleCandidateFinal ai primary
  let role_canon := if role_candidate ≠ "" then canonicalize_role role_candidate else ""
  if role_canon ≠ "" then
    let resolved := (resolve_role_from_dataset titles role_canon).getD role_canon
    { st with
        role_canon := some role_canon,
        role_display := some (map_role_synonym role_canon),
        resolved_role := some resolved,
        role_query := some (build_search_keywords resolved),
        role_keywords := some (map_role_synonym role_canon),
        role_raw := some role_canon }
  else st

def sigLocation (ai : AiSig) (primary : String) (st : ConvState) : ConvState :=
  let loc_r := (extract_role_loc_regex primary).2
  let loc_candidate :=
    if loc_r ≠ "" then loc_r
    else
      match ai.location with
      | some al =>
        if pyStrip al ≠ "" then pyStrip al
        else
          match scanB (fun l i => locOnlyAt l i) (lowerS primary).toList with
          | some g => pyStrip (String.mk g)
          | none => ""
      | none =>
        match scanB (fun l i => locOnlyAt l i) (lowerS primary).toList with
        | some g => pyStrip (String.mk g)
        | none => ""
  if loc_candidate ≠ "" then { st with location := some (best_city_match loc_candidate) }
  else st

def sigSalary (low : String) (st : ConvState) : ConvState :=
  match salarySearch low.toList with
  | some sal => { st with salary := some (String.mk sal) }
  | none => st

def sigNote (raw primary : String) (st : ConvState) : ConvState :=
  if primary ≠ raw then
    let tail := pyStrip (String.mk (raw.toList.drop primary.toList.length))
    if tail ≠ "" then { st with note := some (tail.take 200) } else st
  else st

def extract_signals (titles : List String) (ai : AiSig) (message : String)
    (st : ConvState) : ConvState :=
  let raw := pyStrip message
  let low := lowerS raw
  let primary := first_clause raw
  advance_phase
    (sigNote raw primary
      (sigSalary low
        (sigLocation ai primary
          (sigRole titles ai primary
            (sigAiIncome ai
              (sigIncome low
                (sigSmallTalk raw low st)))))))

/-! ### Claim about role candidates in extraction (filler words and city names) -/

theorem sigSmallTalk_role_canon (raw low : String) (st : ConvState) :
    (sigSmallTalk raw low st).role_canon = st.role_canon := by
  unfold sigSmallTalk; split <;> rfl

theorem sigIncome_role_canon (low : String) (st : ConvState) :
    (sigIncome low st).role_canon = st.role_canon := by
  unfold sigIncome; split <;> rfl

theorem sigAiIncome_role_canon (ai : AiSig) (st : ConvState) :
    (sigAiIncome ai st).role_canon = st.role_canon := by
  simp only [sigAiIncome]
  repeat' split
  all_goals rfl

theorem sigLocation_role_canon (ai : AiSig) (primary : String) (st : ConvState) :
    (sigLocation ai primary st).role_canon = st.role_canon := by
  simp only [sigLocation]
  repeat' split
  all_goals rfl

theorem sigSalary_role_canon (low : String) (st : ConvState) :
    (sigSalary low st).role_canon = st.role_canon := by
  unfold sigSalary; split <;> rfl

theorem sigNote_role_canon (raw primary : String) (st : ConvState) :
    (sigNote raw primary st).role_canon = st.role_canon := by
  simp only [sigNote]
  repeat' split
  all_goals rfl

theorem sigRole_skip_of_canon_empty (titles : List String) (ai : AiSig)
    (primary : String) (st : ConvState)
    (h : canonicalize_role (roleCandidateFinal ai primary) = "") :
    (sigRole titles ai primary st).role_canon = st.role_canon := by
  have hval : (if roleCandidateFinal ai primary ≠ "" then
      canonicalize_role (roleCandidateFinal ai primary) else "") = "" := by
    split
    · exact h
    · rfl
  simp only [sigRole, hval]
  simp

theorem advance_phase_role_canon (st : ConvState) :
    (advance_phase st).role_canon = st.role_canon := rfl

/-- C4 counterexample: on the message "edinburgh" the extractor adopts the
recognized city name itself as the canonical role (`role_canon` becomes
`some "edinburgh"`), even though "Edinburgh" is in the known-city list —
there is no guard against a location being misclassified as a role. -/
theorem c4_counterexample :
    (extract_signals [] {} "edinburgh" defaultState).role_canon = some "edinburgh" ∧
    "Edinburgh" ∈ UK_CITIES ∧ lowerS "Edinburgh" = "edinburgh" := by
  refine ⟨by decide, by decide, by decide⟩

/-- C4 (amended): the filler/meta-word half of the claim holds — whenever the
role candidate the extractor settles on is one of the filler words "job",
"role" or "position", canonicalization erases it entirely, so `role_canon`
(and hence every role field) is left unchanged. The city half fails: no code
checks candidates against the known-city list, so a bare city name is
adopted as the role (see the counterexample). -/
theorem extract_signals_filler_role_unset (titles : List String) (ai : AiSig)
    (msg : String) (st : ConvState)
    (h : roleCandidateFinal ai (first_clause (pyStrip msg)) ∈
      (["job", "role", "position"] : List String)) :
    (extract_signals titles ai msg st).role_canon = st.role_canon := by
  have hc : canonicalize_role (roleCandidateFinal ai (first_clause (pyStrip msg))) = "" := by
    simp only [List.mem_cons, List.not_mem_nil, or_false] at h
    rcases h with h | h | h <;> rw [h] <;> decide
  unfold extract_signals
  rw [advance_phase_role_canon, sigNote_role_canon, sigSalary_role_canon,
    sigLocation_role_canon, sigRole_skip_of_canon_empty _ _ _ _ hc,
    sigAiIncome_role_canon, sigIncome_role_canon, sigSmallTalk_role_canon]

theorem extract_signals_filler_role_witness :
    roleCandidateFinal {} (first_clause (pyStrip "job in London")) ∈
      (["job", "role", "position"] : List String) ∧
    (extract_signals [] {} "job in London" defaultState).role_canon =
      defaultState.role_canon :=
  ⟨by decide, extract_signals_filler_role_unset [] {} "job in London" defaultState (by decide)⟩

/-! ### `core/chat_orchestrator.py` — one turn of `chat_with_user`.

External collaborators are parameters: `titles` (the job-titles dataset),
`ai` (the model-assisted extraction outcome), `provider` (the outcome of
the listing-provider call: `none` for any exception — network error,
timeout, non-2xx after the adapter's retries — and `some js` for a 2xx
with normalized results `js`), `fallback` (the coached-reply generator's
text), `deckId` (the fresh uuid hex) and `hash` (SHA-1 hexdigest).
Session/memory bookkeeping and telemetry carry no conversation-state or
response logic and are not modelled; `state.setdefault` calls are no-ops
here because every field of `ConvState` is total. -/

def WELCOME_TEXT : String :=
  "Hey 👋 Tell me the role and location you’re looking for (e.g. “backend developer in London”)."

/-- `\b` holds before position `i` (all scanned keywords start with a word
character, so the boundary is: start of string or a non-word char before). -/
def prevOkW (l : List Char) (i : Nat) : Bool :=
  match i with
  | 0 => true
  | Nat.succ i0 =>
    match l.drop i0 with
    | c :: _ => !isWordC c
    | [] => true

/-- `\b` holds after position `j` (all scanned keywords end with a word
character, so the boundary is: end of string or a non-word char after). -/
def nextOkW (l : List Char) (j : Nat) : Bool :=
  match l.drop j with
  | [] => true
  | c :: _ => !isWordC c

/-- Match a sequence of literal parts separated by `\s+` starting at `i`,
returning the end position. -/
def seqAt : List (List Char) → List Char → Nat → Option Nat
  | [], _, i => some i
  | [p], l, i => if decide (p <+: l.drop i) then some (i + p.length) else none
  | p :: q :: rest, l, i =>
    if decide (p <+: l.drop i) then
      let w := wsRun l (i + p.length)
      if w = 0 then none else seqAt (q :: rest) l (i + p.length + w)
    else none

/-- `re.search` for `\b(alt|alt|…)\b` where each alternative is a list of
literal words joined by `\s+` (a one-element alternative is a plain literal,
possibly containing its own literal spaces). -/
def reSearchW (alts : List (List String)) (l : List Char) : Bool :=
  (List.range (l.length + 1)).any (fun i =>
    alts.any (fun parts =>
      prevOkW l i &&
        match seqAt (parts.map String.toList) l i with
        | some j => nextOkW l j
        | none => false))

def PIVOT_ALTS : List (List String) :=
  [["actually"], ["instead"], ["change"], ["different"], ["switch"],
   ["new", "role"], ["new", "job"]]

def RESET_ALTS : List (List String) :=
  [["reset"], ["start over"], ["new search"], ["clear everything"]]

def NEW_SEARCH_ALTS : List (List String) :=
  [["find"], ["search"], ["look for"], ["can you find"], ["what about"]]

/-- `don't know` (the reflective marker containing a literal apostrophe). -/
def dontKnow : String :=
  String.mk ['d', 'o', 'n', apos, 't', ' ', 'k', 'n', 'o', 'w']

def REFLECTIVE_ALTS : List (List String) :=
  [["confused"], ["lost"], ["unsure"], ["not sure"], [dontKnow], ["stuck"],
   ["future"], ["career"], ["life"], ["anxious"], ["stressed"]]

def is_greeting (low : String) : Bool :=
  low = "hi" || low = "hello" || low = "hey" || low = "hiya"

def ACK_WORDS : List String := ["thanks", "thank you", "ok", "okay", "cool", "great"]

/-- `ACK_ONLY_RE.match`: `^\s*(thanks|thank you|ok|okay|cool|great)\s*[.!?]?\s*$`. -/
def is_ack (low : String) : Bool :=
  ACK_WORDS.any (fun kw =>
    let l1 := low.toList.dropWhile isWsC
    if decide (kw.toList <+: l1) then
      let r := (l1.drop kw.toList.length).dropWhile isWsC
      let r2 := match r with
        | c :: rest => if c = '.' || c = '!' || c = '?' then rest else c :: rest
        | [] => ([] : List Char)
      (r2.dropWhile isWsC).isEmpty
    else false)

def is_new_search_intent (low : String) : Bool :=
  reSearchW NEW_SEARCH_ALTS low.toList || reSearchW PIVOT_ALTS low.toList

def is_reflective (low : String) : Bool := reSearchW REFLECTIVE_ALTS low.toList

/-- `_role_logic`: `(role_canon or role_raw or "").strip().lower()`. -/
def role_logic (st : ConvState) : String :=
  lowerS (pyStrip (pyOr (strOf st.role_canon) (strOf st.role_raw)))

/-- `_role_display`: `(role_display or role_keywords or "").strip()`. -/
def role_display_logic (st : ConvState) : String :=
  pyStrip (pyOr (strOf st.role_display) (strOf st.role_keywords))

/-- One field pass of `_strip_role_fields_in_state`. -/
def stripRoleField (v : Option String) : Option String :=
  match v with
  | some s => if pyStrip s ≠ "" then some (pyStrip (strip_time_modifiers s)) else some s
  | none => none

def strip_role_fields_in_state (st : ConvState) : ConvState :=
  { st with
      role_raw := stripRoleField st.role_raw,
      resolved_role := stripRoleField st.resolved_role,
      role_canon := stripRoleField st.role_canon }

/-- `_reset_search_state`: clears the search fields, keeps the clarity
fields (and everything else not listed in the `state.update`), and keeps
the location only when `keep_location` is set. -/
def reset_search_state (keep_location : Bool) (st : ConvState) : ConvState :=
  { st with
      phase := "discovery",
      jobs_shown := false,
      asked_income_type := false,
      income_type := none,
      current_deck := none,
      cached_jobs := [],
      resolved_role := none,
      role_raw := none,
      role_keywords := none,
      role_display := none,
      role_canon := none,
      role_query := none,
      location := if keep_location then st.location else none }

def startsWithS (p s : String) : Bool := decide (p.toList <+: s.toList)

def role_suggestions_from_clarity (level interest : String) : List String :=
  let interest_low := lowerS interest
  let level_low := lowerS level
  let techy := ["tech", "software", "coding", "data", "ai", "computer"].any
    (fun k => containsSub k interest_low)
  let creative := ["design", "ui", "ux", "creative", "graphics"].any
    (fun k => containsSub k interest_low)
  let people := ["people", "help", "support", "care", "customer"].any
    (fun k => containsSub k interest_low)
  if containsSub "student" level_low || containsSub "entry" level_low then
    if techy then ["Junior Software Developer", "IT Support Technician", "Data Analyst (Junior)"]
    else if creative then ["Junior UI Designer", "Junior UX Research Assistant", "Marketing Assistant"]
    else if people then ["Customer Support Advisor", "Recruitment Resourcer", "Sales Assistant"]
    else ["Customer Support Advisor", "Administrative Assistant", "Retail Assistant"]
  else if techy then ["Software Engineer", "Data Engineer", "Product Analyst"]
  else if creative then ["UI Designer", "UX Designer", "Content Designer"]
  else if people then ["Account Manager", "Team Lead (Support)", "Recruiter"]
  else ["Operations Coordinator", "Project Coordinator", "Account Manager"]

/-- `jobs/adzuna.py` `fetch_jobs`: blank (post-strip) keywords or location
short-circuit to `[]`; otherwise the provider call's outcome decides —
`none` (any exception, after the adapter's own retry/backoff) yields `[]`,
`some js` yields the normalized listings. `income_type` only shapes the
request parameters, never the outcome shape. -/
def fetch_jobs (provider : Option (List Job)) (role_keywords location income_type : String) :
    List Job :=
  if pyStrip role_keywords = "" ∨ pyStrip location = "" then []
  else provider.getD []

/-- The role string the fetch step searches for (`role_input` → dataset
resolution → `strip_time_modifiers` → lowercase/strip). -/
def resolvedRole (titles : List String) (st : ConvState) : String :=
  let role_input := pyStrip (strip_time_modifiers (role_logic st))
  lowerS (pyStrip (strip_time_modifiers
    (pyOr (strOf (resolve_role_from_dataset titles role_input)) role_input)))

def aposS : String := String.mk [apos]

/-- The zero-results / provider-failure reply (step 10's `not jobs` arm). -/
def noResultsText (resolved location : String) : String :=
  "I couldn’t find any listings for " ++ aposS ++ pyOr resolved "that role" ++ aposS ++
    " in " ++ location ++ ". Try a nearby city, a broader title, or remove ‘part-time’."

/-- Step 10: fetch → dedup → ids → cards → deck (entered only when its
guard `role ∧ location ∧ ¬jobs_shown` held). -/
def chatFetch (titles : List String) (provider : Option (List Job))
    (hash : String → String) (deckId : String) (st : ConvState) : ConvState × Resp :=
  let income_type := pyOr (strOf st.income_type) "job"
  let resolved := resolvedRole titles st
  let search_keywords := build_search_keywords resolved
  let st1 := { st with resolved_role := some resolved, role_query := some search_keywords }
  let jobs := assignIds hash
    (dedupJobs (fetch_jobs provider search_keywords (strOf st1.location) income_type))
  if jobs = [] then
    ({ st1 with jobs_shown := false, phase := "no_results" },
     { assistantText := noResultsText resolved (strOf st1.location), mode := "no_results" })
  else
    let cards := to_job_cards jobs (pyOr (role_logic st1) resolved) (strOf st1.location)
    let deck_cards := cards.take 8
    ({ st1 with
        cached_jobs := cards, jobs_shown := true, phase := "results_found",
        current_deck := some
          { deck_id := deckId, job_ids := deck_cards.map (fun c => strOf c.id),
            liked := [], passed := [], complete := false } },
     { assistantText :=
         "Found " ++ toString cards.length ++ " listings for " ++ aposS ++ resolved ++
           aposS ++ " in " ++ strOf st1.location ++ ". Want to swipe through the top " ++
           toString deck_cards.length ++ "?",
       mode := "results_found",
       actions := [{ type := "OPEN_SWIPE", label := some "Swipe jobs", deckId := some deckId }] })

/-- Steps 10-11: the fetch guard, else the coached-reply fallback. -/
def chatFetchGuard (titles : List String) (provider : Option (List Job))
    (hash : String → String) (deckId fallback : String) (st : ConvState) : ConvState × Resp :=
  if role_logic st ≠ "" ∧ truthyO st.location ∧ st.jobs_shown = false then
    chatFetch titles provider hash deckId st
  else
    (st, { assistantText :=
            pyOr (pyStrip fallback) "Tell me the role and location you want, and I’ll find jobs." })

/-- Step 9's second half: consume the full/part answer when it was asked. -/
def chatIncomeAnswer (titles : List String) (provider : Option (List Job))
    (hash : String → String) (deckId fallback low : String) (st : ConvState) :
    ConvState × Resp :=
  if st.asked_income_type then
    if containsSub "part" low then
      chatFetchGuard titles provider hash deckId fallback
        { st with income_type := some "part-time", jobs_shown := false,
                  asked_income_type := false }
    else if containsSub "full" low then
      chatFetchGuard titles provider hash deckId fallback
        { st with income_type := some "full-time", jobs_shown := false,
                  asked_income_type := false }
    else (st, { assistantText := "Full-time or part-time?" })
  else chatFetchGuard titles provider hash deckId fallback st

/-- Step 9's first half: ask full/part once role and location are known. -/
def chatIncome (titles : List String) (provider : Option (List Job))
    (hash : String → String) (deckId fallback low : String) (st : ConvState) :
    ConvState × Resp :=
  if st.income_type = none ∧ st.asked_income_type = false ∧
      role_logic st ≠ "" ∧ truthyO st.location then
    let st1 := { st with asked_income_type := true }
    (st1, { assistantText :=
             "Do you want full-time or part-time " ++ pyOr (role_display_logic st1) "that role" ++
               " work in " ++ strOf st1.location ++ "?" })
  else chatIncomeAnswer titles provider hash deckId fallback low st

/-- Steps 7-11: post-swipe flow, discovery question, income, fetch, fallback. -/
def chatAfterExtract (titles : List String) (provider : Option (List Job))
    (hash : String → String) (deckId fallback low : String) (st : ConvState) :
    ConvState × Resp :=
  if st.phase = "post_swipe" then
    let liked_ids := match st.current_deck with | some d => d.liked | none => []
    let liked_cards := st.cached_jobs.filter (fun c =>
      match c.id with | some i => decide (i ∈ liked_ids) | none => false)
    if low = "yes" || low = "yeah" || low = "yep" || low = "talk_yes" then
      ({ st with phase := "discuss_likes" },
       { assistantText := "Cool. What matters most to you: pay, flexibility, location, or growth?" })
    else if low = "no" || low = "n" || low = "nah" || low = "nope" || low = "talk_no" then
      ({ st with phase := "ready" },
       { assistantText := "All good. Here are the direct links to the ones you liked:",
         links := liked_cards.filterMap (fun c =>
           if c.redirect_url ≠ "" then
             some { label := pyStrip (c.title ++ " at " ++ c.company), url := c.redirect_url }
           else none) })
    else
      (st, { assistantText := "Quick one: do you want to talk about the jobs you liked? Yes or no.",
             mode := "post_swipe", actions := yesNoActions "talk_yes" "talk_no" "Yes" "No" })
  else if st.phase = "discovery" then
    match next_discovery_question st with
    | some q =>
      if q ≠ "" ∧ ¬ (role_logic st ≠ "" ∧ truthyO st.location) then
        (st, { assistantText := q })
      else chatIncome titles provider hash deckId fallback low st
    | none => chatIncome titles provider hash deckId fallback low st
  else chatIncome titles provider hash deckId fallback low st

/-- Steps 5½-11 given the (possibly pivot-reset) state: snapshots,
extraction, the change-detection reset, then the tail of the turn. -/
def chatPostPivot (titles : List String) (ai : AiSig) (provider : Option (List Job))
    (hash : String → String) (deckId fallback low msg : String) (st0 : ConvState) :
    ConvState × Resp :=
  let prev_role := role_logic st0
  let prev_loc := lowerS (pyStrip (strOf st0.location))
  let prev_income := lowerS (pyStrip (strOf st0.income_type))
  let st1 := strip_role_fields_in_state (extract_signals titles ai msg st0)
  let new_role := role_logic st1
  let new_loc := lowerS (pyStrip (strOf st1.location))
  let new_income := lowerS (pyStrip (strOf st1.income_type))
  let st2 :=
    if (prev_role ≠ "" ∧ new_role ≠ "" ∧ prev_role ≠ new_role) ∨
       (prev_loc ≠ "" ∧ new_loc ≠ "" ∧ prev_loc ≠ new_loc) ∨
       (prev_income ≠ "" ∧ new_income ≠ "" ∧ prev_income ≠ new_income) then
      let keep_role_display := if truthyO st1.role_display then st1.role_display
        else st1.role_keywords
      { reset_search_state false st1 with
          location := st1.location, role_canon := st1.role_canon,
          role_display := keep_role_display, role_keywords := keep_role_display,
          income_type := st1.income_type }
    else st1
  chatAfterExtract titles provider hash deckId fallback low st2

/-- Step 5: the pivot reset (`keep_location=True`), then the rest. -/
def chatPivot (titles : List String) (ai : AiSig) (provider : Option (List Job))
    (hash : String → String) (deckId fallback low msg : String) (st : ConvState) :
    ConvState × Resp :=
  chatPostPivot titles ai provider hash deckId fallback low msg
    (if is_new_search_intent low then reset_search_state true st else st)

/-- Step 4's tail: the reflective offer and `reflective_with_context`. -/
def chatReflective (titles : List String) (ai : AiSig) (provider : Option (List Job))
    (hash : String → String) (deckId fallback low msg : String) (st : ConvState) :
    ConvState × Resp :=
  if is_reflective low ∧
      st.phase ≠ "clarity_offer" ∧ st.phase ≠ "clarity_level" ∧
      st.phase ≠ "clarity_interest" ∧ st.phase ≠ "clarity_constraints" ∧
      st.phase ≠ "clarity_pick_role" then
    if role_logic st ≠ "" ∧ pyStrip (strOf st.location) ≠ "" then
      ({ st with phase := "reflective_with_context" },
       { assistantText :=
           "Got you. Do you want to keep it practical and continue the search, or do a quick clarity pass?",
         actions := yesNoActions "continue_search" "clarity_yes" "Continue search" "Clarity pass" })
    else
      ({ st with phase := "clarity_offer" },
       { assistantText :=
           "Got you. Want a quick clarity pass (under 2 minutes) so I can suggest roles to search for?\nOr you can just type a role + city.",
         actions := yesNoActions "clarity_yes" "clarity_no" "Yes" "No" })
  else if st.phase = "reflective_with_context" ∧ low = "continue_search" then
    ({ st with phase := "discovery" },
     { assistantText := "Alright. Tell me the role and location you want to search." })
  else chatPivot titles ai provider hash deckId fallback low msg st

/-- Step 4's clarity-pass state machine (each clarity phase returns except
the `clarity_pick_role` fall-through, which re-enters discovery). A stored
suggestion list of length 1 or 2 would raise `IndexError` in the source;
the rules engine only ever stores length-3 lists, and the out-of-range
read is embedded as `""`. -/
def chatClarity (titles : List String) (ai : AiSig) (provider : Option (List Job))
    (hash : String → String) (deckId fallback low msg : String) (st : ConvState) :
    ConvState × Resp :=
  if st.phase = "clarity_offer" then
    if low = "yes" || low = "y" || low = "yeah" || low = "yep" || low = "clarity_yes" then
      ({ st with phase := "clarity_level" },
       { assistantText :=
           "Cool. What’s your experience level?\n1) Student  2) Entry  3) 1–3 yrs  4) 3–7 yrs  5) 7+ yrs" })
    else if low = "no" || low = "n" || low = "nah" || low = "nope" || low = "clarity_no" then
      ({ st with phase := "discovery" },
       { assistantText := "All good. If you tell me a role + city, I’ll pull listings straight away." })
    else
      (st, { assistantText := "Do you want the quick clarity pass? Yes or no.",
             actions := yesNoActions "clarity_yes" "clarity_no" "Yes" "No" })
  else if st.phase = "clarity_level" then
    let lvl : Option String :=
      if containsSub "1" low || containsSub "student" low then some "student"
      else if containsSub "2" low || containsSub "entry" low then some "entry"
      else if containsSub "3" low || containsSub "1-3" low || containsSub "1–3" low then some "1-3"
      else if containsSub "4" low || containsSub "3-7" low || containsSub "3–7" low then some "3-7"
      else if containsSub "5" low || containsSub "7+" low then some "7+"
      else none
    match lvl with
    | none =>
      (st, { assistantText := "Pick one: 1) Student  2) Entry  3) 1–3 yrs  4) 3–7 yrs  5) 7+ yrs" })
    | some l =>
      ({ st with clarity_level := some l, phase := "clarity_interest" },
       { assistantText :=
           "Nice. What are you more into right now?\nA) Tech/Coding  B) Design/Creative  C) People/Support  D) Not sure" })
  else if st.phase = "clarity_interest" then
    let interest :=
      if startsWithS "a" low || containsSub "tech" low || containsSub "coding" low ||
          containsSub "software" low || containsSub "data" low || containsSub "ai" low then "tech"
      else if startsWithS "b" low || containsSub "design" low || containsSub "ux" low ||
          containsSub "ui" low || containsSub "creative" low then "design"
      else if startsWithS "c" low || containsSub "people" low || containsSub "support" low ||
          containsSub "customer" low then "people"
      else if startsWithS "d" low || containsSub "not sure" low || containsSub "dont know" low then
        "unsure"
      else low.take 40
    ({ st with clarity_interest := some interest, phase := "clarity_constraints" },
     { assistantText :=
         "Any constraints? (e.g. part-time, remote, needs to be in Edinburgh, no weekends). If none, say “none”." })
  else if st.phase = "clarity_constraints" then
    let constraints := pyStrip msg
    let cval := if constraints ≠ "" ∧ lowerS constraints ≠ "none" then constraints else ""
    let sugg := role_suggestions_from_clarity (strOf st.clarity_level) (strOf st.clarity_interest)
    ({ st with clarity_constraints := some cval, clarity_suggestions := sugg,
               phase := "clarity_pick_role" },
     { assistantText :=
         "Got it. Here are 3 solid roles to try searching:\n1) " ++ sugg.getD 0 "" ++
           "\n2) " ++ sugg.getD 1 "" ++ "\n3) " ++ sugg.getD 2 "" ++
           "\n\nReply with 1/2/3, or type your own role + city." })
  else if st.phase = "clarity_pick_role" then
    let chosenOpt : Option String :=
      if low = "1" || low = "2" || low = "3" then
        let idx := if low = "1" then 0 else if low = "2" then 1 else 2
        let chosen :=
          (if st.clarity_suggestions = [] then ["", "", ""] else st.clarity_suggestions).getD idx ""
        if chosen ≠ "" then some chosen else none
      else none
    match chosenOpt with
    | some chosen =>
      ({ st with role_canon := some (pyStrip (lowerS (strip_time_modifiers chosen))),
                 role_display := some chosen,
                 role_raw := some (pyStrip (lowerS (strip_time_modifiers chosen))),
                 phase := "discovery" },
       { assistantText := "Cool. What city should I search for " ++ chosen ++ " in?" })
    | none =>
      chatReflective titles ai provider hash deckId fallback low msg
        { st with phase := "discovery" }
  else chatReflective titles ai provider hash deckId fallback low msg st

/-- One turn of `chat_with_user` as a pure transformer of the conversation
state (steps 1-3, then the clarity/reflective/pivot/extraction tail). -/
def chatStep (titles : List String) (ai : AiSig) (provider : Option (List Job))
    (hash : String → String) (deckId fallback : String) (st : ConvState) (msg : String) :
    ConvState × Resp :=
  let low := pyStrip (lowerS msg)
  if is_greeting low then (st, { assistantText := WELCOME_TEXT })
  else if reSearchW RESET_ALTS low.toList then
    (defaultState,
     { assistantText := "Alright, starting fresh. What role and location are you looking for?" })
  else if is_ack low then
    (st, { assistantText := "You’re welcome. Want to search for something else, or tweak the role/location?" })
  else chatClarity titles ai provider hash deckId fallback low msg st

/-! ### Claims about the pivot reset (location retention) and provider
failure -/

def c3State : ConvState :=
  { defaultState with
      phase := "ready", role_canon := some "waiter",
      location := some "Edinburgh", income_type := some "full-time" }

/-- C3 counterexample: "new search" carries the claim's new-search marker,
yet the turn takes the hard-reset branch (`RESET_RE` also matches
"new search"), which restores the default state — the stored location is
cleared, not retained. -/
theorem c3_counterexample :
    is_new_search_intent (pyStrip (lowerS "new search")) = true ∧
    c3State.location = some "Edinburgh" ∧
    (chatStep [] {} none (fun s => s) "DECK" "" c3State "new search").1.location = none := by
  decide

/-- C3 (amended): on a message matching a pivot/new-search marker that does
not hit an earlier-returning branch (greeting, hard reset, ack, a clarity
phase, the reflective offer, `reflective_with_context` + continue), the turn
proceeds with `_reset_search_state(keep_location=True)` applied first: the
role fields, income type, cached jobs, current deck and `jobs_shown` are
cleared and the stored location is kept at the hand-off to extraction
(extraction of the same message may of course repopulate them). Messages
whose marker also matches `RESET_RE` (e.g. "new search") instead hard-reset
the whole state, clearing the location — see the counterexample. -/
theorem chat_pivot_keeps_location (titles : List String) (ai : AiSig)
    (provider : Option (List Job)) (hash : String → String) (deckId fallback : String)
    (st : ConvState) (msg : String)
    (h1 : is_new_search_intent (pyStrip (lowerS msg)) = true)
    (h2 : is_greeting (pyStrip (lowerS msg)) = false)
    (h3 : reSearchW RESET_ALTS (pyStrip (lowerS msg)).toList = false)
    (h4 : is_ack (pyStrip (lowerS msg)) = false)
    (h5 : st.phase ≠ "clarity_offer") (h6 : st.phase ≠ "clarity_level")
    (h7 : st.phase ≠ "clarity_interest") (h8 : st.phase ≠ "clarity_constraints")
    (h9 : st.phase ≠ "clarity_pick_role")
    (h10 : is_reflective (pyStrip (lowerS msg)) = false)
    (h11 : ¬ (st.phase = "reflective_with_context" ∧ pyStrip (lowerS msg) = "continue_search")) :
    chatStep titles ai provider hash deckId fallback st msg =
      chatPostPivot titles ai provider hash deckId fallback
        (pyStrip (lowerS msg)) msg (reset_search_state true st) ∧
    reset_search_state true st =
      { st with
          phase := "discovery", jobs_shown := false, asked_income_type := false,
          income_type := none, current_deck := none, cached_jobs := [],
          resolved_role := none, role_raw := none, role_keywords := none,
          role_display := none, role_canon := none, role_query := none } := by
  constructor
  · simp only [chatStep, chatClarity, chatReflective, chatPivot, h1, h2, h3, h4,
      h5, h6, h7, h8, h9, h10, h11, Bool.false_eq_true, if_false, false_and, if_true,
      ite_false, ite_true]
  · rfl

theorem chat_pivot_keeps_location_witness :
    chatStep [] {} none (fun s => s) "DECK" "" c3State "actually, plumber" =
      chatPostPivot [] {} none (fun s => s) "DECK" ""
        (pyStrip (lowerS "actually, plumber")) "actually, plumber"
        (reset_search_state true c3State) ∧
    reset_search_state true c3State =
      { c3State with
          phase := "discovery", jobs_shown := false, asked_income_type := false,
          income_type := none, current_deck := none, cached_jobs := [],
          resolved_role := none, role_raw := none, role_keywords := none,
          role_display := none, role_canon := none, role_query := none } :=
  chat_pivot_keeps_location [] {} none (fun s => s) "DECK" "" c3State "actually, plumber"
    (by decide) (by decide) (by decide) (by decide) (by decide) (by decide)
    (by decide) (by decide) (by decide) (by decide) (by decide)

theorem fetch_jobs_failure_eq_empty :
    ∀ kw loc inc, fetch_jobs none kw loc inc = fetch_jobs (some []) kw loc inc := by
  intro kw loc inc
  unfold fetch_jobs
  split <;> rfl

theorem fetch_jobs_none_empty : ∀ kw loc inc, fetch_jobs none kw loc inc = [] := by
  intro kw loc inc
  unfold fetch_jobs
  split <;> rfl

theorem chatFetch_pe (titles : List String) (hash : String → String)
    (deckId : String) (st : ConvState) :
    chatFetch titles none hash deckId st = chatFetch titles (some []) hash deckId st := by
  simp only [chatFetch, fetch_jobs_failure_eq_empty]

theorem chatFetchGuard_pe (titles : List String) (hash : String → String)
    (deckId fallback : String) (st : ConvState) :
    chatFetchGuard titles none hash deckId fallback st =
      chatFetchGuard titles (some []) hash deckId fallback st := by
  simp only [chatFetchGuard, chatFetch_pe]

theorem chatIncomeAnswer_pe (titles : List String) (hash : String → String)
    (deckId fallback low : String) (st : ConvState) :
    chatIncomeAnswer titles none hash deckId fallback low st =
      chatIncomeAnswer titles (some []) hash deckId fallback low st := by
  simp only [chatIncomeAnswer, chatFetchGuard_pe]

theorem chatIncome_pe (titles : List String) (hash : String → String)
    (deckId fallback low : String) (st : ConvState) :
    chatIncome titles none hash deckId fallback low st =
      chatIncome titles (some []) hash deckId fallback low st := by
  simp only [chatIncome, chatIncomeAnswer_pe]

theorem chatAfterExtract_pe (titles : List String) (hash : String → String)
    (deckId fallback low : String) (st : ConvState) :
    chatAfterExtract titles none hash deckId fallback low st =
      chatAfterExtract titles (some []) hash deckId fallback low st := by
  simp only [chatAfterExtract, chatIncome_pe]

theorem chatPostPivot_pe (titles : List String) (ai : AiSig) (hash : String → String)
    (deckId fallback low msg : String) (st : ConvState) :
    chatPostPivot titles ai none hash deckId fallback low msg st =
      chatPostPivot titles ai (some []) hash deckId fallback low msg st := by
  simp only [chatPostPivot, chatAfterExtract_pe]

theorem chatPivot_pe (titles : List String) (ai : AiSig) (hash : String → String)
    (deckId fallback low msg : String) (st : ConvState) :
    chatPivot titles ai none hash deckId fallback low msg st =
      chatPivot titles ai (some []) hash deckId fallback low msg st := by
  simp only [chatPivot, chatPostPivot_pe]

theorem chatReflective_pe (titles : List String) (ai : AiSig) (hash : String → String)
    (deckId fallback low msg : String) (st : ConvState) :
    chatReflective titles ai none hash deckId fallback low msg st =
      chatReflective titles ai (some []) hash deckId fallback low msg st := by
  simp only [chatReflective, chatPivot_pe]

theorem chatClarity_pe (titles : List String) (ai : AiSig) (hash : String → String)
    (deckId fallback low msg : String) (st : ConvState) :
    chatClarity titles ai none hash deckId fallback low msg st =
      chatClarity titles ai (some []) hash deckId fallback low msg st := by
  simp only [chatClarity, chatReflective_pe]

/-- C1: a provider failure is never retried inside the turn and is
indistinguishable from a zero-result search. First conjunct: a whole turn
with a failing provider (`none`) equals the same turn with a provider that
returns zero results (`some []`), for every state, message and collaborator
— so no raw provider error can reach the user. Second conjunct: whenever
the fetch step runs with a failing provider, the state moves to phase
`no_results` with `jobs_shown = False`, the response mode is `no_results`,
its `jobs` list is empty, and the assistant text is exactly the broadening
suggestion built from the resolved role and stored location. -/
theorem chat_provider_failure_like_zero_results :
    (∀ (titles : List String) (ai : AiSig) (hash : String → String)
        (deckId fallback : String) (st : ConvState) (msg : String),
      chatStep titles ai none hash deckId fallback st msg =
        chatStep titles ai (some []) hash deckId fallback st msg) ∧
    (∀ (titles : List String) (hash : String → String) (deckId : String)
        (st : ConvState),
      chatFetch titles none hash deckId st =
        ({ st with
             resolved_role := some (resolvedRole titles st),
             role_query := some (build_search_keywords (resolvedRole titles st)),
             jobs_shown := false, phase := "no_results" },
         { assistantText := noResultsText (resolvedRole titles st) (strOf st.location),
           mode := "no_results", jobs := [] })) := by
  constructor
  · intro titles ai hash deckId fallback st msg
    simp only [chatStep, chatClarity_pe]
  · intro titles hash deckId st
    simp only [chatFetch, fetch_jobs_none_empty]
    rfl

/-! ### Canonicalization idempotence: shape of canonical strings

A canonical string is a single-space join of nonempty lowercase-alnum
tokens.  The lemmas below recover the token list from the joined string,
and relate bounded (context-delimited) occurrences to tokens. -/

theorem takeWhile_append_all (p : Char → Bool) (t l : List Char)
    (h : ∀ c ∈ t, p c = true) : (t ++ l).takeWhile p = t ++ l.takeWhile p := by
  induction t with
  | nil => simp
  | cons c t ih =>
    simp only [List.cons_append, List.takeWhile_cons, h c (by simp)]
    simp only [ih (fun x hx => h x (by simp [hx]))]
    simp

theorem dropWhile_append_all (p : Char → Bool) (t l : List Char)
    (h : ∀ c ∈ t, p c = true) : (t ++ l).dropWhile p = l.dropWhile p := by
  induction t with
  | nil => simp
  | cons c t ih =>
    simp only [List.cons_append, List.dropWhile_cons, h c (by simp)]
    simpa using ih (fun x hx => h x (by simp [hx]))

theorem jt_nil : joinToks [] = [] := rfl

theorem jt_single (t : List Char) : joinToks [t] = t := by
  simp [joinToks, List.intercalate]

theorem jt_cons2 (t u : List Char) (ts : List (List Char)) :
    joinToks (t :: u :: ts) = t ++ ' ' :: joinToks (u :: ts) := by
  simp [joinToks, List.intercalate, List.intersperse]

/-- Splitting an equation between two appended pairs. -/
theorem append_eq_split {l1 l2 a b : List Char} (h : l1 ++ l2 = a ++ b) :
    ∃ k, (a = l1 ++ k ∧ l2 = k ++ b) ∨ (l1 = a ++ k ∧ b = k ++ l2) := by
  rcases List.append_eq_append_iff.mp h with ⟨k, hk1, hk2⟩ | ⟨k, hk1, hk2⟩
  · exact ⟨k, Or.inl ⟨hk1, hk2⟩⟩
  · exact ⟨k, Or.inr ⟨hk1, hk2⟩⟩

theorem prefix_append_cases {y rep i' : List Char} (h : y <+: rep ++ i') :
    y <+: rep ∨ ∃ y', y = rep ++ y' ∧ y' <+: i' := by
  rcases h with ⟨t, ht⟩
  rcases List.append_eq_append_iff.mp ht.symm with ⟨k, hk1, hk2⟩ | ⟨k, hk1, hk2⟩
  · right
    exact ⟨k, hk1, ⟨t, hk2.symm⟩⟩
  · left
    exact ⟨k, hk1.symm⟩

/-- Well-formed token lists for a character class `p`. -/
def wfT (p : Char → Bool) (ts : List (List Char)) : Prop :=
  ∀ t ∈ ts, t ≠ [] ∧ ∀ c ∈ t, p c = true

/-- The runs of a single-space join of well-formed tokens are the tokens. -/
theorem runs_join (p : Char → Bool) (hsp : p ' ' = false) :
    ∀ ts, wfT p ts → runsP p (joinToks ts) = ts := by
  intro ts
  induction ts with
  | nil => intro _; simp [jt_nil, runsP_nil]
  | cons t ts ih =>
    intro hwf
    have ht := hwf t (by simp)
    have hwf' : wfT p ts := fun u hu => hwf u (by simp [hu])
    rcases ht with ⟨htne, htall⟩
    obtain ⟨c, t', rfl⟩ : ∃ c t', t = c :: t' := by
      cases t with
      | nil => exact absurd rfl htne
      | cons c t' => exact ⟨c, t', rfl⟩
    cases ts with
    | nil =>
      rw [jt_single, runsP_cons, if_pos (htall c (by simp))]
      have h1 : t'.takeWhile p = t' :=
        List.takeWhile_eq_self_iff.mpr (fun x hx => htall x (by simp [hx]))
      have h2 : t'.dropWhile p = [] :=
        List.dropWhile_eq_nil_iff.mpr (fun x hx => htall x (by simp [hx]))
      rw [h1, h2, runsP_nil]
    | cons u ts' =>
      rw [jt_cons2, List.cons_append, runsP_cons, if_pos (htall c (by simp))]
      have hall' : ∀ x ∈ t', p x = true := fun x hx => htall x (by simp [hx])
      have h1 : (t' ++ ' ' :: joinToks (u :: ts')).takeWhile p = t' := by
        rw [takeWhile_append_all p t' _ hall', List.takeWhile_cons, hsp]
        simp
      have h2 : (t' ++ ' ' :: joinToks (u :: ts')).dropWhile p = ' ' :: joinToks (u :: ts') := by
        rw [dropWhile_append_all p t' _ hall', List.dropWhile_cons, hsp]
        simp
      rw [h1, h2, runsP_cons, hsp]
      simp only [Bool.false_eq_true, if_false]
      rw [ih hwf']

theorem takeWhile_congr_on (p q : Char → Bool) :
    ∀ l : List Char, (∀ c ∈ l, p c = q c) → l.takeWhile p = l.takeWhile q
  | [], _ => rfl
  | c :: cs, h => by
    rw [List.takeWhile_cons, List.takeWhile_cons, h c (by simp)]
    by_cases hq : q c = true
    · rw [if_pos hq, if_pos hq, takeWhile_congr_on p q cs (fun x hx => h x (by simp [hx]))]
    · rw [if_neg hq, if_neg hq]

theorem dropWhile_congr_on (p q : Char → Bool) :
    ∀ l : List Char, (∀ c ∈ l, p c = q c) → l.dropWhile p = l.dropWhile q
  | [], _ => rfl
  | c :: cs, h => by
    rw [List.dropWhile_cons, List.dropWhile_cons, h c (by simp)]
    by_cases hq : q c = true
    · rw [if_pos hq, if_pos hq, dropWhile_congr_on p q cs (fun x hx => h x (by simp [hx]))]
    · rw [if_neg hq, if_neg hq]

/-- Runs only depend on the predicate's values on the list's characters. -/
theorem runsP_congr (p q : Char → Bool) :
    ∀ l, (∀ c ∈ l, p c = q c) → runsP p l = runsP q l
  | [], _ => rfl
  | c :: cs, h => by
    rw [runsP_cons, runsP_cons, h c (by simp)]
    by_cases hq : q c = true
    · rw [if_pos hq, if_pos hq]
      have ht : cs.takeWhile p = cs.takeWhile q :=
        takeWhile_congr_on p q cs (fun x hx => h x (by simp [hx]))
      have hd : cs.dropWhile p = cs.dropWhile q :=
        dropWhile_congr_on p q cs (fun x hx => h x (by simp [hx]))
      rw [ht, hd, runsP_congr p q (cs.dropWhile q) (fun x hx =>
        h x (by simp [(List.dropWhile_sublist q).subset hx]))]
    · rw [if_neg hq, if_neg hq]
      exact runsP_congr p q cs (fun x hx => h x (by simp [hx]))
termination_by l => l.length
decreasing_by
  · exact Nat.lt_succ_of_le (List.Sublist.length_le (List.dropWhile_sublist q))
  · exact Nat.lt_succ_self _

/-- Characters of a join are token characters or the separating space. -/
theorem mem_joinToks {c : Char} : ∀ {ts}, c ∈ joinToks ts → c = ' ' ∨ ∃ t ∈ ts, c ∈ t := by
  intro ts
  induction ts with
  | nil => intro h; simp [jt_nil] at h
  | cons t ts ih =>
    intro h
    cases ts with
    | nil =>
      rw [jt_single] at h
      exact Or.inr ⟨t, by simp, h⟩
    | cons u ts' =>
      rw [jt_cons2] at h
      rcases List.mem_append.mp h with h1 | h2
      · exact Or.inr ⟨t, by simp, h1⟩
      · rcases List.mem_cons.mp h2 with rfl | h3
        · exact Or.inl rfl
        · rcases ih h3 with h4 | ⟨u', hu1, hu2⟩
          · exact Or.inl h4
          · exact Or.inr ⟨u', by simp [hu1], hu2⟩

theorem isAlnum_ranges {c : Char} (h : isAlnumC c = true) :
    (97 ≤ c.toNat ∧ c.toNat ≤ 122) ∨ (48 ≤ c.toNat ∧ c.toNat ≤ 57) := by
  simpa [isAlnumC, Bool.or_eq_true, Bool.and_eq_true, decide_eq_true_eq] using h

theorem isWordC_of_isAlnumC {c : Char} (h : isAlnumC c = true) : isWordC c = true := by
  have h2 := isAlnum_ranges h
  simp only [isWordC, Bool.or_eq_true, Bool.and_eq_true, decide_eq_true_eq]
  omega

theorem not_isWsC_of_isAlnumC {c : Char} (h : isAlnumC c = true) : isWsC c = false := by
  by_cases hc : c = ' '
  · subst hc
    simp [isAlnumC] at h
  · have h2 := isAlnum_ranges h
    simp only [isWsC, Bool.or_eq_false_iff, decide_eq_false_iff_not]
    repeat' constructor
    all_goals first | exact hc | omega

theorem lowerChar_id_of_isAlnumC {c : Char} (h : isAlnumC c = true) : lowerChar c = c := by
  have h2 := isAlnum_ranges h
  rw [lowerChar, if_neg (by omega)]

/-- Left context blocks `p`: the previous character (if any) fails `p`. -/
def ctxN (p : Char → Bool) (a : List Char) : Prop :=
  a = [] ∨ ∃ c, a.getLast? = some c ∧ p c = false

/-- Right context blocks `p`: the next character (if any) fails `p`. -/
def ctxH (p : Char → Bool) (b : List Char) : Prop :=
  b = [] ∨ ∃ c, b.head? = some c ∧ p c = false

/-- A bounded occurrence: `w` occurs with non-alnum (or absent) context on
both sides — exactly the occurrences that are whole tokens. -/
def BOcc (w s : List Char) : Prop :=
  ∃ a b, s = a ++ w ++ b ∧ ctxN isAlnumC a ∧ ctxH isAlnumC b

theorem dropWhile_append_stop (p : Char → Bool) :
    ∀ (l x : List Char), (∃ d ∈ l, p d = false) →
      (l ++ x).dropWhile p = l.dropWhile p ++ x
  | [], _, h => by simp at h
  | c :: l', x, h => by
    by_cases hc : p c = true
    · have hd : ∃ d ∈ l', p d = false := by
        rcases h with ⟨d, hd1, hd2⟩
        rcases List.mem_cons.mp hd1 with rfl | hd3
        · exact absurd hc (by simp [hd2])
        · exact ⟨d, hd3, hd2⟩
      rw [List.cons_append, List.dropWhile_cons, if_pos hc, List.dropWhile_cons, if_pos hc]
      exact dropWhile_append_stop p l' x hd
    · have hcf : p c = false := Bool.eq_false_iff.mpr hc
      rw [List.cons_append, List.dropWhile_cons, if_neg (by simp [hcf]),
        List.dropWhile_cons, if_neg (by simp [hcf]), List.cons_append]

/-- A nonempty all-`p` block with blocking context on both sides is a run. -/
theorem run_of_ctx (p : Char → Bool) {t : List Char} (htne : t ≠ [])
    (htall : ∀ c ∈ t, p c = true) :
    ∀ (a b : List Char), ctxN p a → ctxH p b → t ∈ runsP p (a ++ t ++ b)
  | [], b, _, hb => by
    obtain ⟨c, t', rfl⟩ := List.exists_cons_of_ne_nil htne
    have hall' : ∀ x ∈ t', p x = true := fun x hx => htall x (by simp [hx])
    have hbt : b.takeWhile p = [] := by
      rcases hb with rfl | ⟨d, hd1, hd2⟩
      · rfl
      · cases b with
        | nil => rfl
        | cons e b' =>
          simp only [List.head?_cons, Option.some.injEq] at hd1
          subst hd1
          rw [List.takeWhile_cons, if_neg (by simp [hd2])]
    rw [List.nil_append, List.cons_append, runsP_cons, if_pos (htall c (by simp)),
      takeWhile_append_all p t' b hall', hbt, List.append_nil]
    exact List.mem_cons_self _ _
  | c :: a', b, ha, hb => by
    by_cases hc : p c = true
    · have hlast : ∃ d, a'.getLast? = some d ∧ p d = false := by
        rcases ha with h1 | ⟨d, hd1, hd2⟩
        · exact absurd h1 (by simp)
        · cases a' with
          | nil =>
            simp only [List.getLast?_singleton, Option.some.injEq] at hd1
            subst hd1
            exact absurd hc (by simp [hd2])
          | cons e a'' =>
            rw [List.getLast?_cons_cons] at hd1
            exact ⟨d, hd1, hd2⟩
      rcases hlast with ⟨d, hd1, hd2⟩
      have hmem : d ∈ a' := List.mem_of_getLast?_eq_some hd1
      have hstop : (a' ++ (t ++ b)).dropWhile p = a'.dropWhile p ++ (t ++ b) :=
        dropWhile_append_stop p a' (t ++ b) ⟨d, hmem, hd2⟩
      have hne2 : a'.dropWhile p ≠ [] := by
        intro h0
        have := List.dropWhile_eq_nil_iff.mp h0 d hmem
        simp [hd2] at this
      have hlast2 : (a'.dropWhile p).getLast? = some d := by
        have hsuf : a'.dropWhile p <:+ a' := List.dropWhile_suffix p
        rcases hsuf with ⟨u, hu⟩
        rw [← List.getLast?_append_of_ne_nil u hne2, hu]
        exact hd1
      have hrec := run_of_ctx p htne htall (a'.dropWhile p) b
        (Or.inr ⟨d, hlast2, hd2⟩) hb
      have hstop2 : (a' ++ t ++ b).dropWhile p = a'.dropWhile p ++ t ++ b := by
        rw [List.append_assoc, hstop, ← List.append_assoc]
      rw [List.cons_append, List.cons_append, runsP_cons, if_pos hc, hstop2]
      exact List.mem_cons_of_mem _ hrec
    · have hcf : p c = false := Bool.eq_false_iff.mpr hc
      have ha' : ctxN p a' := by
        cases a' with
        | nil => exact Or.inl rfl
        | cons e a'' =>
          rcases ha with h1 | ⟨d, hd1, hd2⟩
          · exact absurd h1 (by simp)
          · rw [List.getLast?_cons_cons] at hd1
            exact Or.inr ⟨d, hd1, hd2⟩
      rw [List.cons_append, List.cons_append, runsP_cons, if_neg (by simp [hcf])]
      exact run_of_ctx p htne htall a' b ha' hb
termination_by a _ _ _ => a.length
decreasing_by
  · calc (a'.dropWhile p).length ≤ a'.length :=
        List.Sublist.length_le (List.dropWhile_sublist p)
    _ < (c :: a').length := Nat.lt_succ_self _
  · exact Nat.lt_succ_self _

/-- Every run sits in its list with blocking context on both sides. -/
theorem ctx_of_run (p : Char → Bool) :
    ∀ l t, t ∈ runsP p l →
      ∃ a b, l = a ++ t ++ b ∧ ctxN p a ∧ ctxH p b
  | [], t, ht => by simp [runsP_nil] at ht
  | c :: cs, t, ht => by
    rw [runsP_cons] at ht
    by_cases hc : p c = true
    · rw [if_pos hc] at ht
      rcases List.mem_cons.mp ht with rfl | h
      · refine ⟨[], cs.dropWhile p, ?_, Or.inl rfl, ?_⟩
        · simp [List.takeWhile_append_dropWhile]
        · cases hdw : cs.dropWhile p with
          | nil => exact Or.inl rfl
          | cons d b' =>
            exact Or.inr ⟨d, by simp, head_dropWhileP p cs d b' hdw⟩
      · obtain ⟨a', b', heq, hctxa, hctxb⟩ := ctx_of_run p (cs.dropWhile p) t h
        have ha'ne : a' ≠ [] := by
          intro h0
          subst h0
          have hts := runsP_sound p (cs.dropWhile p) t h
          obtain ⟨e, t', rfl⟩ := List.exists_cons_of_ne_nil hts.1
          rw [List.nil_append] at heq
          have hh : cs.dropWhile p = e :: (t' ++ b') := by rw [heq]; rfl
          have := head_dropWhileP p cs e (t' ++ b') hh
          simp [hts.2 e (by simp)] at this
        refine ⟨c :: cs.takeWhile p ++ a', b', ?_, ?_, hctxb⟩
        · conv_lhs => rw [show (c :: cs = c :: (cs.takeWhile p ++ cs.dropWhile p)) from by
            rw [List.takeWhile_append_dropWhile]]
          rw [heq]
          simp
        · rcases hctxa with h0 | ⟨d, hd1, hd2⟩
          · exact absurd h0 ha'ne
          · refine Or.inr ⟨d, ?_, hd2⟩
            show ((c :: cs.takeWhile p) ++ a').getLast? = some d
            rw [List.getLast?_append_of_ne_nil _ ha'ne]
            exact hd1
    · rw [if_neg hc] at ht
      obtain ⟨a', b', heq, hctxa, hctxb⟩ := ctx_of_run p cs t ht
      refine ⟨c :: a', b', by rw [heq]; rfl, ?_, hctxb⟩
      cases a' with
      | nil =>
        exact Or.inr ⟨c, by simp, Bool.eq_false_iff.mpr hc⟩
      | cons e a'' =>
        rcases hctxa with h0 | ⟨d, hd1, hd2⟩
        · exact absurd h0 (by simp)
        · exact Or.inr ⟨d, by rw [List.getLast?_cons_cons]; exact hd1, hd2⟩
termination_by l => l.length
decreasing_by
  · exact Nat.lt_succ_of_le (List.Sublist.length_le (List.dropWhile_sublist p))
  · exact Nat.lt_succ_self _

/-- Only lowercase-alnum characters and spaces. -/
def sacs (s : List Char) : Prop := ∀ c ∈ s, isAlnumC c = true ∨ c = ' '

/-- Scanner-failure certificate for the `\b`-substitution scanner: no match
fires anywhere in `s` when the input continues with `cont`. -/
def scanFail (ph : List Char) : Bool → List Char → List Char → Bool
  | _, [], _ => true
  | pw, c :: q, cont =>
    !(!pw && matchHereB ph (c :: (q ++ cont))) && scanFail ph (isWordC c) q cont

theorem subAux_id (ph : List Char) (w : Bool) :
    ∀ (s : List Char) (pw : Bool), scanFail ph pw s [] = true → subAux ph w 0 pw s = s
  | [], _, _ => rfl
  | c :: cs, pw, h => by
    have h0 : scanFail ph pw (c :: cs) [] =
        (!(!pw && matchHereB ph (c :: (cs ++ []))) && scanFail ph (isWordC c) cs []) := rfl
    rw [h0, Bool.and_eq_true] at h
    have hm : (!pw && matchHereB ph (c :: cs)) = false := by
      have := h.1
      rw [Bool.not_eq_eq_eq_not] at this
      simpa using this
    rw [subAux_copy w hm, subAux_id ph w cs (isWordC c) h.2]

theorem scanFail_false_occ (ph : List Char) :
    ∀ (s : List Char) (pw : Bool) (cont : List Char), scanFail ph pw s cont = false →
      ∃ a g, s = a ++ g ∧ g ≠ [] ∧ matchHereB ph (g ++ cont) = true ∧
        (a = [] → pw = false) ∧ (∀ c, a.getLast? = some c → isWordC c = false)
  | [], pw, cont, h => by simp [scanFail] at h
  | c :: q, pw, cont, h => by
    have h0 : scanFail ph pw (c :: q) cont =
        (!(!pw && matchHereB ph (c :: (q ++ cont))) && scanFail ph (isWordC c) q cont) := rfl
    rw [h0] at h
    rcases Bool.and_eq_false_iff.mp h with h1 | h2
    · have h3 : (!pw && matchHereB ph (c :: (q ++ cont))) = true := by
        rw [Bool.not_eq_eq_eq_not] at h1
        simpa using h1
      rw [Bool.and_eq_true] at h3
      rcases h3 with ⟨hpw, hm⟩
      refine ⟨[], c :: q, rfl, by simp, ?_, fun _ => by simpa using hpw, by simp⟩
      show matchHereB ph (c :: (q ++ cont)) = true
      exact hm
    · obtain ⟨a, g, hs, hgne, hm, hpw', hlast⟩ := scanFail_false_occ ph q (isWordC c) cont h2
      subst hs
      refine ⟨c :: a, g, rfl, hgne, hm, by simp, ?_⟩
      intro d hd
      cases a with
      | nil =>
        simp only [List.getLast?_singleton, Option.some.injEq] at hd
        subst hd
        exact hpw' rfl
      | cons e a' =>
        rw [List.getLast?_cons_cons] at hd
        exact hlast d hd

/-- A failed scanner certificate yields a bounded occurrence of the
(alnum-delimited) pattern. -/
theorem scanFail_false_bocc (ph : List Char) {s : List Char}
    (h : scanFail ph false s [] = false) : BOcc ph s := by
  obtain ⟨a, g, hs, hgne, hm, _, hlast⟩ := scanFail_false_occ ph s false [] h
  rw [List.append_nil] at hm
  unfold matchHereB at hm
  rw [Bool.and_eq_true] at hm
  rcases hm with ⟨hpre, hbnd⟩
  obtain ⟨b, hb⟩ := List.isPrefixOf_iff_prefix.mp hpre
  refine ⟨a, b, by rw [hs, ← hb, List.append_assoc], ?_, ?_⟩
  · cases a with
    | nil => exact Or.inl rfl
    | cons e a' =>
      have hne : (e :: a') ≠ [] := by simp
      refine Or.inr ⟨(e :: a').getLast hne, List.getLast?_eq_getLast _ hne, ?_⟩
      have hw := hlast _ (List.getLast?_eq_getLast _ hne)
      cases hq : isAlnumC ((e :: a').getLast hne) with
      | false => rfl
      | true => exact absurd (isWordC_of_isAlnumC hq) (by simp [hw])
  · rw [← hb] at hbnd
    have hdrop : (ph ++ b).drop ph.length = b := by
      rw [List.drop_append_of_le_length (le_refl _)]
      simp
    rw [hdrop] at hbnd
    cases b with
    | nil => exact Or.inl rfl
    | cons e b' =>
      refine Or.inr ⟨e, rfl, ?_⟩
      have hw : isWordC e = false := by
        simpa using hbnd
      cases hq : isAlnumC e with
      | false => rfl
      | true => exact absurd (isWordC_of_isAlnumC hq) (by simp [hw])

/-- `re.sub(r"\b…\b", " ", s)` is the identity when the pattern has no
bounded occurrence. -/
theorem subBnd_id_of_no_bocc (ph : String) {s : List Char}
    (hno : ¬ BOcc ph.toList s) : subBnd ph s = s := by
  unfold subBnd
  apply subAux_id
  cases hsf : scanFail ph.toList false s [] with
  | true => rfl
  | false => exact absurd (scanFail_false_bocc ph.toList hsf) hno

/-- The invariant of canonicalized strings: a single-space join of
nonempty lowercase-alnum tokens, no token being a filler / schedule word /
generic job word, and no `waitress` / `waiting staff` substring left for
the normalization map. -/
def canonInv (s : List Char) : Prop :=
  s = joinToks (runsP isAlnumC s) ∧
  (∀ t ∈ runsP isAlnumC s,
      String.mk t ∉ FILLER_WORDS ∧ String.mk t ∉ TIME_WORDS ∧
      String.mk t ≠ "employment" ∧ String.mk t ≠ "career") ∧
  ¬ ("waitress".toList <:+: s) ∧ ¬ (("waiting staff").toList <:+: s)

theorem sacs_of_shape {s : List Char} (hs : s = joinToks (runsP isAlnumC s)) :
    sacs s := by
  intro c hc
  rw [hs] at hc
  rcases mem_joinToks hc with h | ⟨t, ht1, ht2⟩
  · exact Or.inr h
  · exact Or.inl ((runsP_sound isAlnumC s t ht1).2 c ht2)

theorem lowerL_id_of_sacs {s : List Char} (h : sacs s) : lowerL s = s := by
  unfold lowerL
  have h2 : ∀ c ∈ s, lowerChar c = c := by
    intro c hc
    rcases h c hc with h1 | rfl
    · exact lowerChar_id_of_isAlnumC h1
    · decide
  calc s.map lowerChar = s.map id := List.map_congr_left h2
  _ = s := List.map_id s

theorem no_bocc_bad_char {ph s : List Char} (hsacs : sacs s)
    (hb : ∃ c ∈ ph, isAlnumC c = false ∧ c ≠ ' ') : ¬ BOcc ph s := by
  rintro ⟨a, b, rfl, -, -⟩
  rcases hb with ⟨c, hc1, hc2, hc3⟩
  have hmem : c ∈ a ++ ph ++ b := by simp [hc1]
  rcases hsacs c hmem with h | h
  · simp [h] at hc2
  · exact hc3 h

theorem bocc_word_token {w s : List Char} (hw : w ≠ [])
    (hwa : ∀ c ∈ w, isAlnumC c = true) (h : BOcc w s) : w ∈ runsP isAlnumC s := by
  rcases h with ⟨a, b, rfl, ha, hb⟩
  exact run_of_ctx isAlnumC hw hwa a b ha hb

theorem bocc_two_word_token {p q s : List Char} (hp : p ≠ [])
    (hpa : ∀ c ∈ p, isAlnumC c = true) (h : BOcc (p ++ ' ' :: q) s) :
    p ∈ runsP isAlnumC s := by
  rcases h with ⟨a, b, heq, ha, hb⟩
  have heq2 : s = a ++ p ++ (' ' :: (q ++ b)) := by rw [heq]; simp
  rw [heq2]
  exact run_of_ctx isAlnumC hp hpa a (' ' :: (q ++ b)) ha
    (Or.inr ⟨' ', rfl, by decide⟩)

theorem foldl_subBnd_id {phs : List String} {s : List Char}
    (h : ∀ ph ∈ phs, subBnd ph s = s) :
    phs.foldl (fun acc ph => subBnd ph acc) s = s := by
  induction phs with
  | nil => rfl
  | cons ph phs ih =>
    rw [List.foldl_cons, h ph (by simp)]
    exact ih (fun x hx => h x (by simp [hx]))

theorem mk_toList (s : List Char) : (String.mk s).toList = s := rfl

theorem cleanToks_id_of_inv {s : List Char} (hinv : canonInv s) :
    cleanToks s = runsP isAlnumC s := by
  unfold cleanToks
  rw [lowerL_id_of_sacs (sacs_of_shape hinv.1)]

theorem strip_fillers_id_of_inv {s : List Char} (hinv : canonInv s) :
    strip_fillers (String.mk s) = String.mk s := by
  unfold strip_fillers
  rw [mk_toList, cleanToks_id_of_inv hinv]
  have hfil : (runsP isAlnumC s).filter (fun t => String.mk t ∉ FILLER_WORDS) =
      runsP isAlnumC s := by
    apply List.filter_eq_self.mpr
    intro t ht
    simp [(hinv.2.1 t ht).1]
  rw [hfil, ← hinv.1]

theorem wsSplit_eq_runs_of_sacs {s : List Char} (hsacs : sacs s) :
    wsSplit s = runsP isAlnumC s := by
  unfold wsSplit
  apply runsP_congr
  intro c hc
  rcases hsacs c hc with h | rfl
  · rw [not_isWsC_of_isAlnumC h, h]
    rfl
  · decide

theorem strip_time_id_of_inv {s : List Char} (hinv : canonInv s) :
    strip_time_modifiers (String.mk s) = String.mk s := by
  have hsacs : sacs s := sacs_of_shape hinv.1
  have hws : wsSplit s = runsP isAlnumC s := wsSplit_eq_runs_of_sacs hsacs
  simp only [strip_time_modifiers, mk_toList]
  by_cases hts : runsP isAlnumC s = []
  · rw [if_pos (by rw [hws, hts])]
    have hs0 : s = [] := by rw [hinv.1, hts]; rfl
    rw [hs0]
  · rw [if_neg (by rw [hws]; exact hts)]
    have hclean : cleanTextL s = s := by
      unfold cleanTextL
      rw [cleanToks_id_of_inv hinv, ← hinv.1]
    rw [hclean]
    have hsub2 : ∀ ph ∈ TIME_PHRASES, subBnd ph s = s := by
      intro ph hph
      apply subBnd_id_of_no_bocc
      fin_cases hph
      · -- "part time"
        intro hB
        have hdec : ("part time").toList = "part".toList ++ ' ' :: "time".toList := by decide
        rw [hdec] at hB
        have := bocc_two_word_token (by decide) (by decide) hB
        exact ((hinv.2.1 _ this).2.1) (by decide)
      · -- "part-time"
        exact no_bocc_bad_char hsacs ⟨'-', by decide, by decide, by decide⟩
      · -- "full time"
        intro hB
        have hdec : ("full time").toList = "full".toList ++ ' ' :: "time".toList := by decide
        rw [hdec] at hB
        have := bocc_two_word_token (by decide) (by decide) hB
        exact ((hinv.2.1 _ this).2.1) (by decide)
      · -- "full-time"
        exact no_bocc_bad_char hsacs ⟨'-', by decide, by decide, by decide⟩
      · -- "zero hours"
        intro hB
        have hdec : ("zero hours").toList = "zero".toList ++ ' ' :: "hours".toList := by decide
        rw [hdec] at hB
        have := bocc_two_word_token (by decide) (by decide) hB
        exact ((hinv.2.1 _ this).2.1) (by decide)
      · -- "zero-hour"
        exact no_bocc_bad_char hsacs ⟨'-', by decide, by decide, by decide⟩
      · -- "zero-hours"
        exact no_bocc_bad_char hsacs ⟨'-', by decide, by decide, by decide⟩
    rw [foldl_subBnd_id hsub2]
    have hsub3 : ∀ wd ∈ BAD_ROLE_KEYWORDS_SORTED, subBnd wd s = s := by
      intro wd hwd
      apply subBnd_id_of_no_bocc
      fin_cases hwd
      · -- "employment"
        intro hB
        have := bocc_word_token (by decide) (by decide) hB
        exact ((hinv.2.1 _ this).2.2.1) (by decide)
      · -- "position" (a filler word)
        intro hB
        have := bocc_word_token (by decide) (by decide) hB
        exact ((hinv.2.1 _ this).1) (by decide)
      · -- "career"
        intro hB
        have := bocc_word_token (by decide) (by decide) hB
        exact ((hinv.2.1 _ this).2.2.2) (by decide)
      · -- "a job"
        intro hB
        have hdec : ("a job").toList = "a".toList ++ ' ' :: "job".toList := by decide
        rw [hdec] at hB
        have := bocc_two_word_token (by decide) (by decide) hB
        exact ((hinv.2.1 _ this).1) (by decide)
      · -- "jobs"
        intro hB
        have := bocc_word_token (by decide) (by decide) hB
        exact ((hinv.2.1 _ this).1) (by decide)
      · -- "work"
        intro hB
        have := bocc_word_token (by decide) (by decide) hB
        exact ((hinv.2.1 _ this).1) (by decide)
      · -- "role"
        intro hB
        have := bocc_word_token (by decide) (by decide) hB
        exact ((hinv.2.1 _ this).1) (by decide)
      · -- "job"
        intro hB
        have := bocc_word_token (by decide) (by decide) hB
        exact ((hinv.2.1 _ this).1) (by decide)
    rw [foldl_subBnd_id hsub3, hws]
    have hfil : (runsP isAlnumC s).filter (fun t => String.mk t ∉ TIME_WORDS) =
        runsP isAlnumC s := by
      apply List.filter_eq_self.mpr
      intro t ht
      simp [(hinv.2.1 t ht).2.1]
    rw [hfil, ← hinv.1]
    unfold collapseWs
    rw [hws, ← hinv.1]

theorem mk_ne_empty_of_ne_nil {s : List Char} (h : s ≠ []) : String.mk s ≠ "" := by
  intro h0
  exact h (congrArg String.toList h0)

theorem apply_norm_id_of_inv {s : List Char} (hinv : canonInv s) :
    apply_role_normalization (String.mk s) = String.mk s := by
  simp only [apply_role_normalization, mk_toList]
  by_cases hs0 : s = []
  · subst hs0
    rfl
  · rw [if_neg (mk_ne_empty_of_ne_nil hs0),
      lowerL_id_of_sacs (sacs_of_shape hinv.1)]
    have hc1 : containsSubL ("waitress").toList s = false := by
      unfold containsSubL
      exact decide_eq_false hinv.2.2.1
    have hc2 : containsSubL ("waiting staff").toList s = false := by
      unfold containsSubL
      exact decide_eq_false hinv.2.2.2
    have hfold : ROLE_NORMALIZE_MAP.foldl
        (fun (acc : List Char) (kv : String × String) =>
          if containsSubL kv.1.toList acc then replaceAllL kv.1.toList kv.2.toList acc
          else acc) s = s := by
      simp only [ROLE_NORMALIZE_MAP, List.foldl_cons, List.foldl_nil]
      rw [hc1]
      simp only [Bool.false_eq_true, if_false]
      rw [hc2]
      simp only [Bool.false_eq_true, if_false]
    rw [hfold]
    unfold collapseWs
    rw [wsSplit_eq_runs_of_sacs (sacs_of_shape hinv.1), ← hinv.1]


theorem cleanTextL_id_of_inv {s : List Char} (hinv : canonInv s) :
    cleanTextL s = s := by
  unfold cleanTextL
  rw [cleanToks_id_of_inv hinv, ← hinv.1]

/-- Pass 2 of the canonicalization pipeline is the identity on strings
satisfying the canonical invariant. -/
theorem canonicalize_id_of_inv {s : List Char} (hinv : canonInv s) :
    canonicalize_role (String.mk s) = String.mk s := by
  unfold canonicalize_role
  rw [strip_fillers_id_of_inv hinv, strip_time_id_of_inv hinv,
    apply_norm_id_of_inv hinv]
  unfold clean_text
  rw [mk_toList, cleanTextL_id_of_inv hinv]

/-! ### Decomposition of a `\b`-substitution scan

`SubParts ph pw s r` relates the scanner's input `s` to its output `r`:
`s` splits at the matched copies of `ph`, each replaced by one space in
`r`, with the scanner-failure certificate on every gap and the `\b`
boundary facts at every joint. -/

inductive SubParts (ph : List Char) : Bool → List Char → List Char → Prop
  | gap (pw : Bool) (s : List Char) (h : scanFail ph pw s [] = true) :
      SubParts ph pw s s
  | found (pw : Bool) (q s' r : List Char)
      (hq : scanFail ph pw q (ph ++ s') = true)
      (hqb : q = [] → pw = false)
      (hqw : ∀ c, q.getLast? = some c → isWordC c = false)
      (hsb : s' = [] ∨ ∃ c cs, s' = c :: cs ∧ isWordC c = false)
      (hrec : SubParts ph true s' r) :
      SubParts ph pw (q ++ ph ++ s') (q ++ ' ' :: r)

theorem subParts_prepend {ph : List Char} {c : Char} {cs r : List Char} {pw : Bool}
    (hm : (!pw && matchHereB ph (c :: cs)) = false)
    (h : SubParts ph (isWordC c) cs r) :
    SubParts ph pw (c :: cs) (c :: r) := by
  cases h with
  | gap _ _ hsf =>
    apply SubParts.gap
    show (!(!pw && matchHereB ph (c :: (cs ++ []))) && scanFail ph (isWordC c) cs []) = true
    rw [List.append_nil, hm, hsf]
    rfl
  | found _ q s' r' hq hqb hqw hsb hrec =>
    have hmain := @SubParts.found ph pw (c :: q) s' r' ?_ ?_ ?_ hsb hrec
    · exact hmain
    · show (!(!pw && matchHereB ph (c :: (q ++ (ph ++ s')))) &&
        scanFail ph (isWordC c) q (ph ++ s')) = true
      have hm2 : (!pw && matchHereB ph (c :: (q ++ (ph ++ s')))) = false := by
        rw [show (c :: (q ++ (ph ++ s'))) = c :: (q ++ ph ++ s') from by
          rw [List.append_assoc]]
        exact hm
      rw [hm2, hq]
      rfl
    · intro h0
      exact absurd h0 (by simp)
    · intro d hd
      cases q with
      | nil =>
        simp only [List.getLast?_singleton, Option.some.injEq] at hd
        subst hd
        exact hqb rfl
      | cons e q' =>
        rw [List.getLast?_cons_cons] at hd
        exact hqw d hd

theorem subParts_exists (ph : List Char) (hph : ph ≠ []) :
    ∀ (s : List Char) (pw : Bool), SubParts ph pw s (subAux ph true 0 pw s)
  | [], pw => SubParts.gap pw [] rfl
  | c :: cs, pw => by
    by_cases hm : (!pw && matchHereB ph (c :: cs)) = true
    · have hm' := hm
      rw [Bool.and_eq_true] at hm'
      rcases hm' with ⟨hpw, hmm⟩
      have hmm' := hmm
      unfold matchHereB at hmm'
      rw [Bool.and_eq_true] at hmm'
      have hpre : ph.isPrefixOf (c :: cs) = true := hmm'.1
      obtain ⟨s2, hs2⟩ := List.isPrefixOf_iff_prefix.mp hpre
      have hdrop : (c :: cs).drop ph.length = s2 := by
        rw [← hs2, List.drop_append_of_le_length (le_refl _)]
        simp
      have hbnd : s2 = [] ∨ ∃ d ds, s2 = d :: ds ∧ isWordC d = false := by
        have h2 := hmm'.2
        rw [hdrop] at h2
        cases s2 with
        | nil => exact Or.inl rfl
        | cons d ds =>
          refine Or.inr ⟨d, ds, rfl, ?_⟩
          simpa using h2
      have hrec := subParts_exists ph hph ((c :: cs).drop ph.length) true
      rw [hdrop] at hrec
      have hres : subAux ph true 0 pw (c :: cs) =
          ' ' :: subAux ph true 0 true s2 := by
        rw [subAux_match true hph hm, hdrop]
      rw [hres]
      have hmain := @SubParts.found ph pw [] s2 (subAux ph true 0 true s2)
        rfl (fun _ => by simpa using hpw) (by simp) hbnd hrec
      rw [show ([] : List Char) ++ ph ++ s2 = ph ++ s2 from by simp] at hmain
      rw [show (c :: cs) = ph ++ s2 from hs2.symm]
      exact hmain
    · have hmf : (!pw && matchHereB ph (c :: cs)) = false :=
        Bool.eq_false_iff.mpr hm
      rw [subAux_copy true hmf]
      exact subParts_prepend hmf (subParts_exists ph hph cs (isWordC c))
termination_by s _ => s.length
decreasing_by
  · have hl : 1 ≤ ph.length := by
      cases ph
      · exact absurd rfl hph
      · simp
    simp only [List.length_drop, List.length_cons]
    omega
  · exact Nat.lt_succ_self _

/-- The scanner's word-status after consuming `α` (initially `pw`). -/
def pwAt (pw : Bool) (α : List Char) : Bool :=
  match α.getLast? with
  | some c => isWordC c
  | none => pw

theorem scanFail_split (ph : List Char) :
    ∀ (α δ cont : List Char) (pw : Bool),
      scanFail ph pw (α ++ δ) cont = true → scanFail ph (pwAt pw α) δ cont = true
  | [], _, _, _, h => h
  | c :: α', δ, cont, pw, h => by
    have h0 : scanFail ph pw (c :: (α' ++ δ)) cont =
        (!(!pw && matchHereB ph (c :: ((α' ++ δ) ++ cont))) &&
          scanFail ph (isWordC c) (α' ++ δ) cont) := rfl
    rw [List.cons_append, h0, Bool.and_eq_true] at h
    have h3 := scanFail_split ph α' δ cont (isWordC c) h.2
    have hpw : pwAt pw (c :: α') = pwAt (isWordC c) α' := by
      cases α' with
      | nil => rfl
      | cons e α'' =>
        unfold pwAt
        rw [List.getLast?_cons_cons, List.getLast?_eq_getLast (e :: α'') (by simp)]
    rw [hpw]
    exact h3

/-- A `\b`-bounded occurrence of the pattern inside a certified gap is
impossible. -/
theorem scanFail_bocc_contra {ph : List Char} (hph : ph ≠ [])
    {cont : List Char} {pw : Bool} {a j : List Char}
    (hq : scanFail ph pw (a ++ ph ++ j) cont = true)
    (hpw' : pwAt pw a = false)
    (hb : ∀ c, (j ++ cont).head? = some c → isWordC c = false) : False := by
  rw [List.append_assoc] at hq
  have h2 := scanFail_split ph a (ph ++ j) cont pw hq
  rw [hpw'] at h2
  obtain ⟨p0, pr, rfl⟩ := List.exists_cons_of_ne_nil hph
  have h0 : scanFail (p0 :: pr) false ((p0 :: pr) ++ j) cont =
      (!(!false && matchHereB (p0 :: pr) (p0 :: ((pr ++ j) ++ cont))) &&
        scanFail (p0 :: pr) (isWordC p0) (pr ++ j) cont) := rfl
  rw [h0, Bool.and_eq_true] at h2
  have hmt : matchHereB (p0 :: pr) (p0 :: ((pr ++ j) ++ cont)) = true := by
    unfold matchHereB
    rw [Bool.and_eq_true]
    constructor
    · apply List.isPrefixOf_iff_prefix.mpr
      exact ⟨j ++ cont, by simp⟩
    · have hd : (p0 :: ((pr ++ j) ++ cont)).drop (p0 :: pr).length = j ++ cont := by
        rw [show (p0 :: ((pr ++ j) ++ cont)) = (p0 :: pr) ++ (j ++ cont) from by simp,
          List.drop_left]
      rw [hd]
      cases hjc : j ++ cont with
      | nil => rfl
      | cons c rest =>
        have := hb c (by rw [hjc]; rfl)
        simp [this]
  rw [hmt] at h2
  simp at h2

theorem ctxN_append_right {a2 : List Char} (pre : List Char)
    (h : ctxN isAlnumC a2) (hne : a2 ≠ []) : ctxN isAlnumC (pre ++ a2) := by
  rcases h with h0 | ⟨d, hd1, hd2⟩
  · exact absurd h0 hne
  · exact Or.inr ⟨d, by rw [List.getLast?_append_of_ne_nil _ hne]; exact hd1, hd2⟩

theorem gap_end_contra {q a w : List Char} (hw : w ≠ [])
    (hwa : ∀ c ∈ w, isAlnumC c = true)
    (hqw : ∀ c, q.getLast? = some c → isWordC c = false)
    (heq : q = a ++ w) : False := by
  have hlw : w.getLast? = some (w.getLast hw) := List.getLast?_eq_getLast w hw
  have hqlast : q.getLast? = some (w.getLast hw) := by
    rw [heq, List.getLast?_append_of_ne_nil _ hw]
    exact hlw
  have h1 := hqw _ hqlast
  have h2 := isWordC_of_isAlnumC (hwa _ (List.getLast_mem hw))
  rw [h1] at h2
  cases h2

/-- Bounded occurrences in the scanner's output transfer to its input
(position-faithfully: an occurrence at the absolute start stays there). -/
theorem subParts_transfer {ph : List Char} {w : List Char}
    (hwne : w ≠ []) (hwa : ∀ c ∈ w, isAlnumC c = true)
    {pw : Bool} {s r : List Char} (hsp : SubParts ph pw s r) :
    ∀ a b, r = a ++ w ++ b → ctxN isAlnumC a → ctxH isAlnumC b →
      ∃ a2 b2, s = a2 ++ w ++ b2 ∧ ctxN isAlnumC a2 ∧ ctxH isAlnumC b2 ∧
        (a2 = [] → a = []) := by
  induction hsp with
  | gap pw s _ =>
    intro a b heq ha hb
    exact ⟨a, b, heq, ha, hb, fun h => h⟩
  | found pw q s' r' hq hqb hqw hsb hrec ih =>
    intro a b heq ha hb
    have heq2 : q ++ (' ' :: r') = a ++ (w ++ b) := by
      rw [← List.append_assoc]
      exact heq
    rcases append_eq_split heq2 with ⟨k, ⟨hk1, hk2⟩ | ⟨hk1, hk2⟩⟩
    · -- occurrence inside the space-and-rest: a = q ++ k, ' ' :: r' = k ++ (w ++ b)
      cases k with
      | nil =>
        exfalso
        obtain ⟨w0, w', rfl⟩ := List.exists_cons_of_ne_nil hwne
        rw [List.nil_append, List.cons_append] at hk2
        have hw0 : (' ' : Char) = w0 := (List.cons.injEq _ _ _ _).mp hk2 |>.1
        have := hwa w0 (by simp)
        rw [← hw0] at this
        simp [isAlnumC] at this
      | cons k0 k' =>
        rw [List.cons_append] at hk2
        have hk0 : (' ' : Char) = k0 ∧ r' = k' ++ (w ++ b) :=
          ⟨(List.cons.injEq _ _ _ _).mp hk2 |>.1, (List.cons.injEq _ _ _ _).mp hk2 |>.2⟩
        have hctxk : ctxN isAlnumC k' := by
          cases k' with
          | nil => exact Or.inl rfl
          | cons e k'' =>
            rcases ha with h0 | ⟨d, hd1, hd2⟩
            · rw [hk1] at h0
              simp at h0
            · refine Or.inr ⟨d, ?_, hd2⟩
              rw [hk1] at hd1
              rw [← hd1, List.getLast?_append_of_ne_nil _ (by simp : k0 :: e :: k'' ≠ []),
                List.getLast?_cons_cons]
        obtain ⟨a2, b2, hs', hctxa2, hctxb2, himp⟩ := ih k' b
          (by rw [hk0.2, List.append_assoc]) hctxk hb
        have ha2ne : a2 ≠ [] := by
          intro h0
          subst h0
          have hk'0 := himp rfl
          subst hk'0
          obtain ⟨w0, w', rfl⟩ := List.exists_cons_of_ne_nil hwne
          rcases hsb with h1 | ⟨c0, cs0, hcc, hw0⟩
          · rw [h1] at hs'
            simp at hs'
          · rw [hcc, List.nil_append, List.cons_append] at hs'
            have hcw : c0 = w0 := (List.cons.injEq _ _ _ _).mp hs' |>.1
            have := isWordC_of_isAlnumC (hwa w0 (by simp))
            rw [← hcw, hw0] at this
            cases this
        refine ⟨q ++ ph ++ a2, b2, ?_, ?_, hctxb2, ?_⟩
        · rw [hs']
          simp
        · exact ctxN_append_right (q ++ ph) hctxa2 ha2ne
        · intro h0
          rw [List.append_eq_nil] at h0
          exact absurd h0.2 ha2ne
    · -- q = a ++ k, w ++ b = k ++ (' ' :: r')
      rcases append_eq_split hk2 with ⟨j, ⟨hj1, hj2⟩ | ⟨hj1, hj2⟩⟩
      · -- k = w ++ j, b = j ++ ' ' :: r' : occurrence inside the gap
        cases j with
        | nil =>
          exfalso
          rw [List.append_nil] at hj1
          exact gap_end_contra hwne hwa hqw (by rw [hk1, hj1])
        | cons j0 j' =>
          have hbh : ctxH isAlnumC ((j0 :: j') ++ ph ++ s') := by
            rcases hb with h0 | ⟨d, hd1, hd2⟩
            · rw [hj2] at h0
              simp at h0
            · rw [hj2] at hd1
              refine Or.inr ⟨d, ?_, hd2⟩
              simpa using hd1
          refine ⟨a, (j0 :: j') ++ ph ++ s', ?_, ha, hbh, fun h => h⟩
          rw [hk1, hj1]
          simp
      · -- w = k ++ j, ' ' :: r' = j ++ b
        cases j with
        | nil =>
          exfalso
          rw [List.append_nil] at hj1
          exact gap_end_contra hwne hwa hqw (by rw [hk1, hj1])
        | cons j0 j' =>
          exfalso
          rw [List.cons_append] at hj2
          have hj0 : (' ' : Char) = j0 := (List.cons.injEq _ _ _ _).mp hj2 |>.1
          have : isAlnumC j0 = true := hwa j0 (by rw [hj1]; simp)
          rw [← hj0] at this
          simp [isAlnumC] at this

theorem gap_end_contraW {q a w : List Char} (hw : w ≠ [])
    (hwa : ∀ c ∈ w, isWordC c = true)
    (hqw : ∀ c, q.getLast? = some c → isWordC c = false)
    (heq : q = a ++ w) : False := by
  have hlw : w.getLast? = some (w.getLast hw) := List.getLast?_eq_getLast w hw
  have hqlast : q.getLast? = some (w.getLast hw) := by
    rw [heq, List.getLast?_append_of_ne_nil _ hw]
    exact hlw
  have h1 := hqw _ hqlast
  have h2 := hwa _ (List.getLast_mem hw)
  rw [h1] at h2
  cases h2

theorem subParts_head {ph : List Char} {pw : Bool} {s r : List Char}
    (hsp : SubParts ph pw s r) : r.head? = s.head? ∨ r.head? = some ' ' := by
  cases hsp with
  | gap pw s h => exact Or.inl rfl
  | found pw q s' r' hq hqb hqw hsb hrec =>
    cases q with
    | nil => exact Or.inr rfl
    | cons c q' => exact Or.inl (by simp)

theorem subParts_sacs {ph : List Char} {pw : Bool} {s r : List Char}
    (hsp : SubParts ph pw s r) (hs : sacs s) : sacs r := by
  induction hsp with
  | gap pw s h => exact hs
  | found pw q s' r' hq hqb hqw hsb hrec ih =>
    intro c hc
    rcases List.mem_append.mp hc with hcq | hcr
    · exact hs c (by simp [hcq])
    · rcases List.mem_cons.mp hcr with rfl | hc2
      · exact Or.inr rfl
      · exact ih (fun d hd => hs d (by simp [hd])) c hc2

/-- No `\b`-bounded occurrence of the (word-character) pattern survives in
the scanner's output. -/
theorem subParts_removed {ph : List Char} (hph : ph ≠ [])
    (hpha : ∀ c ∈ ph, isWordC c = true)
    {pw : Bool} {s r : List Char} (hsp : SubParts ph pw s r) :
    ∀ a b, r = a ++ ph ++ b → pwAt pw a = false →
      (∀ c, b.head? = some c → isWordC c = false) → False := by
  induction hsp with
  | gap pw s hscan =>
    intro a b heq hpwa hbw
    refine scanFail_bocc_contra hph (heq ▸ hscan) hpwa ?_
    intro c hc
    rw [List.append_nil] at hc
    exact hbw c hc
  | found pw q s' r' hq hqb hqw hsb hrec ih =>
    intro a b heq hpwa hbw
    have heq2 : q ++ (' ' :: r') = a ++ (ph ++ b) := by
      rw [← List.append_assoc]
      exact heq
    rcases append_eq_split heq2 with ⟨k, ⟨hk1, hk2⟩ | ⟨hk1, hk2⟩⟩
    · cases k with
      | nil =>
        obtain ⟨p0, pr, rfl⟩ := List.exists_cons_of_ne_nil hph
        rw [List.nil_append, List.cons_append] at hk2
        have h1 : (' ' : Char) = p0 := (List.cons.injEq _ _ _ _).mp hk2 |>.1
        have h2 := hpha p0 (by simp)
        rw [← h1] at h2
        exact absurd h2 (by decide)
      | cons k0 k' =>
        rw [List.cons_append] at hk2
        have hk0 : (' ' : Char) = k0 := (List.cons.injEq _ _ _ _).mp hk2 |>.1
        have hr' : r' = k' ++ (ph ++ b) := (List.cons.injEq _ _ _ _).mp hk2 |>.2
        cases k' with
        | nil =>
          rw [List.nil_append] at hr'
          obtain ⟨p0, pr, rfl⟩ := List.exists_cons_of_ne_nil hph
          have hhd : r'.head? = some p0 := by rw [hr']; rfl
          rcases subParts_head hrec with hh | hh
          · rw [hhd] at hh
            rcases hsb with h1 | ⟨c0, cs0, hcc, hw0⟩
            · rw [h1] at hh
              cases hh
            · rw [hcc] at hh
              have hc0 : p0 = c0 := by
                have := hh.symm
                simp at this
                exact this.symm
              have h2 := hpha p0 (by simp)
              rw [hc0, hw0] at h2
              cases h2
          · rw [hhd] at hh
            have hsp : p0 = ' ' := by
              have := hh
              simp at this
              exact this
            have h2 := hpha p0 (by simp)
            rw [hsp] at h2
            exact absurd h2 (by decide)
        | cons e k'' =>
          refine ih (e :: k'') b (by rw [hr', List.append_assoc]) ?_ hbw
          have ha : a = q ++ (' ' :: e :: k'') := by
            rw [hk1, ← hk0]
          have hgl : a.getLast? = (e :: k'').getLast? := by
            rw [ha, List.getLast?_append_of_ne_nil _ (by simp), List.getLast?_cons_cons]
          unfold pwAt at hpwa ⊢
          rw [List.getLast?_eq_getLast (e :: k'') (by simp)]
          rw [hgl, List.getLast?_eq_getLast (e :: k'') (by simp)] at hpwa
          exact hpwa
    · rcases append_eq_split hk2 with ⟨j, ⟨hj1, hj2⟩ | ⟨hj1, hj2⟩⟩
      · cases j with
        | nil =>
          rw [List.append_nil] at hj1
          exact gap_end_contraW hph hpha hqw (by rw [hk1, hj1])
        | cons j0 j' =>
          refine scanFail_bocc_contra hph
            (show scanFail ph pw (a ++ ph ++ (j0 :: j')) (ph ++ s') = true from by
              rw [show a ++ ph ++ (j0 :: j') = q from by rw [hk1, hj1]; simp]
              exact hq) hpwa ?_
          intro c hc
          have hc0 : c = j0 := by
            simp at hc
            exact hc.symm
          subst hc0
          exact hbw c (by rw [hj2]; rfl)
      · cases j with
        | nil =>
          rw [List.append_nil] at hj1
          exact gap_end_contraW hph hpha hqw (by rw [hk1, hj1])
        | cons j0 j' =>
          rw [List.cons_append] at hj2
          have hj0 : (' ' : Char) = j0 := (List.cons.injEq _ _ _ _).mp hj2 |>.1
          have h2 := hpha j0 (by rw [hj1]; simp)
          rw [← hj0] at h2
          exact absurd h2 (by decide)

theorem subBnd_subParts {ph : String} (hph : ph.toList ≠ [])
    (hw : isWordC (ph.toList.getLastD ' ') = true) (s : List Char) :
    SubParts ph.toList false s (subBnd ph s) := by
  unfold subBnd
  rw [hw]
  exact subParts_exists ph.toList hph s false

theorem subBnd_sacs {ph : String} (hph : ph.toList ≠ [])
    (hw : isWordC (ph.toList.getLastD ' ') = true)
    {s : List Char} (hs : sacs s) : sacs (subBnd ph s) :=
  subParts_sacs (subBnd_subParts hph hw s) hs

theorem subBnd_bocc_transfer {ph : String} (hph : ph.toList ≠ [])
    (hw : isWordC (ph.toList.getLastD ' ') = true)
    {w : List Char} (hwne : w ≠ []) (hwa : ∀ c ∈ w, isAlnumC c = true)
    {s : List Char} (h : BOcc w (subBnd ph s)) : BOcc w s := by
  rcases h with ⟨a, b, heq, ha, hb⟩
  obtain ⟨a2, b2, h1, h2, h3, -⟩ :=
    subParts_transfer hwne hwa (subBnd_subParts hph hw s) a b heq ha hb
  exact ⟨a2, b2, h1, h2, h3⟩

theorem foldl_subBnd_sacs {phs : List String}
    (hall : ∀ ph ∈ phs, ph.toList ≠ [] ∧ isWordC (ph.toList.getLastD ' ') = true)
    {s : List Char} (hs : sacs s) :
    sacs (phs.foldl (fun acc ph => subBnd ph acc) s) := by
  induction phs generalizing s with
  | nil => exact hs
  | cons ph phs ih =>
    rw [List.foldl_cons]
    exact ih (fun x hx => hall x (by simp [hx]))
      (subBnd_sacs (hall ph (by simp)).1 (hall ph (by simp)).2 hs)

theorem foldl_subBnd_bocc_transfer {phs : List String}
    (hall : ∀ ph ∈ phs, ph.toList ≠ [] ∧ isWordC (ph.toList.getLastD ' ') = true)
    {w : List Char} (hwne : w ≠ []) (hwa : ∀ c ∈ w, isAlnumC c = true)
    {s : List Char}
    (h : BOcc w (phs.foldl (fun acc ph => subBnd ph acc) s)) : BOcc w s := by
  induction phs generalizing s with
  | nil => exact h
  | cons ph phs ih =>
    rw [List.foldl_cons] at h
    exact subBnd_bocc_transfer (hall ph (by simp)).1 (hall ph (by simp)).2 hwne hwa
      (ih (fun x hx => hall x (by simp [hx])) h)

/-- After its own `\b`-substitution pass, a word-character pattern has no
bounded occurrence left (on space/alnum inputs). -/
theorem subBnd_removes {ph : String} (hph : ph.toList ≠ [])
    (hpha : ∀ c ∈ ph.toList, isWordC c = true)
    (hw : isWordC (ph.toList.getLastD ' ') = true)
    {s : List Char} (hs : sacs s) : ¬ BOcc ph.toList (subBnd ph s) := by
  rintro ⟨a, b, heq, ha, hb⟩
  have hsp := subBnd_subParts hph hw s
  have hsr : sacs (subBnd ph s) := subParts_sacs hsp hs
  apply subParts_removed hph hpha hsp a b heq
  · rcases ha with rfl | ⟨d, hd1, hd2⟩
    · rfl
    · unfold pwAt
      rw [hd1]
      show isWordC d = false
      have hdr : d ∈ subBnd ph s := by
        have hda : d ∈ a := List.mem_of_getLast?_eq_some hd1
        rw [heq]
        exact List.mem_append.mpr (Or.inl (List.mem_append.mpr (Or.inl hda)))
      rcases hsr d hdr with h1 | rfl
      · rw [h1] at hd2
        cases hd2
      · decide
  · intro c hc
    rcases hb with rfl | ⟨d, hd1, hd2⟩
    · cases hc
    · rw [hd1] at hc
      injection hc with hc
      subst hc
      have hdr : d ∈ subBnd ph s := by
        have hdb : d ∈ b := by
          cases b with
          | nil => cases hd1
          | cons x bs =>
            injection hd1 with hd1
            rw [← hd1]
            simp
        rw [heq]
        exact List.mem_append.mpr (Or.inr hdb)
      rcases hsr d hdr with h1 | rfl
      · rw [h1] at hd2
        cases hd2
      · decide

/-! ### Decomposition of a `str.replace` pass

`ReplParts ph rep s r` relates the input and output of the left-to-right,
non-overlapping replace-all: `s` splits at the matched copies of `ph`,
each replaced by `rep` in `r`, with a no-match certificate on every gap. -/

def replFail (ph : List Char) : List Char → List Char → Bool
  | [], _ => true
  | c :: q, cont => !(ph.isPrefixOf (c :: (q ++ cont))) && replFail ph q cont

inductive ReplParts (ph rep : List Char) : List Char → List Char → Prop
  | gap (s : List Char) (h : replFail ph s [] = true) : ReplParts ph rep s s
  | found (q s' r : List Char)
      (hq : replFail ph q (ph ++ s') = true)
      (hrec : ReplParts ph rep s' r) :
      ReplParts ph rep (q ++ ph ++ s') (q ++ rep ++ r)

theorem replParts_prepend {ph rep : List Char} {c : Char} {cs r : List Char}
    (hm : ph.isPrefixOf (c :: cs) = false)
    (h : ReplParts ph rep cs r) : ReplParts ph rep (c :: cs) (c :: r) := by
  cases h with
  | gap _ hsf =>
    apply ReplParts.gap
    show (!(ph.isPrefixOf (c :: (cs ++ []))) && replFail ph cs []) = true
    rw [List.append_nil, hm, hsf]
    rfl
  | found q s' r' hq hrec =>
    have hmain := @ReplParts.found ph rep (c :: q) s' r' ?_ hrec
    · exact hmain
    · show (!(ph.isPrefixOf (c :: (q ++ (ph ++ s')))) && replFail ph q (ph ++ s')) = true
      have hm2 : ph.isPrefixOf (c :: (q ++ (ph ++ s'))) = false := by
        rw [show (c :: (q ++ (ph ++ s'))) = c :: (q ++ ph ++ s') from by
          rw [List.append_assoc]]
        exact hm
      rw [hm2, hq]
      rfl

theorem replParts_exists (ph rep : List Char) (hph : ph ≠ []) :
    ∀ (s : List Char), ReplParts ph rep s (replaceAllL ph rep s)
  | [] => ReplParts.gap [] rfl
  | c :: cs => by
    by_cases hm : ph.isPrefixOf (c :: cs) = true
    · obtain ⟨s2, hs2⟩ := List.isPrefixOf_iff_prefix.mp hm
      have hdrop : (c :: cs).drop ph.length = s2 := by
        rw [← hs2, List.drop_append_of_le_length (le_refl _)]
        simp
      have hrec := replParts_exists ph rep hph ((c :: cs).drop ph.length)
      rw [hdrop] at hrec
      have hres : replaceAllL ph rep (c :: cs) = rep ++ replaceAllL ph rep s2 := by
        unfold replaceAllL
        rw [replAux_match rep hph hm, hdrop]
      rw [hres]
      have hmain := @ReplParts.found ph rep [] s2
        (replaceAllL ph rep s2) rfl hrec
      rw [show ([] : List Char) ++ ph ++ s2 = ph ++ s2 from by simp] at hmain
      rw [show (c :: cs) = ph ++ s2 from hs2.symm]
      exact hmain
    · have hmf : ph.isPrefixOf (c :: cs) = false := Bool.eq_false_iff.mpr hm
      have hcopy : replaceAllL ph rep (c :: cs) = c :: replaceAllL ph rep cs := by
        unfold replaceAllL
        simp only [replAux, hmf]
        rfl
      rw [hcopy]
      exact replParts_prepend hmf (replParts_exists ph rep hph cs)
termination_by s => s.length
decreasing_by
  · have hl : 1 ≤ ph.length := by
      cases ph
      · exact absurd rfl hph
      · simp
    simp only [List.length_drop, List.length_cons]
    omega
  · exact Nat.lt_succ_self _

theorem replFail_split (ph : List Char) :
    ∀ (α δ cont : List Char), replFail ph (α ++ δ) cont = true →
      replFail ph δ cont = true
  | [], _, _, h => h
  | c :: α', δ, cont, h => by
    have h0 : replFail ph (c :: (α' ++ δ)) cont =
        (!(ph.isPrefixOf (c :: ((α' ++ δ) ++ cont))) && replFail ph (α' ++ δ) cont) := rfl
    rw [List.cons_append, h0, Bool.and_eq_true] at h
    exact replFail_split ph α' δ cont h.2

theorem replFail_no_infix {ph : List Char} (hph : ph ≠ []) {q cont : List Char}
    (h : replFail ph q cont = true) : ¬ (ph <:+: q) := by
  rintro ⟨a, b, hab⟩
  rw [← hab, List.append_assoc] at h
  have h2 := replFail_split ph a (ph ++ b) cont h
  obtain ⟨p0, pr, rfl⟩ := List.exists_cons_of_ne_nil hph
  have h0 : replFail (p0 :: pr) ((p0 :: pr) ++ b) cont =
      (!((p0 :: pr).isPrefixOf (p0 :: ((pr ++ b) ++ cont))) &&
        replFail (p0 :: pr) (pr ++ b) cont) := rfl
  rw [h0, Bool.and_eq_true] at h2
  have hpre : (p0 :: pr).isPrefixOf (p0 :: ((pr ++ b) ++ cont)) = true := by
    apply List.isPrefixOf_iff_prefix.mpr
    exact ⟨b ++ cont, by simp⟩
  rw [hpre] at h2
  simp at h2

theorem replParts_sacs {ph rep : List Char}
    (hrepa : ∀ c ∈ rep, isAlnumC c = true ∨ c = ' ')
    {s r : List Char} (h : ReplParts ph rep s r) (hs : sacs s) : sacs r := by
  induction h with
  | gap s hg => exact hs
  | found q s' r' hq hrec ih =>
    intro c hc
    rcases List.mem_append.mp hc with hc1 | hc2
    · rcases List.mem_append.mp hc1 with hcq | hcrep
      · exact hs c (by simp [hcq])
      · exact hrepa c hcrep
    · exact ih (fun d hd => hs d (by simp [hd])) c hc2

theorem replParts_head {ph rep : List Char} (hrep : rep ≠ [])
    {s r : List Char} (h : ReplParts ph rep s r) :
    r.head? = s.head? ∨ r.head? = rep.head? := by
  cases h with
  | gap s hg => exact Or.inl rfl
  | found q s' r' hq hrec =>
    cases q with
    | nil =>
      obtain ⟨c, rep', rfl⟩ := List.exists_cons_of_ne_nil hrep
      exact Or.inr (by simp)
    | cons c q' => exact Or.inl (by simp)

theorem replParts_last {ph rep : List Char} (hph : ph ≠ []) (hrep : rep ≠ [])
    {s r : List Char} (h : ReplParts ph rep s r) :
    (s = [] → r = []) ∧
      (s ≠ [] → r ≠ [] ∧ (r.getLast? = s.getLast? ∨ r.getLast? = rep.getLast?)) := by
  induction h with
  | gap s hg => exact ⟨fun h0 => h0, fun hs => ⟨hs, Or.inl rfl⟩⟩
  | found q s' r' hq hrec ih =>
    constructor
    · intro h0
      rw [List.append_eq_nil, List.append_eq_nil] at h0
      exact absurd h0.1.2 hph
    · intro hs
      refine ⟨by simp [hrep], ?_⟩
      by_cases hs' : s' = []
      · right
        rw [ih.1 hs', List.append_nil, List.getLast?_append_of_ne_nil _ hrep]
      · obtain ⟨hr'ne, hlast⟩ := ih.2 hs'
        rcases hlast with h1 | h1
        · left
          rw [List.getLast?_append_of_ne_nil _ hr'ne,
            List.getLast?_append_of_ne_nil _ hs']
          exact h1
        · right
          rw [List.getLast?_append_of_ne_nil _ hr'ne]
          exact h1

theorem ctxN_append_alnum_contra {rep : List Char} (hrepne : rep ≠ [])
    (hrepa : ∀ c ∈ rep, isAlnumC c = true) {a pre : List Char}
    (heq : a = pre ++ rep) (ha : ctxN isAlnumC a) : False := by
  rcases ha with rfl | ⟨d, hd1, hd2⟩
  · exact hrepne (List.append_eq_nil.mp heq.symm).2
  · rw [heq, List.getLast?_append_of_ne_nil _ hrepne] at hd1
    have hmem := List.mem_of_getLast?_eq_some hd1
    rw [hrepa d hmem] at hd2
    cases hd2

theorem ctxH_append_alnum_contra {rep : List Char} (hrepne : rep ≠ [])
    (hrepa : ∀ c ∈ rep, isAlnumC c = true) {b post : List Char}
    (heq : b = rep ++ post) (hb : ctxH isAlnumC b) : False := by
  obtain ⟨c, rep', rfl⟩ := List.exists_cons_of_ne_nil hrepne
  rcases hb with rfl | ⟨d, hd1, hd2⟩
  · simp at heq
  · rw [heq] at hd1
    have hdc : d = c := by
      have : some c = some d := by
        rw [← hd1]
        rfl
      injection this with h
      exact h.symm
    subst hdc
    rw [hrepa d (by simp)] at hd2
    cases hd2

/-- The replace-all result is free of a probe string `m` when the input's
gaps are (certificates or hypothesis), `rep` does not contain `m`, and the
finite border checks between `m` and `rep` all fail. -/
theorem replParts_no_infix {ph rep m : List Char} (hph : ph ≠ []) (hmne : m ≠ [])
    {s r : List Char} (h : ReplParts ph rep s r)
    (hqc : m = ph ∨ ¬ (m <:+: s))
    (K0 : ¬ (m <:+: rep))
    (KL : ∀ i, i < m.length → 1 ≤ i → ¬ (m.take i <:+ rep))
    (KR : ∀ i, i < m.length → 1 ≤ i → ¬ (m.drop i <+: rep) ∧ ¬ (rep <+: m.drop i)) :
    ¬ (m <:+: r) := by
  induction h with
  | gap s hg =>
    rcases hqc with rfl | hns
    · exact replFail_no_infix hph hg
    · exact hns
  | found q s' r' hq hrec ih =>
    intro hocc
    rw [List.append_assoc] at hocc
    rcases infix_append_cases hocc with h1 | h2 | ⟨x, y, hxy, hxne, hyne, hxs, hyp⟩
    · rcases hqc with rfl | hns
      · exact replFail_no_infix hph hq h1
      · exact hns (h1.trans ⟨[], ph ++ s', by simp⟩)
    · rcases infix_append_cases h2 with h3 | h4 | ⟨x, y, hxy, hxne, hyne, hxs, hyp⟩
      · exact K0 h3
      · refine ih ?_ h4
        rcases hqc with rfl | hns
        · exact Or.inl rfl
        · exact Or.inr (fun hc => hns (hc.trans ⟨q ++ ph, [], by simp⟩))
      · have hxlen : x.length < m.length := by
          rw [hxy, List.length_append]
          cases y with
          | nil => exact absurd rfl hyne
          | cons e y' => simp
        have hx1 : 1 ≤ x.length := by
          cases x with
          | nil => exact absurd rfl hxne
          | cons e x' => simp
        have hxt : m.take x.length = x := by
          rw [hxy, List.take_left]
        exact KL x.length hxlen hx1 (by rw [hxt]; exact hxs)
    · have hxlen : x.length < m.length := by
        rw [hxy, List.length_append]
        cases y with
        | nil => exact absurd rfl hyne
        | cons e y' => simp
      have hx1 : 1 ≤ x.length := by
        cases x with
        | nil => exact absurd rfl hxne
        | cons e x' => simp
      have hyd : m.drop x.length = y := by
        rw [hxy, List.drop_left]
      rcases prefix_append_cases hyp with hy1 | ⟨y', hy2, -⟩
      · exact (KR x.length hxlen hx1).1 (by rw [hyd]; exact hy1)
      · exact (KR x.length hxlen hx1).2 (by rw [hyd, hy2]; exact ⟨y', rfl⟩)

theorem ctxN_last_alnum_contra {a pre : List Char} {kh : Char} {kt : List Char}
    (heq : a = pre ++ (kh :: kt))
    (halnum : ∀ c ∈ kh :: kt, isAlnumC c = true)
    (ha : ctxN isAlnumC a) : False := by
  rcases ha with rfl | ⟨d, hd1, hd2⟩
  · simp at heq
  · rw [heq, List.getLast?_append_of_ne_nil _ (by simp : kh :: kt ≠ ([] : List Char))]
      at hd1
    have := halnum d (List.mem_of_getLast?_eq_some hd1)
    rw [this] at hd2
    cases hd2

theorem ctxH_head_alnum_contra {b post : List Char} {kh : Char} {kt : List Char}
    (heq : b = (kh :: kt) ++ post) (halnum : isAlnumC kh = true)
    (hb : ctxH isAlnumC b) : False := by
  rcases hb with rfl | ⟨d, hd1, hd2⟩
  · simp at heq
  · rw [heq] at hd1
    have hde : d = kh := by
      have h2 : ((kh :: kt) ++ post).head? = some kh := rfl
      rw [h2] at hd1
      injection hd1 with h
      exact h.symm
    rw [hde, halnum] at hd2
    cases hd2

/-- Bounded occurrences in a replace-all output transfer to its input,
unless the occurrence swallows a full (all-alnum) replacement block. -/
theorem replParts_transfer {ph rep : List Char} (hrepne : rep ≠ [])
    (hrepa : ∀ c ∈ rep, isAlnumC c = true)
    {w : List Char} (hwne : w ≠ [])
    {s r : List Char} (h : ReplParts ph rep s r) :
    ∀ a b, r = a ++ w ++ b → ctxN isAlnumC a → ctxH isAlnumC b →
      (∃ a2 b2, s = a2 ++ w ++ b2 ∧ ctxN isAlnumC a2 ∧ ctxH isAlnumC b2 ∧
        (a2 = [] → a = [])) ∨ rep <:+: w := by
  induction h with
  | gap s hg =>
    intro a b heq ha hb
    exact Or.inl ⟨a, b, heq, ha, hb, fun h0 => h0⟩
  | found q s' r' hq hrec ih =>
    intro a b heq ha hb
    have heq2 : q ++ (rep ++ r') = a ++ (w ++ b) :=
      (List.append_assoc q rep r').symm.trans (heq.trans (List.append_assoc a w b))
    rcases append_eq_split heq2 with ⟨k, ⟨hk1, hk2⟩ | ⟨hk1, hk2⟩⟩
    · rcases append_eq_split hk2 with ⟨j, ⟨hj1, hj2⟩ | ⟨hj1, hj2⟩⟩
      · cases j with
        | nil =>
          have hqr : a = q ++ rep := by
            rw [hk1, hj1]
            simp
          exact absurd ha (fun hcn => ctxN_append_alnum_contra hrepne hrepa hqr hcn)
        | cons e j2 =>
          have hctxj : ctxN isAlnumC (e :: j2) := by
            rcases ha with h0 | ⟨d, hd1, hd2⟩
            · rw [hk1, hj1] at h0
              simp at h0
            · refine Or.inr ⟨d, ?_, hd2⟩
              rw [hk1, hj1] at hd1
              rw [← hd1,
                List.getLast?_append_of_ne_nil _ (show rep ++ e :: j2 ≠ [] from by simp),
                List.getLast?_append_of_ne_nil _ (show (e :: j2 : List Char) ≠ [] from by
                  simp)]
          have hr'eq : r' = (e :: j2) ++ w ++ b := by
            rw [hj2, ← List.append_assoc]
          rcases ih (e :: j2) b hr'eq hctxj hb with
            ⟨a2, b2, hs', hca2, hcb2, himp⟩ | harm2
          · have ha2ne : a2 ≠ [] := fun h0 => by cases himp h0
            refine Or.inl ⟨q ++ ph ++ a2, b2, ?_,
              ctxN_append_right (q ++ ph) hca2 ha2ne, hcb2, ?_⟩
            · rw [hs']
              simp
            · intro h0
              rw [List.append_eq_nil] at h0
              exact absurd h0.2 ha2ne
          · exact Or.inr harm2
      · cases j with
        | nil =>
          have hkr : k = rep := by
            rw [hj1, List.append_nil]
          have hqr : a = q ++ rep := by
            rw [hk1, hkr]
          exact absurd ha (fun hcn => ctxN_append_alnum_contra hrepne hrepa hqr hcn)
        | cons e j2 =>
          rcases append_eq_split hj2 with ⟨i, ⟨hi1, hi2⟩ | ⟨hi1, hi2⟩⟩
          · cases hkc : k with
            | cons kh kt =>
              have hget : a = q ++ (kh :: kt) := by
                rw [hk1, hkc]
              have hsub : ∀ c ∈ (kh :: kt : List Char), isAlnumC c = true := by
                intro c hc
                refine hrepa c ?_
                rw [hj1, hkc]
                exact List.mem_append.mpr (Or.inl hc)
              exact absurd ha (fun hcn => ctxN_last_alnum_contra hget hsub hcn)
            | nil =>
              cases hic : i with
              | cons g it =>
                have hbh : b = (g :: it) ++ r' := by
                  rw [hi2, hic]
                have hga : isAlnumC g = true := by
                  refine hrepa g ?_
                  rw [hj1, hkc, List.nil_append, hi1, hic]
                  exact List.mem_append.mpr (Or.inr (by simp))
                exact absurd hb (fun hcb => ctxH_head_alnum_contra hbh hga hcb)
              | nil =>
                right
                have hrw : rep = w := by
                  rw [hj1, hkc, List.nil_append, hi1, hic, List.append_nil]
                rw [hrw]
          · cases hkc : k with
            | cons kh kt =>
              have hget : a = q ++ (kh :: kt) := by
                rw [hk1, hkc]
              have hsub : ∀ c ∈ (kh :: kt : List Char), isAlnumC c = true := by
                intro c hc
                refine hrepa c ?_
                rw [hj1, hkc]
                exact List.mem_append.mpr (Or.inl hc)
              exact absurd ha (fun hcn => ctxN_last_alnum_contra hget hsub hcn)
            | nil =>
              right
              refine ⟨[], i, ?_⟩
              rw [List.nil_append, hj1, hkc, List.nil_append]
              exact hi1.symm
    · rcases append_eq_split hk2 with ⟨j, ⟨hj1, hj2⟩ | ⟨hj1, hj2⟩⟩
      · cases j with
        | nil =>
          have hbr : b = rep ++ r' := by
            rw [hj2]
            simp
          exact absurd hb (fun hcb => ctxH_append_alnum_contra hrepne hrepa hbr hcb)
        | cons e j2 =>
          refine Or.inl ⟨a, (e :: j2) ++ ph ++ s', ?_, ha, ?_, fun h0 => h0⟩
          · rw [hk1, hj1]
            simp
          · rcases hb with h0 | ⟨d, hd1, hd2⟩
            · rw [hj2] at h0
              simp at h0
            · rw [hj2] at hd1
              have hde : d = e := by
                have h2 : ((e :: j2) ++ (rep ++ r')).head? = some e := rfl
                rw [h2] at hd1
                injection hd1 with h3
                exact h3.symm
              subst hde
              exact Or.inr ⟨d, by simp, hd2⟩
      · cases j with
        | nil =>
          have hbr : b = rep ++ r' := by
            rw [List.nil_append] at hj2
            exact hj2.symm
          exact absurd hb (fun hcb => ctxH_append_alnum_contra hrepne hrepa hbr hcb)
        | cons e j2 =>
          rcases append_eq_split hj2 with ⟨i, ⟨hi1, hi2⟩ | ⟨hi1, hi2⟩⟩
          · right
            exact ⟨k, i, by rw [hj1, hi1, List.append_assoc]⟩
          · cases hic : i with
            | nil =>
              right
              refine ⟨k, [], ?_⟩
              rw [List.append_nil, hi1, hic, List.append_nil]
              exact hj1.symm
            | cons g it =>
              have hbh : b = (g :: it) ++ r' := by
                rw [hi2, hic]
              have hga : isAlnumC g = true := by
                refine hrepa g ?_
                rw [hi1, hic]
                exact List.mem_append.mpr (Or.inr (by simp))
              exact absurd hb (fun hcb => ctxH_head_alnum_contra hbh hga hcb)

/-! ### Canonical shape of space-joined token lists -/

theorem join_sacs {ts : List (List Char)} (hwf : wfT isAlnumC ts) :
    sacs (joinToks ts) := by
  intro c hc
  rcases mem_joinToks hc with h | ⟨t, ht1, ht2⟩
  · exact Or.inr h
  · exact Or.inl ((hwf t ht1).2 c ht2)

theorem join_ne_nil {t : List Char} {ts : List (List Char)} (htne : t ≠ []) :
    joinToks (t :: ts) ≠ [] := by
  cases ts with
  | nil =>
    rw [jt_single]
    exact htne
  | cons u ts' =>
    rw [jt_cons2]
    intro h
    rcases List.append_eq_nil.mp h with ⟨-, h2⟩
    cases h2

theorem join_head {ts : List (List Char)} (hwf : wfT isAlnumC ts) :
    (joinToks ts).head? ≠ some ' ' := by
  cases ts with
  | nil => intro h; cases h
  | cons t ts' =>
    obtain ⟨c, t', rfl⟩ := List.exists_cons_of_ne_nil (hwf t (by simp)).1
    have hc : isAlnumC c = true := (hwf (c :: t') (by simp)).2 c (by simp)
    have hh : (joinToks ((c :: t') :: ts')).head? = some c := by
      cases ts' with
      | nil => rw [jt_single]; rfl
      | cons u ts'' => rw [jt_cons2]; rfl
    rw [hh]
    intro h
    injection h with h
    rw [h] at hc
    exact absurd hc (by decide)

theorem join_last {ts : List (List Char)} (hwf : wfT isAlnumC ts) :
    (joinToks ts).getLast? ≠ some ' ' := by
  induction ts with
  | nil => intro h; cases h
  | cons t ts' ih =>
    have hwf' : wfT isAlnumC ts' := fun x hx => hwf x (by simp [hx])
    cases ts' with
    | nil =>
      rw [jt_single]
      have htne := (hwf t (by simp)).1
      rw [List.getLast?_eq_getLast t htne]
      intro h
      injection h with h
      have := (hwf t (by simp)).2 _ (List.getLast_mem htne)
      rw [h] at this
      exact absurd this (by decide)
    | cons u ts'' =>
      rw [jt_cons2,
        List.getLast?_append_of_ne_nil _
          (show (' ' :: joinToks (u :: ts'')) ≠ [] from by simp),
        show (' ' :: joinToks (u :: ts'')) = [' '] ++ joinToks (u :: ts'') from rfl,
        List.getLast?_append_of_ne_nil _ (join_ne_nil (hwf' u (by simp)).1)]
      exact ih hwf'

theorem no_dbl_space_join {ts : List (List Char)} (hwf : wfT isAlnumC ts) :
    ¬ ([' ', ' '] <:+: joinToks ts) := by
  induction ts with
  | nil =>
    rw [jt_nil]
    rintro ⟨a, b, hab⟩
    simp at hab
  | cons t ts' ih =>
    have hwf' : wfT isAlnumC ts' := fun x hx => hwf x (by simp [hx])
    cases ts' with
    | nil =>
      rw [jt_single]
      intro h
      have hsp : (' ' : Char) ∈ t := h.subset (by simp)
      exact absurd ((hwf t (by simp)).2 ' ' hsp) (by decide)
    | cons u ts'' =>
      rw [jt_cons2]
      intro h
      rcases infix_append_cases h with h1 | h2 | ⟨x, y, hxy, hxne, hyne, hxs, hyp⟩
      · have hsp : (' ' : Char) ∈ t := h1.subset (by simp)
        exact absurd ((hwf t (by simp)).2 ' ' hsp) (by decide)
      · rcases List.infix_cons_iff.mp h2 with hpre | hinf
        · rcases hpre with ⟨tail, htl⟩
          have hJ : joinToks (u :: ts'') = ' ' :: tail := by
            have h3 : ' ' :: ' ' :: tail = ' ' :: joinToks (u :: ts'') := htl
            injection h3 with h5 h4
            exact h4.symm
          exact join_head hwf' (by rw [hJ]; rfl)
        · exact ih hwf' hinf
      · obtain ⟨c, x', rfl⟩ := List.exists_cons_of_ne_nil hxne
        have hcs : c = ' ' := by
          have : c ∈ [' ', ' '] := by
            rw [hxy]
            exact List.mem_append.mpr (Or.inl (by simp))
          simpa using this
        subst hcs
        have hsp : (' ' : Char) ∈ t := hxs.subset (by simp)
        exact absurd ((hwf t (by simp)).2 ' ' hsp) (by decide)

/-- A space/alnum string with no double space and no edge space is exactly
the single-space join of its alnum runs. -/
theorem shape_reconstruct :
    ∀ (s : List Char), sacs s → ¬ ([' ', ' '] <:+: s) →
      s.head? ≠ some ' ' → s.getLast? ≠ some ' ' →
      s = joinToks (runsP isAlnumC s)
  | [], _, _, _, _ => rfl
  | c :: s2, hsacs, hdbl, hhead, hlast => by
    have hc : isAlnumC c = true := by
      rcases hsacs c (by simp) with h | rfl
      · exact h
      · exact absurd rfl hhead
    rw [runsP_cons, if_pos hc]
    cases hd : s2.dropWhile isAlnumC with
    | nil =>
      have ht : s2.takeWhile isAlnumC = s2 := by
        have h0 : s2.takeWhile isAlnumC ++ s2.dropWhile isAlnumC = s2 :=
          List.takeWhile_append_dropWhile isAlnumC s2
        rw [hd, List.append_nil] at h0
        exact h0
      rw [ht, runsP_nil, jt_single]
    | cons d0 d2 =>
      have hd0 : isAlnumC d0 = false := head_dropWhileP isAlnumC s2 d0 d2 hd
      have hd0m : d0 ∈ s2 := by
        have hmem : d0 ∈ s2.dropWhile isAlnumC := by
          rw [hd]
          simp
        exact List.Sublist.subset (List.dropWhile_sublist isAlnumC) hmem
      have hd0sp : d0 = ' ' := by
        rcases hsacs d0 (by simp [hd0m]) with h | h
        · rw [h] at hd0
          cases hd0
        · exact h
      subst hd0sp
      have hsplit : s2 = s2.takeWhile isAlnumC ++ ' ' :: d2 := by
        have h0 : s2.takeWhile isAlnumC ++ s2.dropWhile isAlnumC = s2 :=
          List.takeWhile_append_dropWhile isAlnumC s2
        rw [hd] at h0
        exact h0.symm
      cases hd2 : d2 with
      | nil =>
        exfalso
        apply hlast
        have hs2e : s2 = s2.takeWhile isAlnumC ++ [' '] := by
          rw [hd2] at hsplit
          exact hsplit
        rw [show (c :: s2) = (c :: s2.takeWhile isAlnumC) ++ [' '] from by
            rw [List.cons_append]
            conv_lhs => rw [hs2e],
          List.getLast?_append_of_ne_nil _ (show ([' '] : List Char) ≠ [] from by simp)]
        rfl
      | cons e d3 =>
        have he : isAlnumC e = true := by
          rcases hsacs e (by rw [hsplit, hd2]; simp) with h | rfl
          · exact h
          · exfalso
            apply hdbl
            refine ⟨c :: s2.takeWhile isAlnumC, d3, ?_⟩
            conv_rhs => rw [hsplit, hd2]
            simp
        have hsuf : (c :: s2) = (c :: s2.takeWhile isAlnumC ++ [' ']) ++ (e :: d3) := by
          conv_lhs => rw [hsplit, hd2]
          simp
        have hsacs' : sacs (e :: d3) := by
          intro x hx
          exact hsacs x (by rw [hsuf]; simp [hx])
        have hdbl' : ¬ ([' ', ' '] <:+: (e :: d3)) := by
          intro h0
          exact hdbl (h0.trans ⟨c :: s2.takeWhile isAlnumC ++ [' '], [], by
            rw [List.append_nil]
            exact hsuf.symm⟩)
        have hhead' : (e :: d3).head? ≠ some ' ' := by
          intro h0
          injection h0 with h0
          rw [h0] at he
          exact absurd he (by decide)
        have hlast' : (e :: d3).getLast? ≠ some ' ' := by
          intro h0
          apply hlast
          rw [hsuf, List.getLast?_append_of_ne_nil _ (show (e :: d3) ≠ [] from by simp)]
          exact h0
        have hrec := shape_reconstruct (e :: d3) hsacs' hdbl' hhead' hlast'
        have hruns : runsP isAlnumC (' ' :: (e :: d3)) = runsP isAlnumC (e :: d3) := by
          rw [runsP_cons, if_neg (by decide)]
        obtain ⟨x0, xs, hX⟩ : ∃ x0 xs, runsP isAlnumC (e :: d3) = x0 :: xs := by
          rw [runsP_cons, if_pos he]
          exact ⟨_, _, rfl⟩
        rw [hruns, hX, jt_cons2, ← hX, ← hrec]
        conv_lhs => rw [hsplit, hd2]
        simp
termination_by s => s.length
decreasing_by
  have hlen := congrArg List.length hsplit
  rw [hd2] at hlen
  simp at hlen ⊢
  omega

theorem runs_cleanTextL (s : List Char) :
    runsP isAlnumC (cleanTextL s) = cleanToks s := by
  unfold cleanTextL
  exact runs_join isAlnumC (by decide) _
    (fun t ht => runsP_sound isAlnumC (lowerL s) t ht)

theorem cleanTextL_id_of_shape {s : List Char}
    (h : s = joinToks (runsP isAlnumC s)) : cleanTextL s = s := by
  unfold cleanTextL cleanToks
  rw [lowerL_id_of_sacs (sacs_of_shape h), ← h]

theorem strip_fillers_shape (text : String) :
    (strip_fillers text).toList = joinToks (runsP isAlnumC (strip_fillers text).toList) ∧
      ∀ t ∈ runsP isAlnumC (strip_fillers text).toList, String.mk t ∉ FILLER_WORDS := by
  have hwf : wfT isAlnumC
      ((cleanToks text.toList).filter (fun t => String.mk t ∉ FILLER_WORDS)) := by
    intro t ht
    exact runsP_sound isAlnumC (lowerL text.toList) t (List.mem_of_mem_filter ht)
  have hlist : (strip_fillers text).toList =
      joinToks ((cleanToks text.toList).filter (fun t => String.mk t ∉ FILLER_WORDS)) := rfl
  have hruns : runsP isAlnumC ((strip_fillers text).toList) =
      (cleanToks text.toList).filter (fun t => String.mk t ∉ FILLER_WORDS) := by
    rw [hlist]
    exact runs_join isAlnumC (by decide) _ hwf
  constructor
  · rw [hruns]
    exact hlist
  · intro t ht
    rw [hruns] at ht
    simpa using List.of_mem_filter ht

theorem strip_time_facts (u : String)
    (hshape : u.toList = joinToks (runsP isAlnumC u.toList)) :
    (strip_time_modifiers u).toList =
        joinToks (runsP isAlnumC (strip_time_modifiers u).toList) ∧
      ∀ t ∈ runsP isAlnumC (strip_time_modifiers u).toList,
        t ∈ runsP isAlnumC u.toList ∧ String.mk t ∉ TIME_WORDS ∧
          String.mk t ≠ "employment" ∧ String.mk t ≠ "career" := by
  by_cases hg : wsSplit u.toList = []
  · have hres : strip_time_modifiers u = "" := by
      unfold strip_time_modifiers
      rw [if_pos hg]
    rw [hres]
    refine ⟨rfl, ?_⟩
    intro t ht
    rw [show ("" : String).toList = [] from rfl, runsP_nil] at ht
    cases ht
  · have hsacs_u : sacs u.toList := sacs_of_shape hshape
    have hs1 : cleanTextL u.toList = u.toList := cleanTextL_id_of_shape hshape
    have hallT : ∀ ph ∈ TIME_PHRASES,
        ph.toList ≠ [] ∧ isWordC (ph.toList.getLastD ' ') = true := by decide
    have hallB : ∀ ph ∈ BAD_ROLE_KEYWORDS_SORTED,
        ph.toList ≠ [] ∧ isWordC (ph.toList.getLastD ' ') = true := by decide
    have hmain : (strip_time_modifiers u).toList =
        collapseWs (joinToks
          ((wsSplit (BAD_ROLE_KEYWORDS_SORTED.foldl (fun acc wd => subBnd wd acc)
              (TIME_PHRASES.foldl (fun acc ph => subBnd ph acc) u.toList))).filter
            (fun t => String.mk t ∉ TIME_WORDS))) := by
      simp only [strip_time_modifiers]
      rw [if_neg hg, hs1]
      exact mk_toList _
    obtain ⟨F2, hF2⟩ : ∃ F2,
        TIME_PHRASES.foldl (fun acc ph => subBnd ph acc) u.toList = F2 := ⟨_, rfl⟩
    obtain ⟨F3, hF3⟩ : ∃ F3,
        BAD_ROLE_KEYWORDS_SORTED.foldl (fun acc wd => subBnd wd acc) F2 = F3 := ⟨_, rfl⟩
    rw [hF2, hF3] at hmain
    have hsacs2 : sacs F2 := by
      rw [← hF2]
      exact foldl_subBnd_sacs hallT hsacs_u
    have hsacs3 : sacs F3 := by
      rw [← hF3]
      exact foldl_subBnd_sacs hallB hsacs2
    have htoks3 : ∀ t ∈ runsP isAlnumC F3, t ∈ runsP isAlnumC u.toList := by
      intro t ht
      have hs := runsP_sound isAlnumC F3 t ht
      have hb3 : BOcc t F3 := ctx_of_run isAlnumC F3 t ht
      rw [← hF3] at hb3
      have hb2 : BOcc t F2 := foldl_subBnd_bocc_transfer hallB hs.1 hs.2 hb3
      rw [← hF2] at hb2
      have hb1 : BOcc t u.toList := foldl_subBnd_bocc_transfer hallT hs.1 hs.2 hb2
      exact bocc_word_token hs.1 hs.2 hb1
    have hemp : "employment".toList ∉ runsP isAlnumC F3 := by
      intro ht
      have hs := runsP_sound isAlnumC F3 _ ht
      have hb3 : BOcc "employment".toList F3 := ctx_of_run isAlnumC F3 _ ht
      have hsplit3 : F3 = ["position", "career", "a job", "jobs", "work", "role",
          "job"].foldl (fun acc wd => subBnd wd acc) (subBnd "employment" F2) := by
        rw [← hF3]
        rfl
      rw [hsplit3] at hb3
      have hb2 : BOcc "employment".toList (subBnd "employment" F2) :=
        foldl_subBnd_bocc_transfer (by decide) hs.1 hs.2 hb3
      exact subBnd_removes (by decide) (by decide) (by decide) hsacs2 hb2
    have hcar : "career".toList ∉ runsP isAlnumC F3 := by
      intro ht
      have hs := runsP_sound isAlnumC F3 _ ht
      have hb3 : BOcc "career".toList F3 := ctx_of_run isAlnumC F3 _ ht
      have hsplit3 : F3 = ["a job", "jobs", "work", "role", "job"].foldl
          (fun acc wd => subBnd wd acc)
          (subBnd "career" (subBnd "position" (subBnd "employment" F2))) := by
        rw [← hF3]
        rfl
      rw [hsplit3] at hb3
      have hb2 : BOcc "career".toList
          (subBnd "career" (subBnd "position" (subBnd "employment" F2))) :=
        foldl_subBnd_bocc_transfer (by decide) hs.1 hs.2 hb3
      have hsacs_in : sacs (subBnd "position" (subBnd "employment" F2)) :=
        subBnd_sacs (by decide) (by decide)
          (subBnd_sacs (by decide) (by decide) hsacs2)
      exact subBnd_removes (by decide) (by decide) (by decide) hsacs_in hb2
    have hwstoks : wsSplit F3 = runsP isAlnumC F3 := wsSplit_eq_runs_of_sacs hsacs3
    obtain ⟨T, hT⟩ : ∃ T,
        (runsP isAlnumC F3).filter (fun t => String.mk t ∉ TIME_WORDS) = T := ⟨_, rfl⟩
    have hwfT : wfT isAlnumC T := by
      intro t ht
      rw [← hT] at ht
      exact runsP_sound isAlnumC F3 t (List.mem_of_mem_filter ht)
    have hjoin : wsSplit (joinToks T) = runsP isAlnumC (joinToks T) :=
      wsSplit_eq_runs_of_sacs (join_sacs hwfT)
    have hruns : runsP isAlnumC (joinToks T) = T := runs_join isAlnumC (by decide) T hwfT
    have hcoll : collapseWs (joinToks T) = joinToks T := by
      unfold collapseWs
      rw [hjoin, hruns]
    have hresL : (strip_time_modifiers u).toList = joinToks T := by
      rw [hmain, hwstoks, hT, hcoll]
    constructor
    · rw [hresL, hruns]
    · intro t ht
      rw [hresL, hruns, ← hT] at ht
      have ht3 : t ∈ runsP isAlnumC F3 := List.mem_of_mem_filter ht
      have htime : String.mk t ∉ TIME_WORDS := by simpa using List.of_mem_filter ht
      refine ⟨htoks3 t ht3, htime, ?_, ?_⟩
      · intro h0
        apply hemp
        have h1 : t = "employment".toList := congrArg String.toList h0
        rw [← h1]
        exact ht3
      · intro h0
        apply hcar
        have h1 : t = "career".toList := congrArg String.toList h0
        rw [← h1]
        exact ht3

/-- All invariants carried across one `str.replace(ph, rep)` pass with an
all-alnum nonempty replacement. -/
theorem replaceAll_step_facts (ph rep : List Char) (hph : ph ≠ [])
    (hrepne : rep ≠ []) (hrepa : ∀ c ∈ rep, isAlnumC c = true)
    {x : List Char} (hx_sacs : sacs x) (hx_dbl : ¬ ([' ', ' '] <:+: x))
    (hx_head : x.head? ≠ some ' ') (hx_last : x.getLast? ≠ some ' ') :
    sacs (replaceAllL ph rep x) ∧
      ¬ ([' ', ' '] <:+: replaceAllL ph rep x) ∧
      (replaceAllL ph rep x).head? ≠ some ' ' ∧
      (replaceAllL ph rep x).getLast? ≠ some ' ' ∧
      (∀ t ∈ runsP isAlnumC (replaceAllL ph rep x),
        t ∈ runsP isAlnumC x ∨ rep <:+: t) ∧
      (∀ m, m ≠ [] → (¬ (m <:+: rep)) →
        (∀ i, i < m.length → 1 ≤ i → ¬ (m.take i <:+ rep)) →
        (∀ i, i < m.length → 1 ≤ i → ¬ (m.drop i <+: rep) ∧ ¬ (rep <+: m.drop i)) →
        (m = ph ∨ ¬ (m <:+: x)) → ¬ (m <:+: replaceAllL ph rep x)) := by
  have hrp := replParts_exists ph rep hph x
  have hnosp : (' ' : Char) ∉ rep := by
    intro hsp
    have := hrepa ' ' hsp
    exact absurd this (by decide)
  refine ⟨?_, ?_, ?_, ?_, ?_, ?_⟩
  · exact replParts_sacs (fun c hc => Or.inl (hrepa c hc)) hrp hx_sacs
  · refine replParts_no_infix hph (by simp) hrp (Or.inr hx_dbl) ?_ ?_ ?_
    · intro h
      exact hnosp (h.subset (by simp))
    · intro i h1 h2
      have hi1 : i = 1 := by
        simp only [List.length_cons, List.length_nil] at h1
        omega
      subst hi1
      intro h
      exact hnosp (h.subset (by simp))
    · intro i h1 h2
      have hi1 : i = 1 := by
        simp only [List.length_cons, List.length_nil] at h1
        omega
      subst hi1
      constructor
      · intro h
        exact hnosp (h.subset (by simp))
      · intro h
        rcases h with ⟨t, ht⟩
        cases hr : rep with
        | nil => exact hrepne hr
        | cons r0 rs =>
          rw [hr, List.cons_append] at ht
          have hr0 : r0 = ' ' := by
            have := (List.cons.injEq _ _ _ _).mp ht
            exact this.1
          apply hnosp
          rw [hr, hr0]
          simp
  · rcases replParts_head hrepne hrp with h1 | h1
    · rw [h1]
      exact hx_head
    · rw [h1]
      obtain ⟨r0, rs, rfl⟩ := List.exists_cons_of_ne_nil hrepne
      intro h2
      injection h2 with h2
      have := hrepa r0 (by simp)
      rw [h2] at this
      exact absurd this (by decide)
  · by_cases hx0 : x = []
    · rw [(replParts_last hph hrepne hrp).1 hx0]
      intro h
      cases h
    · rcases ((replParts_last hph hrepne hrp).2 hx0).2 with h1 | h1
      · rw [h1]
        exact hx_last
      · rw [h1, List.getLast?_eq_getLast rep hrepne]
        intro h2
        injection h2 with h2
        have := hrepa _ (List.getLast_mem hrepne)
        rw [h2] at this
        exact absurd this (by decide)
  · intro t ht
    have hs := runsP_sound isAlnumC (replaceAllL ph rep x) t ht
    obtain ⟨a, b, heq, ha, hb⟩ := ctx_of_run isAlnumC (replaceAllL ph rep x) t ht
    rcases replParts_transfer hrepne hrepa hs.1 hrp a b heq ha hb with
      ⟨a2, b2, h1, h2, h3, -⟩ | h4
    · left
      rw [h1]
      exact run_of_ctx isAlnumC hs.1 hs.2 a2 b2 h2 h3
    · right
      exact h4
  · intro m hmne K0 KL KR hqc
    exact replParts_no_infix hph hmne hrp hqc K0 KL KR

theorem apply_norm_facts (u : String)
    (hshape : u.toList = joinToks (runsP isAlnumC u.toList)) :
    (apply_role_normalization u).toList =
        joinToks (runsP isAlnumC (apply_role_normalization u).toList) ∧
      (∀ t ∈ runsP isAlnumC (apply_role_normalization u).toList,
        t ∈ runsP isAlnumC u.toList ∨ ("waiter".toList <:+: t)) ∧
      ¬ ("waitress".toList <:+: (apply_role_normalization u).toList) ∧
      ¬ (("waiting staff").toList <:+: (apply_role_normalization u).toList) := by
  by_cases hu : u = ""
  · subst hu
    have hres : apply_role_normalization "" = "" := by
      unfold apply_role_normalization
      rw [if_pos rfl]
    rw [hres]
    refine ⟨rfl, ?_, ?_, ?_⟩
    · intro t ht
      rw [show ("" : String).toList = [] from rfl, runsP_nil] at ht
      cases ht
    · rintro ⟨a, b, hab⟩
      simp at hab
    · rintro ⟨a, b, hab⟩
      simp at hab
  · have hwfu : wfT isAlnumC (runsP isAlnumC u.toList) :=
      fun t ht => runsP_sound isAlnumC u.toList t ht
    have hx_sacs : sacs u.toList := sacs_of_shape hshape
    have hx_dbl : ¬ ([' ', ' '] <:+: u.toList) := by
      rw [hshape]
      exact no_dbl_space_join hwfu
    have hx_head : u.toList.head? ≠ some ' ' := by
      rw [hshape]
      exact join_head hwfu
    have hx_last : u.toList.getLast? ≠ some ' ' := by
      rw [hshape]
      exact join_last hwfu
    have hlow0 : lowerL u.toList = u.toList := lowerL_id_of_sacs hx_sacs
    have hstep1 : ∃ S1, (apply_role_normalization u).toList = collapseWs
        (if containsSubL "waiting staff".toList S1 then
          replaceAllL "waiting staff".toList "waiter".toList S1 else S1) ∧
        sacs S1 ∧ ¬ ([' ', ' '] <:+: S1) ∧ S1.head? ≠ some ' ' ∧
        S1.getLast? ≠ some ' ' ∧
        (∀ t ∈ runsP isAlnumC S1,
          t ∈ runsP isAlnumC u.toList ∨ ("waiter".toList <:+: t)) ∧
        ¬ ("waitress".toList <:+: S1) := by
      by_cases g1 : containsSubL "waitress".toList u.toList = true
      · have facts := replaceAll_step_facts "waitress".toList "waiter".toList
          (by decide) (by decide) (by decide) hx_sacs hx_dbl hx_head hx_last
        refine ⟨replaceAllL "waitress".toList "waiter".toList u.toList, ?_,
          facts.1, facts.2.1, facts.2.2.1, facts.2.2.2.1, facts.2.2.2.2.1, ?_⟩
        · simp only [apply_role_normalization, ROLE_NORMALIZE_MAP, List.foldl_cons,
            List.foldl_nil]
          rw [if_neg hu, hlow0, if_pos g1]
          exact mk_toList _
        · exact facts.2.2.2.2.2 "waitress".toList (by decide) (by decide)
            (by decide) (by decide) (Or.inl rfl)
      · refine ⟨u.toList, ?_, hx_sacs, hx_dbl, hx_head, hx_last,
          fun t ht => Or.inl ht, ?_⟩
        · simp only [apply_role_normalization, ROLE_NORMALIZE_MAP, List.foldl_cons,
            List.foldl_nil]
          rw [if_neg hu, hlow0, if_neg g1]
          exact mk_toList _
        · intro hc
          apply g1
          unfold containsSubL
          exact decide_eq_true hc
    obtain ⟨S1, hm1, hs1sacs, hs1dbl, hs1head, hs1last, hs1toks, hs1wfree⟩ := hstep1
    have hstep2 : ∃ S2, (apply_role_normalization u).toList = collapseWs S2 ∧
        sacs S2 ∧ ¬ ([' ', ' '] <:+: S2) ∧ S2.head? ≠ some ' ' ∧
        S2.getLast? ≠ some ' ' ∧
        (∀ t ∈ runsP isAlnumC S2,
          t ∈ runsP isAlnumC S1 ∨ ("waiter".toList <:+: t)) ∧
        ¬ ("waitress".toList <:+: S2) ∧
        ¬ (("waiting staff").toList <:+: S2) := by
      by_cases g2 : containsSubL "waiting staff".toList S1 = true
      · have facts := replaceAll_step_facts "waiting staff".toList "waiter".toList
          (by decide) (by decide) (by decide) hs1sacs hs1dbl hs1head hs1last
        refine ⟨replaceAllL "waiting staff".toList "waiter".toList S1, ?_,
          facts.1, facts.2.1, facts.2.2.1, facts.2.2.2.1, facts.2.2.2.2.1, ?_, ?_⟩
        · rw [hm1, if_pos g2]
        · exact facts.2.2.2.2.2 "waitress".toList (by decide) (by decide)
            (by decide) (by decide) (Or.inr hs1wfree)
        · exact facts.2.2.2.2.2 ("waiting staff").toList (by decide) (by decide)
            (by decide) (by decide) (Or.inl rfl)
      · refine ⟨S1, by rw [hm1, if_neg g2], hs1sacs, hs1dbl, hs1head, hs1last,
          fun t ht => Or.inl ht, hs1wfree, ?_⟩
        intro hc
        apply g2
        unfold containsSubL
        exact decide_eq_true hc
    obtain ⟨S2, hm2, hs2sacs, hs2dbl, hs2head, hs2last, hs2toks, hs2wfree,
      hs2wsfree⟩ := hstep2
    have hshape2 : S2 = joinToks (runsP isAlnumC S2) :=
      shape_reconstruct S2 hs2sacs hs2dbl hs2head hs2last
    have hws2 : wsSplit S2 = runsP isAlnumC S2 := wsSplit_eq_runs_of_sacs hs2sacs
    have hcoll : collapseWs S2 = S2 := by
      unfold collapseWs
      rw [hws2, ← hshape2]
    have hres : (apply_role_normalization u).toList = S2 := by
      rw [hm2, hcoll]
    rw [hres]
    refine ⟨hshape2, ?_, hs2wfree, hs2wsfree⟩
    intro t ht
    rcases hs2toks t ht with h1 | h1
    · rcases hs1toks t h1 with h2 | h2
      · exact Or.inl h2
      · exact Or.inr h2
    · exact Or.inr h1

theorem string_mk_toList (s : String) : String.mk s.toList = s := rfl

theorem waiter_token_not_forbidden {t : List Char} (hw : "waiter".toList <:+: t) :
    String.mk t ∉ FILLER_WORDS ∧ String.mk t ∉ TIME_WORDS ∧
      String.mk t ≠ "employment" ∧ String.mk t ≠ "career" := by
  refine ⟨?_, ?_, ?_, ?_⟩
  · intro hmem
    have hws : ∀ w ∈ FILLER_WORDS, ¬ ("waiter".toList <:+: w.toList) := by decide
    exact hws _ hmem (by rw [mk_toList]; exact hw)
  · intro hmem
    have hws : ∀ w ∈ TIME_WORDS, ¬ ("waiter".toList <:+: w.toList) := by decide
    exact hws _ hmem (by rw [mk_toList]; exact hw)
  · intro h0
    have h1 : "waiter".toList <:+: "employment".toList := by
      rw [← show t = "employment".toList from congrArg String.toList h0]
      exact hw
    exact absurd h1 (by decide)
  · intro h0
    have h1 : "waiter".toList <:+: "career".toList := by
      rw [← show t = "career".toList from congrArg String.toList h0]
      exact hw
    exact absurd h1 (by decide)

/-- Pass 1: a single application of `canonicalize_role` always lands in the
canonical invariant. -/
theorem canonicalize_inv (text : String) :
    canonInv (canonicalize_role text).toList := by
  obtain ⟨h1shape, h1fil⟩ := strip_fillers_shape text
  obtain ⟨h2shape, h2tok⟩ := strip_time_facts (strip_fillers text) h1shape
  obtain ⟨h3shape, h3tok, h3w, h3ws⟩ :=
    apply_norm_facts (strip_time_modifiers (strip_fillers text)) h2shape
  have hres : (canonicalize_role text).toList =
      (apply_role_normalization (strip_time_modifiers (strip_fillers text))).toList := by
    unfold canonicalize_role clean_text
    rw [mk_toList, cleanTextL_id_of_shape h3shape]
  rw [hres]
  refine ⟨h3shape, ?_, h3w, h3ws⟩
  intro t ht
  rcases h3tok t ht with h4 | h4
  · obtain ⟨h5, h6, h7, h8⟩ := h2tok t h4
    exact ⟨h1fil t h5, h6, h7, h8⟩
  · exact waiter_token_not_forbidden h4

/-- C5: role canonicalization is idempotent — for every input string `x`,
`canonicalize_role (canonicalize_role x) = canonicalize_role x`. -/
theorem canonicalize_role_idempotent (x : String) :
    canonicalize_role (canonicalize_role x) = canonicalize_role x := by
  have h := canonicalize_id_of_inv (canonicalize_inv x)
  rw [string_mk_toList] at h
  exact h
